import Mathlib

/-!
Verification development for the `egraphs.cpp` library (`src/egraphs.hpp`).

The C++ source is shallowly embedded as a functional state machine:

* machine pointers to `Node` records become indices into a list `nodes`;
* the mutable fields of `Node` (`_rank`, `_up`, `_children`, the hashcons
  membership given by `_prev_bucket`, the `_uses` ring, the `_down` ring)
  become fields of the `ENode` record, and mutation becomes functional
  update of the state;
* the intrusive cyclic `Use`/`Down` rings are represented as lists attached
  to the root node that owns the ring (ring concatenation in
  `Node::merge_roots` becomes list append; the order of a ring is an
  implementation detail that no specified property depends on);
* the bucketed hashcons table is represented by the `inHC` flag on each
  node together with key lookup by scanning node ids in order.  Buckets
  only affect performance: `Hashcons::get` compares the full key
  (`Node::eq`) along a chain, so the table implements exactly a
  `(data, children) -> node` map over the nodes whose `_prev_bucket` is
  set, which is what the scan computes;
* `uint64_t` cost arithmetic becomes `Nat` arithmetic clamped at
  `2 ^ 64 - 1` exactly as `EGraph::Cost::operator+` does;
* `std::unordered_map` values built by `extract` become association lists,
  so that the exact key set is observable;
* loops whose termination is not structural (`EGraph::merge`'s worklist
  drain, `extract`'s Dijkstra loop) take an explicit fuel argument.  For
  the merge drain a concrete sufficient fuel is computed from the state;
  for the extract loop the fuel is a parameter of the model.
-/

set_option maxHeartbeats 1000000
set_option linter.unusedSectionVars false

section Model

variable {D : Type} [DecidableEq D] [Inhabited D]

/-- Embedding of `EGraph::Node` (src/egraphs.hpp:337-480).  `data`,
`children` and `rank` are the fields of the same name; `up` is `_up`
(`none` encodes `nullptr`); `inHC` records whether the node is currently
in the hashcons (`_prev_bucket != nullptr`, cf. `is_in_hashcons`);
`uses` is the cyclic `_uses` ring of `(parent, child_index)` records and
`down` the cyclic `_down` ring, both meaningful at root nodes. -/
structure ENode (D : Type) where
  data : D
  children : List Nat
  rank : Nat
  up : Option Nat
  inHC : Bool
  uses : List (Nat × Nat)
  down : List Nat
deriving DecidableEq

instance : Inhabited (ENode D) :=
  ⟨⟨default, [], 0, none, false, [], []⟩⟩

/-- Embedding of the `EGraph` object: the arena-allocated nodes in
creation order, and the `_roots` set (kept as a duplicate-free list). -/
structure EG (D : Type) where
  nodes : List (ENode D)
  rootsL : List Nat
deriving DecidableEq

/-- Number of nodes ever created. -/
def EG.n (s : EG D) : Nat := s.nodes.length

/-- Dereference a node id. -/
def EG.get (s : EG D) (i : Nat) : ENode D := s.nodes.getD i default

/-- Replace node `i` (no-op when `i` is out of range). -/
def EG.setN (s : EG D) (i : Nat) (nd : ENode D) : EG D :=
  { s with nodes := s.nodes.set i nd }

def EG.setUp (s : EG D) (i : Nat) (v : Option Nat) : EG D :=
  s.setN i { s.get i with up := v }

def EG.setRank (s : EG D) (i : Nat) (v : Nat) : EG D :=
  s.setN i { s.get i with rank := v }

def EG.setInHC (s : EG D) (i : Nat) (v : Bool) : EG D :=
  s.setN i { s.get i with inHC := v }

def EG.setUses (s : EG D) (i : Nat) (v : List (Nat × Nat)) : EG D :=
  s.setN i { s.get i with uses := v }

def EG.setDown (s : EG D) (i : Nat) (v : List Nat) : EG D :=
  s.setN i { s.get i with down := v }

/-- Overwrite child slot `k` of node `p` (`parent.children[slot] = winner`
in `EGraph::merge`). -/
def EG.setChild (s : EG D) (p k c : Nat) : EG D :=
  s.setN p { s.get p with children := (s.get p).children.set k c }

/-- Child slot access totalized with default `0`; all uses are guarded by
bounds facts. -/
def EG.childAt (s : EG D) (p k : Nat) : Nat := (s.get p).children.getD k 0

/-- Fuel-indexed up-pointer chase: the first loop of `Node::root`
(src/egraphs.hpp:467-479). -/
def findRootF (s : EG D) : Nat → Nat → Nat
  | 0, i => i
  | fuel + 1, i =>
    match (s.get i).up with
    | none => i
    | some j => findRootF s fuel j

/-- Root of the e-class of `i`.  Fuel `s.n` suffices: along an up-chain
ranks strictly increase (invariant `upRank`) and stay below `s.n`. -/
def EG.rootOf (s : EG D) (i : Nat) : Nat := findRootF s s.n i

/-- Path-compression pass: the second loop of `Node::root` rewrites the
`_up` pointer of every node on the walked path to the root `r`. -/
def compressF (r : Nat) : Nat → EG D → Nat → EG D
  | 0, s, _ => s
  | fuel + 1, s, cur =>
    match (s.get cur).up with
    | none => s
    | some j => compressF r fuel (s.setUp cur (some r)) j

/-- Embedding of `Node::root`: returns the root and performs path
compression on the walked path. -/
def EG.rootC (s : EG D) (i : Nat) : EG D × Nat :=
  (compressF (s.rootOf i) s.n s i, s.rootOf i)

/-- Embedding of `Hashcons::get` (src/egraphs.hpp:499-509): find a node
currently in the hashcons whose key `(data, children)` matches.  The
bucket walk is modelled as a scan in id order; by invariant `hcUnique` at
most one live node matches, so the scan order is immaterial. -/
def hcGet (s : EG D) (d : D) (cs : List Nat) : Option Nat :=
  (List.range s.n).find? fun j =>
    (s.get j).inHC && decide ((s.get j).data = d) && decide ((s.get j).children = cs)

/-- Use-record creation loop of `EGraph::node` (src/egraphs.hpp:572-576):
for each child slot, splice a `(parent, slot)` use record into that
child's use ring. -/
def addParentUses (pid : Nat) : Nat → List Nat → EG D → EG D
  | _, [], s => s
  | k, c :: rest, s =>
    addParentUses pid (k + 1) rest (s.setUses c ((s.get c).uses ++ [(pid, k)]))

/-- Embedding of `EGraph::node` (src/egraphs.hpp:554-583).  Children are
expected to be root nodes (the `assert` at line 557).  On a hashcons hit
the root of the matched node is returned (with path compression);
otherwise a fresh node is allocated as a rank-0 root with a singleton
`down` ring, use records are spliced into the children, and the node is
inserted into the hashcons and the `_roots` set. -/
def EG.node (s : EG D) (d : D) (cs : List Nat) : EG D × Nat :=
  match hcGet s d cs with
  | some m => s.rootC m
  | none =>
    let id := s.n
    let s1 : EG D := { s with nodes := s.nodes ++ [⟨d, cs, 0, none, true, [], [id]⟩] }
    let s2 := addParentUses id 0 cs s1
    ({ s2 with rootsL := s2.rootsL ++ [id] }, id)

/-- Embedding of `MergeQueue::merge` (src/egraphs.hpp:610-618): push the
pair of current roots unless they already coincide.  `Node::root` is
called on both arguments, so both chains are path-compressed. -/
def EG.queueMerge (s : EG D) (q : List (Nat × Nat)) (a b : Nat) :
    EG D × List (Nat × Nat) :=
  let p1 := s.rootC a
  let p2 := p1.1.rootC b
  (p2.1, if p1.2 = p2.2 then q else q ++ [(p1.2, p2.2)])

/-- State effect of `Node::merge_roots` (src/egraphs.hpp:390-414) for
loser `a` and winner `b`: link `a.up = b`, bump `b`'s rank on a tie,
concatenate the `down` rings into `b`, and detach `a`'s rings.  The
donated use ring is snapshotted by the caller (`CycleRange` in the
source) and re-attached to `b` after the congruence walk. -/
def EG.mergeRootsS (s : EG D) (a b : Nat) : EG D :=
  let s1 := if (s.get a).rank = (s.get b).rank
    then (s.setUp a (some b)).setRank b ((s.get b).rank + 1)
    else s.setUp a (some b)
  let s2 := s1.setDown b ((s1.get b).down ++ (s1.get a).down)
  (s2.setDown a []).setUses a []

/-- Use-walk of `EGraph::merge` (src/egraphs.hpp:649-674) over the
donated use ring of the loser.  A stale parent (not in the hashcons) is
skipped and unspliced from the ring; a live parent is erased from the
hashcons, its recorded child slot is rewritten to the winner, and it is
either re-inserted (key now absent) or left evicted with a congruent
merge enqueued.  Returns the new state, the extended queue, and the use
records that remain on the ring (in the source, the live entries relinked
via `prev->next = use`). -/
def processUses (win : Nat) :
    List (Nat × Nat) → EG D → List (Nat × Nat) → List (Nat × Nat) →
    EG D × List (Nat × Nat) × List (Nat × Nat)
  | [], s, q, kept => (s, q, kept)
  | (p, k) :: rest, s, q, kept =>
    if (s.get p).inHC then
      let s2 := (s.setInHC p false).setChild p k win
      match hcGet s2 (s2.get p).data (s2.get p).children with
      | none => processUses win rest (s2.setInHC p true) q (kept ++ [(p, k)])
      | some other =>
        let pr := s2.queueMerge q p other
        processUses win rest pr.1 pr.2 (kept ++ [(p, k)])
    else
      processUses win rest s q kept

/-- Worklist drain of `bool EGraph::merge(MergeQueue&)`
(src/egraphs.hpp:627-678).  Each step canonicalizes the popped pair,
unions by rank (pop of `(a, b)` makes `b` the winner on ties), erases the
loser from `_roots`, walks the donated use ring, and re-attaches the
surviving use records to the winner's ring. -/
def mergeDrain : Nat → EG D → List (Nat × Nat) → Bool → EG D × Bool
  | 0, s, _, ch => (s, ch)
  | _ + 1, s, [], ch => (s, ch)
  | fuel + 1, s, (a, b) :: q, ch =>
    let p1 := s.rootC a
    let p2 := p1.1.rootC b
    if p1.2 = p2.2 then mergeDrain fuel p2.1 q ch
    else
      let s2 := p2.1
      let wl := if (s2.get p2.2).rank < (s2.get p1.2).rank
        then (p1.2, p2.2) else (p2.2, p1.2)
      let donated := (s2.get wl.2).uses
      let s4 : EG D :=
        { s2.mergeRootsS wl.2 wl.1 with rootsL := s2.rootsL.erase wl.2 }
      let res := processUses wl.1 donated s4 q []
      let s6 := res.1.setUses wl.1 ((res.1.get wl.1).uses ++ res.2.2)
      mergeDrain fuel s6 res.2.1 true

/-- Number of current roots. -/
def EG.rootCount (s : EG D) : Nat :=
  ((List.range s.n).filter fun i => (s.get i).up = none).length

/-- Total number of use records over all rings. -/
def EG.totalUses (s : EG D) : Nat :=
  ((List.range s.n).map fun i => (s.get i).uses.length).sum

/-- Sufficient fuel for the worklist drain: each skipped pair shortens
the queue and each union removes one root while enqueueing at most
`totalUses` pairs, so the measure
`queue.length + rootCount * (totalUses + 1)` strictly decreases. -/
def mergeFuel (s : EG D) (q : List (Nat × Nat)) : Nat :=
  q.length + s.rootCount * (s.totalUses + 1) + 1

/-- Embedding of the public batch merge `bool merge(MergeQueue&)`. -/
def EG.mergeQ (s : EG D) (q : List (Nat × Nat)) : EG D × Bool :=
  mergeDrain (mergeFuel s q) s q false

/-- Embedding of `void EGraph::merge(Node*, Node*)`
(src/egraphs.hpp:621-625). -/
def EG.merge (s : EG D) (a b : Nat) : EG D × Bool :=
  let pr := s.queueMerge [] a b
  pr.1.mergeQ pr.2

end Model

section Model2

variable {D : Type} [DecidableEq D] [Inhabited D]

/-- Full traversal of an e-class by `EClass::Iterator`
(src/egraphs.hpp:176-236).  `EClass(node)` canonicalizes via
`node->root()` (path compression), then walks the root's `down` ring,
yielding the nodes currently in the hashcons and skipping stale ones.
`operator++` relinks `prev->next` past stale entries, so after a full
traversal the ring consists of the (untraversed) leading stale prefix
followed by the live entries.  Returns the mutated state, the root, and
the yielded nodes in ring order. -/
def EG.classIter (s : EG D) (i : Nat) : EG D × Nat × List Nat :=
  let pr := s.rootC i
  let ring := (pr.1.get pr.2).down
  let ys := ring.filter fun j => (pr.1.get j).inHC
  let ring2 := (ring.takeWhile fun j => !(pr.1.get j).inHC) ++ ys
  (pr.1.setDown pr.2 ring2, pr.2, ys)

/-- Pattern-filtered traversal: `EClass::MatchIterator`
(src/egraphs.hpp:260-303) composes the base iterator with a matcher
predicate on the node's data (`NodeDataMatcher` tests `data == node->data()`,
`NodeKindMatcher` tests `kind == node->data().kind()`; both are instances
of a Boolean predicate `P` on the stored data). -/
def EG.classMatch (s : EG D) (i : Nat) (P : D → Bool) : EG D × Nat × List Nat :=
  let tr := s.classIter i
  (tr.1, tr.2.1, tr.2.2.filter fun j => P ((tr.1.get j).data))

/-- Embedding of `Node::at` (src/egraphs.hpp:456-461): bounds-checked
child access; `none` models the thrown `egraphs::Error`. -/
def ENode.atIdx (nd : ENode D) (k : Nat) : Option Nat :=
  if k < nd.children.length then some (nd.children.getD k 0) else none

/-- Value of `EGraph::Cost::inf()`: `~uint64_t(0) = 2^64 - 1`. -/
def INF : Nat := 2 ^ 64 - 1

/-- Embedding of `EGraph::Cost::operator+` (src/egraphs.hpp:696-703):
64-bit addition saturating to `inf` on overflow
(`__builtin_add_overflow` detects a sum `>= 2^64`). -/
def cadd (a b : Nat) : Nat := if a + b < 2 ^ 64 then a + b else INF

/-- Association-list lookup (`std::unordered_map::at`); the default is
only reached off the invariant (where the C++ `at` would throw). -/
def alookup : List (Nat × Nat) → Nat → Option Nat
  | [], _ => none
  | (k, v) :: rest, x => if k = x then some v else alookup rest x

def alookupD (m : List (Nat × Nat)) (x d : Nat) : Nat := (alookup m x).getD d

/-- Association-list update of an existing key (`map.at(k) = v`); never
inserts a new key. -/
def aupdate : List (Nat × Nat) → Nat → Nat → List (Nat × Nat)
  | [], _, _ => []
  | (k, v) :: rest, x, nv =>
    if k = x then (k, nv) :: rest else (k, v) :: aupdate rest x nv

/-- Cost function derived from a per-data cost, as built by
`extract(const DataCostFn&)` (src/egraphs.hpp:816-824):
`cost = data_cost(node->data()); for (child : *node) cost += costs.at(child);`. -/
def cfn (s : EG D) (base : D → Nat) (costs : List (Nat × Nat)) (p : Nat) : Nat :=
  (s.get p).children.foldl (fun acc c => cadd acc (alookupD costs c INF))
    (base ((s.get p).data))

/-- Relaxation step shared by the seeding and main loops of
`EGraph::extract` (src/egraphs.hpp:770-776 and 795-802): on improvement,
push the class with the candidate cost and record the representative. -/
def relax (r cand nd : Nat) (costs extr queue : List (Nat × Nat)) :
    List (Nat × Nat) × List (Nat × Nat) × List (Nat × Nat) :=
  if cand < alookupD costs r INF then
    (aupdate costs r cand, aupdate extr r nd, queue ++ [(r, cand)])
  else (costs, extr, queue)

/-- Seed pass over the live members of one class: leaf nodes (no
children) are costed and relaxed against the class root `r`. -/
def seedYs (s : EG D) (base : D → Nat) (r : Nat) :
    List Nat → List (Nat × Nat) → List (Nat × Nat) → List (Nat × Nat) →
    List (Nat × Nat) × List (Nat × Nat) × List (Nat × Nat)
  | [], costs, extr, q => (costs, extr, q)
  | j :: js, costs, extr, q =>
    if (s.get j).children.length = 0 then
      let tr := relax r (cfn s base costs j) j costs extr q
      seedYs s base r js tr.1 tr.2.1 tr.2.2
    else
      seedYs s base r js costs extr q

/-- Seeding loop of `EGraph::extract` (src/egraphs.hpp:767-779): for
each root, iterate its class (which compacts the `down` ring) and relax
the leaf members. -/
def seedLoop (base : D → Nat) :
    List Nat → EG D → List (Nat × Nat) → List (Nat × Nat) → List (Nat × Nat) →
    EG D × List (Nat × Nat) × List (Nat × Nat) × List (Nat × Nat)
  | [], s, costs, extr, q => (s, costs, extr, q)
  | r :: rest, s, costs, extr, q =>
    let tr := s.classIter r
    let tr2 := seedYs tr.1 base r tr.2.2 costs extr q
    seedLoop base rest tr.1 tr2.1 tr2.2.1 tr2.2.2

/-- First queue item of minimal cost: `std::priority_queue<QueueItem>`
with `QueueItem::operator<` comparing `cost >` pops a minimum-cost item
(ties broken in an unspecified way; the model takes the earliest). -/
def minItem : List (Nat × Nat) → Option (Nat × Nat)
  | [] => none
  | x :: xs =>
    match minItem xs with
    | none => some x
    | some y => some (if x.2 ≤ y.2 then x else y)

/-- Relaxation walk over the use ring of a popped class
(src/egraphs.hpp:790-810): every live user is costed with the current
cost map, canonicalized via `node->root()` (path compression), and
relaxed. -/
def relaxUses (base : D → Nat) :
    List (Nat × Nat) → EG D → List (Nat × Nat) → List (Nat × Nat) → List (Nat × Nat) →
    EG D × List (Nat × Nat) × List (Nat × Nat) × List (Nat × Nat)
  | [], s, costs, extr, q => (s, costs, extr, q)
  | (p, _) :: rest, s, costs, extr, q =>
    if (s.get p).inHC then
      let cand := cfn s base costs p
      let pr := s.rootC p
      let tr := relax pr.2 cand p costs extr q
      relaxUses base rest pr.1 tr.1 tr.2.1 tr.2.2
    else
      relaxUses base rest s costs extr q

/-- Main Dijkstra loop of `EGraph::extract` (src/egraphs.hpp:781-811):
pop a minimal item, skip it when stale (`item.cost != costs.at(item.node)`),
otherwise relax all live users of the popped class.  The `assert(cost >
item.cost)` of the source is a debug check with no effect on the state.
Fuel is an explicit parameter of the model. -/
def extractLoop (base : D → Nat) :
    Nat → EG D → List (Nat × Nat) → List (Nat × Nat) → List (Nat × Nat) →
    EG D × List (Nat × Nat) × List (Nat × Nat) × List (Nat × Nat)
  | 0, s, costs, extr, q => (s, costs, extr, q)
  | fuel + 1, s, costs, extr, q =>
    match minItem q with
    | none => (s, costs, extr, q)
    | some it =>
      let q1 := q.erase it
      if alookupD costs it.1 INF = it.2 then
        let tr := relaxUses base ((s.get it.1).uses) s costs extr q1
        extractLoop base fuel tr.1 tr.2.1 tr.2.2.1 tr.2.2.2
      else
        extractLoop base fuel s costs extr q1

/-- Embedding of `EGraph::extract` for a `DataCostFn`-derived cost
(src/egraphs.hpp:741-814 with the lambda of 816-824).  Both internal maps
are returned along with the mutated state and the final queue; the C++
function returns the `extracted` component. -/
def EG.extract (s : EG D) (base : D → Nat) (fuel : Nat) :
    EG D × List (Nat × Nat) × List (Nat × Nat) × List (Nat × Nat) :=
  let costs0 := s.rootsL.map fun r => (r, INF)
  let extr0 := s.rootsL.map fun r => (r, r)
  let sd := seedLoop base s.rootsL s costs0 extr0 []
  extractLoop base fuel sd.1 sd.2.1 sd.2.2.1 sd.2.2.2

end Model2

section Arena

/-- Slab size `Arena::SIZE` (src/egraphs.hpp:50). -/
def arenaSIZE : Nat := 4 * 1024 * 1024

/-- Embedding of `ArenaAllocator::Arena` (src/egraphs.hpp:49-81): `base`
is the address of `data`, `top` the bump pointer. -/
structure Arena where
  base : Nat
  top : Nat
deriving DecidableEq

/-- Embedding of `Arena::alloc` (src/egraphs.hpp:73-80):
`offset = top + alignment - top % alignment`; fail when
`offset + size > data + SIZE`, else bump and return `offset`. -/
def Arena.alloc (a : Arena) (size alignment : Nat) : Option (Arena × Nat) :=
  let offset := a.top + alignment - a.top % alignment
  if a.base + arenaSIZE < offset + size then none
  else some (⟨a.base, offset + size⟩, offset)

/-- Embedding of `ArenaAllocator::alloc` (src/egraphs.hpp:91-100): try
the current slab; on failure append a fresh slab (at address `freshBase`,
an arbitrary address returned by `new`) and retry once.  The source
asserts that the retry succeeds (`assert(ptr != nullptr)`); the model
returns `none` where the assertion would fail. -/
def allocatorAlloc (cur : Arena) (freshBase size alignment : Nat) :
    Option (Arena × Nat) :=
  match cur.alloc size alignment with
  | some res => some res
  | none => Arena.alloc ⟨freshBase, freshBase⟩ size alignment

end Arena

section Terms

variable {D : Type} [DecidableEq D] [Inhabited D]

mutual

/-- Concrete term over e-graph nodes: a node id together with one
subterm per child slot.  Terms are the "acyclic term selections" of the
specification, unrolled per occurrence. -/
inductive GT where
  | mk : Nat → GTList → GT

inductive GTList where
  | nil : GTList
  | cons : GT → GTList → GTList

end

/-- Head node of a term. -/
def GT.headN : GT → Nat
  | .mk p _ => p

mutual

/-- Saturating total cost of a term under a per-data cost `base`,
mirroring the `DataCostFn` lambda: start from `base(data)` and fold the
subterm costs with saturating addition, in child order. -/
def costT (s : EG D) (base : D → Nat) : GT → Nat
  | .mk p subs => costL s base (base ((s.get p).data)) subs

def costL (s : EG D) (base : D → Nat) : Nat → GTList → Nat
  | acc, .nil => acc
  | acc, .cons t ts => costL s base (cadd acc (costT s base t)) ts

end

mutual

/-- Validity of a term at an e-class: the head is a node of the class
that is currently in the hashcons, and each subterm is valid at the
class of the corresponding child slot. -/
inductive ValidT (s : EG D) : Nat → GT → Prop where
  | mk (p : Nat) (subs : GTList) :
      p < s.n → (s.get p).inHC = true →
      ValidSubs s (s.get p).children subs →
      ValidT s (s.rootOf p) (.mk p subs)

inductive ValidSubs (s : EG D) : List Nat → GTList → Prop where
  | nil : ValidSubs s [] .nil
  | cons (c : Nat) (cs : List Nat) (t : GT) (ts : GTList) :
      ValidT s (s.rootOf c) t → ValidSubs s cs ts →
      ValidSubs s (c :: cs) (.cons t ts)

end

end Terms

section Reachability

variable {D : Type} [DecidableEq D] [Inhabited D]

/-- The empty e-graph (a freshly constructed `EGraph`). -/
def egEmpty (D : Type) : EG D := ⟨[], []⟩

/-- States reachable through the public interface: node construction
(with the documented precondition that supplied children are current
roots), the two merge entry points, explicit canonicalization
`Node::root`, e-class iteration (which compacts `down` rings) and
extraction (which path-compresses and compacts rings). -/
inductive Reach : EG D → Prop where
  | empty : Reach (egEmpty D)
  | node (s : EG D) (d : D) (cs : List Nat) : Reach s →
      (∀ c ∈ cs, c < s.n ∧ (s.get c).up = none) → Reach (s.node d cs).1
  | merge (s : EG D) (a b : Nat) : Reach s → a < s.n → b < s.n →
      Reach (s.merge a b).1
  | mergeQ (s : EG D) (q : List (Nat × Nat)) : Reach s →
      (∀ pq ∈ q, pq.1 < s.n ∧ pq.2 < s.n) → Reach (s.mergeQ q).1
  | rootC (s : EG D) (i : Nat) : Reach s → i < s.n → Reach (s.rootC i).1
  | classIter (s : EG D) (i : Nat) : Reach s → i < s.n → Reach (s.classIter i).1
  | extract (s : EG D) (base : D → Nat) (fuel : Nat) : Reach s →
      Reach (s.extract base fuel).1

end Reachability

section Invariant

variable {D : Type} [DecidableEq D] [Inhabited D]

/-- Representation invariant of the e-graph, holding in every reachable
state (theorem `reach_inv`).  The union-find fields satisfy the
rank discipline; `rootsL` mirrors the set of current roots; nodes in the
hashcons have root children and pairwise distinct keys; every use ring
hangs off a root, its records point back at it from the recorded child
slot of live parents, every child slot of a live parent is recorded in
exactly one ring; `down` rings partition class members and contain at
least every live member. -/
structure EGInv (s : EG D) : Prop where
  chl : ∀ i < s.n, ∀ c ∈ (s.get i).children, c < s.n
  upLt : ∀ i < s.n, ∀ j, (s.get i).up = some j → j < s.n
  upRank : ∀ i < s.n, ∀ j, (s.get i).up = some j → (s.get i).rank < (s.get j).rank
  rankBound : ∀ i < s.n, (s.get i).rank + s.rootCount ≤ s.n
  rootPos : s.n = 0 ∨ 0 < s.rootCount
  rootsIff : ∀ i, i ∈ s.rootsL ↔ (i < s.n ∧ (s.get i).up = none)
  rootsND : s.rootsL.Nodup
  hcChildRoot : ∀ i < s.n, (s.get i).inHC = true →
      ∀ c ∈ (s.get i).children, (s.get c).up = none
  hcUnique : ∀ i < s.n, ∀ j < s.n, (s.get i).inHC = true → (s.get j).inHC = true →
      (s.get i).data = (s.get j).data → (s.get i).children = (s.get j).children →
      i = j
  usesWF : ∀ r < s.n, ∀ pk ∈ (s.get r).uses,
      pk.1 < s.n ∧ pk.2 < (s.get pk.1).children.length
  usesOwnerRoot : ∀ r < s.n, (s.get r).uses ≠ [] → (s.get r).up = none
  usesAcc : ∀ r < s.n, ∀ pk ∈ (s.get r).uses, (s.get pk.1).inHC = true →
      (s.get pk.1).children.getD pk.2 0 = r
  usesCompl : ∀ p < s.n, (s.get p).inHC = true →
      ∀ k < (s.get p).children.length, ∃ r, r < s.n ∧ (p, k) ∈ (s.get r).uses
  usesND : ∀ r < s.n, (s.get r).uses.Nodup
  usesDisj : ∀ r < s.n, ∀ r2 < s.n, r ≠ r2 →
      ∀ pk ∈ (s.get r).uses, pk ∉ (s.get r2).uses
  downSub : ∀ i < s.n, (s.get i).up ≠ none → (s.get i).down = []
  downMem : ∀ r < s.n, ∀ j ∈ (s.get r).down, j < s.n ∧ s.rootOf j = r
  downCompl : ∀ j < s.n, (s.get j).inHC = true → j ∈ (s.get (s.rootOf j)).down
  downND : ∀ r < s.n, (s.get r).down.Nodup

/-- Observables that `extract` leaves unchanged (claim C7): node count,
per-node data, children and hashcons membership, the roots set, the use
rings, and the induced equivalence (`rootOf`). -/
structure Frame (s0 s : EG D) : Prop where
  n_eq : s.n = s0.n
  data_eq : ∀ i, (s.get i).data = (s0.get i).data
  children_eq : ∀ i, (s.get i).children = (s0.get i).children
  inHC_eq : ∀ i, (s.get i).inHC = (s0.get i).inHC
  uses_eq : ∀ i, (s.get i).uses = (s0.get i).uses
  roots_eq : s.rootsL = s0.rootsL
  root_eq : ∀ i, s.rootOf i = s0.rootOf i

/-- Invariant of the `costs`/`extracted` maps during `EGraph::extract`
(src/egraphs.hpp:758-813), relative to the pre-extract state `s0`:
both maps are keyed exactly by the roots (initialized from `classes`),
stored costs never exceed `inf`, a class whose cost is still `inf` keeps
its initial representative (the root itself), and every recorded
representative belongs to its key's class. -/
def MInv (s0 : EG D) (costs extr : List (Nat × Nat)) : Prop :=
  costs.map Prod.fst = s0.rootsL ∧
  extr.map Prod.fst = s0.rootsL ∧
  (∀ r v, alookup costs r = some v → v ≤ INF) ∧
  (∀ r, r ∈ s0.rootsL → alookupD costs r INF = INF → alookup extr r = some r) ∧
  (∀ r nd, alookup extr r = some nd → s0.rootOf nd = r)

/-- Dijkstra local stability of a node `p` during `EGraph::extract`:
either the recorded cost of `p`'s class is at most `p`'s current
evaluated cost, or some child class of `p` has a fresh (non-stale) item
pending in the priority queue, whose pop will re-relax `p`.  Children of
live nodes are roots, so child classes are keyed by the child id. -/
def stabP (s0 : EG D) (base : D → Nat) (costs q : List (Nat × Nat))
    (p : Nat) : Prop :=
  alookupD costs (s0.rootOf p) INF ≤ cfn s0 base costs p ∨
  ∃ c ∈ (s0.get p).children, (c, alookupD costs c INF) ∈ q

/-- Cost soundness during `EGraph::extract`: every class whose recorded
cost is finite has a valid term over the e-graph achieving exactly that
cost, headed by the recorded representative. -/
def CInvP (s0 : EG D) (base : D → Nat) (costs extr : List (Nat × Nat)) : Prop :=
  ∀ r, alookupD costs r INF < INF →
    ∃ nd t, alookup extr r = some nd ∧ ValidT s0 r t ∧ GT.headN t = nd ∧
      costT s0 base t = alookupD costs r INF

end Invariant

section UFDefs

variable {D : Type} [DecidableEq D] [Inhabited D]

/-- Union-find well-formedness: ranks are below `n`, and up-pointers stay
in range with strictly increasing rank.  This is the fragment of `EGInv`
that makes `rootOf` reach an actual root with fuel `s.n`. -/
def UF (s : EG D) : Prop :=
  (∀ i < s.n, (s.get i).rank < s.n) ∧
  (∀ i < s.n, ∀ j, (s.get i).up = some j → j < s.n ∧ (s.get i).rank < (s.get j).rank)

/-- Reachability along up-pointers. -/
inductive UpReach (s : EG D) : Nat → Nat → Prop where
  | refl (i : Nat) : UpReach s i i
  | step (i j k : Nat) : (s.get i).up = some j → UpReach s j k → UpReach s i k

end UFDefs

section PureUpDef

variable {D : Type} [DecidableEq D] [Inhabited D]

/-- Relation between states that differ only in union-find `up` pointers
in a way that preserves root-ness and the induced equivalence.  Path
compression (`Node::root`) produces exactly such a state change. -/
structure PureUp (s t : EG D) : Prop where
  n_eq : t.n = s.n
  roots_eq : t.rootsL = s.rootsL
  data_eq : ∀ j, (t.get j).data = (s.get j).data
  children_eq : ∀ j, (t.get j).children = (s.get j).children
  rank_eq : ∀ j, (t.get j).rank = (s.get j).rank
  inHC_eq : ∀ j, (t.get j).inHC = (s.get j).inHC
  uses_eq : ∀ j, (t.get j).uses = (s.get j).uses
  down_eq : ∀ j, (t.get j).down = (s.get j).down
  upNone_iff : ∀ j, ((t.get j).up = none) ↔ ((s.get j).up = none)
  root_eq : ∀ k, t.rootOf k = s.rootOf k

end PureUpDef

section MergeFactsDef

variable {D : Type} [DecidableEq D] [Inhabited D]

/-- Effect summary of `Node::merge_roots` (loser `a`, winner `b`) used
throughout the merge proofs. -/
structure MergeFacts (s t : EG D) (a b : Nat) : Prop where
  n_eq : t.n = s.n
  roots_eq : t.rootsL = s.rootsL
  data_eq : ∀ j, (t.get j).data = (s.get j).data
  children_eq : ∀ j, (t.get j).children = (s.get j).children
  inHC_eq : ∀ j, (t.get j).inHC = (s.get j).inHC
  uses_a : (t.get a).uses = []
  uses_ne : ∀ j, j ≠ a → (t.get j).uses = (s.get j).uses
  down_a : (t.get a).down = []
  down_b : (t.get b).down = (s.get b).down ++ (s.get a).down
  down_ne : ∀ j, j ≠ a → j ≠ b → (t.get j).down = (s.get j).down
  up_a : (t.get a).up = some b
  up_ne : ∀ j, j ≠ a → (t.get j).up = (s.get j).up
  rank_ne : ∀ j, j ≠ b → (t.get j).rank = (s.get j).rank
  rank_b : (t.get b).rank =
    if (s.get a).rank = (s.get b).rank then (s.get b).rank + 1 else (s.get b).rank
  uf : UF t
  root_eq : ∀ k, t.rootOf k = if s.rootOf k = a then b else s.rootOf k
  rc : t.rootCount + 1 = s.rootCount

end MergeFactsDef

section WalkInvDef

variable {D : Type} [DecidableEq D] [Inhabited D]

/-- Loop invariant of the use-walk inside `EGraph::merge`.  Mid-walk,
`lose` has just been linked under `win`; `rem` is the unprocessed suffix
of the donated use ring and `kept` the entries already relinked.  The
representation invariant holds except that a live parent's child slot may
still point at `lose` while its use record is pending in `rem`, and a
use record may sit in `rem`/`kept` instead of a ring. -/
structure WalkInv (s : EG D) (win lose : Nat)
    (rem kept : List (Nat × Nat)) : Prop where
  winLt : win < s.n
  loseLt : lose < s.n
  winRoot : (s.get win).up = none
  loseNR : (s.get lose).up ≠ none
  chl : ∀ i < s.n, ∀ c ∈ (s.get i).children, c < s.n
  upLt : ∀ i < s.n, ∀ j, (s.get i).up = some j → j < s.n
  upRank : ∀ i < s.n, ∀ j, (s.get i).up = some j → (s.get i).rank < (s.get j).rank
  rankBound : ∀ i < s.n, (s.get i).rank + s.rootCount ≤ s.n
  rootPos : s.n = 0 ∨ 0 < s.rootCount
  rootsIff : ∀ i, i ∈ s.rootsL ↔ (i < s.n ∧ (s.get i).up = none)
  rootsND : s.rootsL.Nodup
  hcCR : ∀ i < s.n, (s.get i).inHC = true → ∀ k < (s.get i).children.length,
      (s.get ((s.get i).children.getD k 0)).up = none ∨
      ((i, k) ∈ rem ∧ (s.get i).children.getD k 0 = lose)
  hcUnique : ∀ i < s.n, ∀ j < s.n, (s.get i).inHC = true → (s.get j).inHC = true →
      (s.get i).data = (s.get j).data → (s.get i).children = (s.get j).children →
      i = j
  usesWF : ∀ r < s.n, ∀ pk ∈ (s.get r).uses,
      pk.1 < s.n ∧ pk.2 < (s.get pk.1).children.length
  pendWF : ∀ pk ∈ rem ++ kept, pk.1 < s.n ∧ pk.2 < (s.get pk.1).children.length
  usesOwnerRoot : ∀ r < s.n, (s.get r).uses ≠ [] → (s.get r).up = none
  usesAcc : ∀ r < s.n, ∀ pk ∈ (s.get r).uses, (s.get pk.1).inHC = true →
      (s.get pk.1).children.getD pk.2 0 = r
  usesCompl : ∀ p < s.n, (s.get p).inHC = true →
      ∀ k < (s.get p).children.length,
      (∃ r, r < s.n ∧ (p, k) ∈ (s.get r).uses) ∨ (p, k) ∈ rem ∨ (p, k) ∈ kept
  usesND : ∀ r < s.n, (s.get r).uses.Nodup
  usesDisj : ∀ r < s.n, ∀ r2 < s.n, r ≠ r2 →
      ∀ pk ∈ (s.get r).uses, pk ∉ (s.get r2).uses
  pendND : (rem ++ kept).Nodup
  pendRingDisj : ∀ pk ∈ rem ++ kept, ∀ r < s.n, pk ∉ (s.get r).uses
  keptChild : ∀ pk ∈ kept, (s.get pk.1).children.getD pk.2 0 = win
  remChild : ∀ pk ∈ rem, (s.get pk.1).inHC = true →
      (s.get pk.1).children.getD pk.2 0 = lose
  downSub : ∀ i < s.n, (s.get i).up ≠ none → (s.get i).down = []
  downMem : ∀ r < s.n, ∀ j ∈ (s.get r).down, j < s.n ∧ s.rootOf j = r
  downCompl : ∀ j < s.n, (s.get j).inHC = true → j ∈ (s.get (s.rootOf j)).down
  downND : ∀ r < s.n, (s.get r).down.Nodup

end WalkInvDef

section BasicLemmas

variable {D : Type} [DecidableEq D] [Inhabited D]

theorem EG.n_setN (s : EG D) (i : Nat) (nd : ENode D) : (s.setN i nd).n = s.n := by
  simp [EG.n, EG.setN]

theorem EG.rootsL_setN (s : EG D) (i : Nat) (nd : ENode D) :
    (s.setN i nd).rootsL = s.rootsL := rfl

theorem EG.get_out (s : EG D) (i : Nat) (h : s.n ≤ i) : s.get i = default := by
  simp [EG.get, List.getD_eq_getElem?_getD, List.getElem?_eq_none (by simpa [EG.n] using h)]

theorem EG.get_setN (s : EG D) (i j : Nat) (nd : ENode D) :
    (s.setN i nd).get j = if j = i ∧ i < s.n then nd else s.get j := by
  by_cases hj : j = i
  · subst hj
    by_cases hi : j < s.n
    · simp only [hi, and_self, if_true]
      simp [EG.get, EG.setN, List.getD_eq_getElem?_getD,
        List.getElem?_set_eq_of_lt nd (show j < s.nodes.length from hi)]
    · simp [hi, EG.setN, EG.get,
        List.set_eq_of_length_le (by simpa [EG.n] using Nat.le_of_not_lt hi)]
  · simp only [hj, false_and, if_false]
    simp [EG.get, EG.setN, List.getD_eq_getElem?_getD, List.getElem?_set_ne (Ne.symm hj)]

theorem EG.get_setUp (s : EG D) (i : Nat) (v : Option Nat) (j : Nat) :
    (s.setUp i v).get j = if j = i ∧ i < s.n then { s.get i with up := v } else s.get j := by
  simp [EG.setUp, EG.get_setN]

theorem EG.get_setRank (s : EG D) (i : Nat) (v : Nat) (j : Nat) :
    (s.setRank i v).get j = if j = i ∧ i < s.n then { s.get i with rank := v } else s.get j := by
  simp [EG.setRank, EG.get_setN]

theorem EG.get_setInHC (s : EG D) (i : Nat) (v : Bool) (j : Nat) :
    (s.setInHC i v).get j = if j = i ∧ i < s.n then { s.get i with inHC := v } else s.get j := by
  simp [EG.setInHC, EG.get_setN]

theorem EG.get_setUses (s : EG D) (i : Nat) (v : List (Nat × Nat)) (j : Nat) :
    (s.setUses i v).get j = if j = i ∧ i < s.n then { s.get i with uses := v } else s.get j := by
  simp [EG.setUses, EG.get_setN]

theorem EG.get_setDown (s : EG D) (i : Nat) (v : List Nat) (j : Nat) :
    (s.setDown i v).get j = if j = i ∧ i < s.n then { s.get i with down := v } else s.get j := by
  simp [EG.setDown, EG.get_setN]

theorem EG.get_setChild (s : EG D) (p k c : Nat) (j : Nat) :
    (s.setChild p k c).get j =
      if j = p ∧ p < s.n then { s.get p with children := (s.get p).children.set k c }
      else s.get j := by
  simp [EG.setChild, EG.get_setN]

theorem EG.n_setUp (s : EG D) (i : Nat) (v : Option Nat) : (s.setUp i v).n = s.n :=
  EG.n_setN s i _

theorem EG.n_setRank (s : EG D) (i v : Nat) : (s.setRank i v).n = s.n :=
  EG.n_setN s i _

theorem EG.n_setInHC (s : EG D) (i : Nat) (v : Bool) : (s.setInHC i v).n = s.n :=
  EG.n_setN s i _

theorem EG.n_setUses (s : EG D) (i : Nat) (v : List (Nat × Nat)) : (s.setUses i v).n = s.n :=
  EG.n_setN s i _

theorem EG.n_setDown (s : EG D) (i : Nat) (v : List Nat) : (s.setDown i v).n = s.n :=
  EG.n_setN s i _

theorem EG.n_setChild (s : EG D) (p k c : Nat) : (s.setChild p k c).n = s.n :=
  EG.n_setN s p _

theorem EG.rootsL_setUp (s : EG D) (i : Nat) (v : Option Nat) :
    (s.setUp i v).rootsL = s.rootsL := rfl

theorem EG.rootsL_setRank (s : EG D) (i v : Nat) : (s.setRank i v).rootsL = s.rootsL := rfl

theorem EG.rootsL_setInHC (s : EG D) (i : Nat) (v : Bool) :
    (s.setInHC i v).rootsL = s.rootsL := rfl

theorem EG.rootsL_setUses (s : EG D) (i : Nat) (v : List (Nat × Nat)) :
    (s.setUses i v).rootsL = s.rootsL := rfl

theorem EG.rootsL_setDown (s : EG D) (i : Nat) (v : List Nat) :
    (s.setDown i v).rootsL = s.rootsL := rfl

theorem EG.rootsL_setChild (s : EG D) (p k c : Nat) :
    (s.setChild p k c).rootsL = s.rootsL := rfl

end BasicLemmas

section RootLemmas

variable {D : Type} [DecidableEq D] [Inhabited D]

theorem findRootF_sink (s : EG D) (f i : Nat) (h : (s.get i).up = none) :
    findRootF s f i = i := by
  cases f <;> simp [findRootF, h]

theorem findRootF_add (s : EG D) :
    ∀ f g i, findRootF s (f + g) i = findRootF s g (findRootF s f i) := by
  intro f
  induction f with
  | zero => intro g i; simp [findRootF]
  | succ f ih =>
    intro g i
    have hfg : f + 1 + g = (f + g) + 1 := by omega
    rw [hfg]
    rcases h : (s.get i).up with _ | j
    · rw [findRootF_sink s _ _ h, findRootF_sink s _ _ h, findRootF_sink s _ _ h]
    · have h1 : findRootF s (f + g + 1) i = findRootF s (f + g) j := by
        simp [findRootF, h]
      have h2 : findRootF s (f + 1) i = findRootF s f j := by
        simp [findRootF, h]
      rw [h1, h2, ih]

theorem findRootF_root (s : EG D) (hUF : UF s) :
    ∀ fuel i, i < s.n → s.n ≤ fuel + (s.get i).rank →
      (s.get (findRootF s fuel i)).up = none ∧ findRootF s fuel i < s.n := by
  intro fuel
  induction fuel with
  | zero =>
    intro i hi hf
    exact absurd (Nat.lt_of_lt_of_le (hUF.1 i hi) hf) (by omega)
  | succ fuel ih =>
    intro i hi hf
    rcases h : (s.get i).up with _ | j
    · rw [findRootF_sink s _ _ h]; exact ⟨h, hi⟩
    · obtain ⟨hj, hr⟩ := hUF.2 i hi j h
      have : findRootF s (fuel + 1) i = findRootF s fuel j := by simp [findRootF, h]
      rw [this]
      exact ih j hj (by omega)

theorem findRootF_adequate_eq (s : EG D) (hUF : UF s) :
    ∀ f1 f2 i, i < s.n → s.n ≤ f1 + (s.get i).rank → s.n ≤ f2 + (s.get i).rank →
      findRootF s f1 i = findRootF s f2 i := by
  intro f1
  induction f1 with
  | zero =>
    intro f2 i hi h1
    exact absurd (Nat.lt_of_lt_of_le (hUF.1 i hi) h1) (by omega)
  | succ f1 ih =>
    intro f2 i hi h1 h2
    rcases h : (s.get i).up with _ | j
    · rw [findRootF_sink s _ _ h, findRootF_sink s _ _ h]
    · obtain ⟨hj, hr⟩ := hUF.2 i hi j h
      cases f2 with
      | zero => exact absurd (Nat.lt_of_lt_of_le (hUF.1 i hi) h2) (by omega)
      | succ f2 =>
        have e1 : findRootF s (f1 + 1) i = findRootF s f1 j := by simp [findRootF, h]
        have e2 : findRootF s (f2 + 1) i = findRootF s f2 j := by simp [findRootF, h]
        rw [e1, e2]
        exact ih f2 j hj (by omega) (by omega)

theorem rootOf_fuel (s : EG D) (hUF : UF s) (f i : Nat) (hi : i < s.n)
    (hf : s.n ≤ f + (s.get i).rank) : findRootF s f i = s.rootOf i :=
  findRootF_adequate_eq s hUF f s.n i hi hf (by omega)

theorem up_rootOf (s : EG D) (hUF : UF s) (i : Nat) (hi : i < s.n) :
    (s.get (s.rootOf i)).up = none :=
  (findRootF_root s hUF s.n i hi (by omega)).1

theorem rootOf_lt (s : EG D) (hUF : UF s) (i : Nat) (hi : i < s.n) :
    s.rootOf i < s.n :=
  (findRootF_root s hUF s.n i hi (by omega)).2

theorem rootOf_of_root (s : EG D) (i : Nat) (h : (s.get i).up = none) :
    s.rootOf i = i :=
  findRootF_sink s s.n i h

theorem rootOf_out (s : EG D) (i : Nat) (h : s.n ≤ i) : s.rootOf i = i := by
  apply rootOf_of_root
  rw [EG.get_out s i h]
  rfl

theorem rootOf_idem (s : EG D) (hUF : UF s) (i : Nat) (hi : i < s.n) :
    s.rootOf (s.rootOf i) = s.rootOf i :=
  rootOf_of_root s _ (up_rootOf s hUF i hi)

theorem rootOf_up (s : EG D) (hUF : UF s) (i j : Nat) (hi : i < s.n)
    (h : (s.get i).up = some j) : s.rootOf i = s.rootOf j := by
  obtain ⟨hj, hr⟩ := hUF.2 i hi j h
  have hn1 : 1 ≤ s.n := Nat.lt_of_le_of_lt (Nat.zero_le i) hi
  have e1 : s.rootOf i = findRootF s s.n i := rfl
  have e2 : findRootF s s.n i = findRootF s (s.n - 1) j := by
    have : s.n = (s.n - 1) + 1 := by omega
    rw [e1.symm]
    show findRootF s s.n i = _
    rw [this]
    simp [findRootF, h]
  rw [e1, e2]
  exact rootOf_fuel s hUF (s.n - 1) j hj (by omega)

theorem upReach_findRootF (s : EG D) : ∀ f i, UpReach s i (findRootF s f i) := by
  intro f
  induction f with
  | zero => intro i; exact UpReach.refl i
  | succ f ih =>
    intro i
    rcases h : (s.get i).up with _ | j
    · rw [findRootF_sink s _ _ h]; exact UpReach.refl i
    · have : findRootF s (f + 1) i = findRootF s f j := by simp [findRootF, h]
      rw [this]
      exact UpReach.step i j _ h (ih j)

theorem upReach_rootOf (s : EG D) (i : Nat) : UpReach s i (s.rootOf i) :=
  upReach_findRootF s s.n i

theorem rootOf_of_upReach (s : EG D) (hUF : UF s) :
    ∀ i r, UpReach s i r → (s.get r).up = none → i < s.n → s.rootOf i = r := by
  intro i r h
  induction h with
  | refl i => intro hr _; exact rootOf_of_root s i hr
  | step i j k hij hjk ih =>
    intro hr hi
    obtain ⟨hj, _⟩ := hUF.2 i hi j hij
    rw [rootOf_up s hUF i j hi hij]
    exact ih hr hj

theorem upReach_rank (s : EG D) (hUF : UF s) :
    ∀ i r, UpReach s i r → i < s.n → (s.get i).rank ≤ (s.get r).rank := by
  intro i r h
  induction h with
  | refl => intro; exact Nat.le_refl _
  | step i j k hij hjk ih =>
    intro hi
    obtain ⟨hj, hr⟩ := hUF.2 i hi j hij
    exact Nat.le_trans (Nat.le_of_lt hr) (ih hj)

theorem rank_lt_rootOf (s : EG D) (hUF : UF s) (i j : Nat) (hi : i < s.n)
    (h : (s.get i).up = some j) : (s.get i).rank < (s.get (s.rootOf i)).rank := by
  obtain ⟨hj, hr⟩ := hUF.2 i hi j h
  have := upReach_rank s hUF j (s.rootOf j) (upReach_rootOf s j) hj
  rw [rootOf_up s hUF i j hi h]
  omega

end RootLemmas

section PureUpLemmas

variable {D : Type} [DecidableEq D] [Inhabited D]

theorem pureUp_refl (s : EG D) : PureUp s s :=
  ⟨rfl, rfl, fun _ => rfl, fun _ => rfl, fun _ => rfl, fun _ => rfl, fun _ => rfl,
   fun _ => rfl, fun _ => Iff.rfl, fun _ => rfl⟩

theorem pureUp_trans {s t u : EG D} (h1 : PureUp s t) (h2 : PureUp t u) : PureUp s u :=
  ⟨h2.n_eq.trans h1.n_eq, h2.roots_eq.trans h1.roots_eq,
   fun j => (h2.data_eq j).trans (h1.data_eq j),
   fun j => (h2.children_eq j).trans (h1.children_eq j),
   fun j => (h2.rank_eq j).trans (h1.rank_eq j),
   fun j => (h2.inHC_eq j).trans (h1.inHC_eq j),
   fun j => (h2.uses_eq j).trans (h1.uses_eq j),
   fun j => (h2.down_eq j).trans (h1.down_eq j),
   fun j => (h2.upNone_iff j).trans (h1.upNone_iff j),
   fun k => (h2.root_eq k).trans (h1.root_eq k)⟩

theorem PureUp.rootCount_eq {s t : EG D} (h : PureUp s t) :
    t.rootCount = s.rootCount := by
  unfold EG.rootCount
  rw [h.n_eq]
  congr 1
  apply List.filter_congr
  intro i _
  simp only [decide_eq_decide]
  exact h.upNone_iff i

theorem PureUp.totalUses_eq {s t : EG D} (h : PureUp s t) :
    t.totalUses = s.totalUses := by
  unfold EG.totalUses
  rw [h.n_eq]
  congr 1
  apply List.map_congr_left
  intro i _
  rw [h.uses_eq i]

theorem egInv_UF {s : EG D} (hI : EGInv s) : UF s := by
  constructor
  · intro i hi
    have h1 := hI.rankBound i hi
    have h2 : 0 < s.rootCount := by
      rcases hI.rootPos with h | h
      · omega
      · exact h
    omega
  · intro i hi j hup
    exact ⟨hI.upLt i hi j hup, hI.upRank i hi j hup⟩

theorem egInv_of_pureUp {s t : EG D} (hI : EGInv s) (hUFt : UF t) (h : PureUp s t) :
    EGInv t := by
  have hn := h.n_eq
  constructor
  · intro i hi c hc
    rw [h.children_eq] at hc
    rw [hn]
    exact hI.chl i (by omega) c hc
  · intro i hi j hup
    have := (hUFt.2 i hi j hup).1
    omega
  · intro i hi j hup
    exact (hUFt.2 i hi j hup).2
  · intro i hi
    rw [h.rank_eq, hn, h.rootCount_eq]
    exact hI.rankBound i (by omega)
  · rw [hn, h.rootCount_eq]
    exact hI.rootPos
  · intro i
    rw [h.roots_eq, hn]
    exact (hI.rootsIff i).trans (by rw [h.upNone_iff i])
  · rw [h.roots_eq]; exact hI.rootsND
  · intro i hi hhc c hc
    rw [h.children_eq] at hc
    rw [h.inHC_eq] at hhc
    rw [h.upNone_iff]
    exact hI.hcChildRoot i (by omega) hhc c hc
  · intro i hi j hj hhi hhj hd hc
    rw [h.inHC_eq] at hhi hhj
    rw [h.data_eq, h.data_eq] at hd
    rw [h.children_eq, h.children_eq] at hc
    exact hI.hcUnique i (by omega) j (by omega) hhi hhj hd hc
  · intro r hr pk hpk
    rw [h.uses_eq] at hpk
    rw [hn, h.children_eq]
    exact hI.usesWF r (by omega) pk hpk
  · intro r hr hne
    rw [h.uses_eq] at hne
    rw [h.upNone_iff]
    exact hI.usesOwnerRoot r (by omega) hne
  · intro r hr pk hpk hhc
    rw [h.uses_eq] at hpk
    rw [h.inHC_eq] at hhc
    rw [h.children_eq]
    exact hI.usesAcc r (by omega) pk hpk hhc
  · intro p hp hhc k hk
    rw [h.inHC_eq] at hhc
    rw [h.children_eq] at hk
    obtain ⟨r, hr, hmem⟩ := hI.usesCompl p (by omega) hhc k hk
    exact ⟨r, by omega, by rw [h.uses_eq]; exact hmem⟩
  · intro r hr
    rw [h.uses_eq]
    exact hI.usesND r (by omega)
  · intro r hr r2 hr2 hne pk hpk
    rw [h.uses_eq] at hpk
    rw [h.uses_eq]
    exact hI.usesDisj r (by omega) r2 (by omega) hne pk hpk
  · intro i hi hup
    rw [h.down_eq]
    have hup2 : (s.get i).up ≠ none := fun hc => hup ((h.upNone_iff i).mpr hc)
    exact hI.downSub i (by omega) hup2
  · intro r hr j hj
    rw [h.down_eq] at hj
    rw [hn, h.root_eq]
    exact hI.downMem r (by omega) j hj
  · intro j hj hhc
    rw [h.inHC_eq] at hhc
    rw [h.root_eq, h.down_eq]
    exact hI.downCompl j (by omega) hhc
  · intro r hr
    rw [h.down_eq]
    exact hI.downND r (by omega)

end PureUpLemmas

section CompressLemmas

variable {D : Type} [DecidableEq D] [Inhabited D]

theorem setUp_compress_UF (s : EG D) (hUF : UF s) (x r : Nat)
    (hx : x < s.n) (hxnr : (s.get x).up ≠ none) (hr : s.rootOf x = r) :
    UF (s.setUp x (some r)) := by
  rcases hj : (s.get x).up with _ | j
  · exact absurd hj hxnr
  have hrlt : r < s.n := hr ▸ rootOf_lt s hUF x hx
  have hrank : (s.get x).rank < (s.get r).rank := hr ▸ rank_lt_rootOf s hUF x j hx hj
  constructor
  · intro i hi
    rw [EG.n_setUp] at hi ⊢
    rw [EG.get_setUp]
    split
    · simpa using hUF.1 x hx
    · exact hUF.1 i hi
  · intro i hi j2 hup
    rw [EG.n_setUp] at hi ⊢
    rw [EG.get_setUp] at hup
    by_cases hix : i = x
    · subst hix
      rw [if_pos ⟨rfl, hi⟩] at hup
      have hsome : some r = some j2 := hup
      have hj2r : j2 = r := (Option.some.inj hsome).symm
      subst hj2r
      refine ⟨hrlt, ?_⟩
      rw [EG.get_setUp, EG.get_setUp]
      have hir : ¬(j2 = i ∧ i < s.n) := by
        intro hc
        have h2 := up_rootOf s hUF i hi
        rw [hr] at h2
        rw [hc.1] at h2
        exact hxnr h2
      rw [if_pos ⟨rfl, hi⟩, if_neg hir]
      exact hrank
    · simp [hix] at hup
      obtain ⟨hj2, hrk⟩ := hUF.2 i hi j2 hup
      refine ⟨hj2, ?_⟩
      rw [EG.get_setUp, EG.get_setUp]
      by_cases hj2x : j2 = x
      · subst hj2x
        simp [hix, hj2]
        exact hrk
      · simp [hix, hj2x]
        exact hrk

theorem setUp_compress_rootOf (s : EG D) (hUF : UF s) (x r : Nat)
    (hx : x < s.n) (hxnr : (s.get x).up ≠ none) (hr : s.rootOf x = r) :
    ∀ k, (s.setUp x (some r)).rootOf k = s.rootOf k := by
  have hUFt := setUp_compress_UF s hUF x r hx hxnr hr
  have hrlt : r < s.n := hr ▸ rootOf_lt s hUF x hx
  have hrroot : (s.get r).up = none := hr ▸ up_rootOf s hUF x hx
  have hxr : r ≠ x := by
    intro hc; exact hxnr (hc ▸ hrroot)
  have hupx : ((s.setUp x (some r)).get x).up = some r := by
    rw [EG.get_setUp]; simp [hx]
  have hupne : ∀ j, j ≠ x → ((s.setUp x (some r)).get j).up = (s.get j).up := by
    intro j hj
    rw [EG.get_setUp]; simp [hj]
  have hn : (s.setUp x (some r)).n = s.n := EG.n_setN s x _
  have main : ∀ k rk, UpReach s k rk → rk = s.rootOf k → k < s.n →
      (s.setUp x (some r)).rootOf k = s.rootOf k := by
    intro k rk h
    induction h with
    | refl i =>
      intro hrk hi
      have hroot : (s.get i).up = none := by
        have := up_rootOf s hUF i hi
        rw [← hrk] at this
        exact this
      have hix : i ≠ x := fun hc => hxnr (hc ▸ hroot)
      rw [rootOf_of_root s i hroot]
      apply rootOf_of_root
      rw [hupne i hix]
      exact hroot
    | step i j k hij hjk ih =>
      intro hrk hi
      obtain ⟨hjlt, _⟩ := hUF.2 i hi j hij
      have hrkj : k = s.rootOf j := by
        rw [hrk, rootOf_up s hUF i j hi hij]
      have hres : (s.setUp x (some r)).rootOf j = s.rootOf j := ih hrkj hjlt
      by_cases hix : i = x
      · subst hix
        have e1 : (s.setUp i (some r)).rootOf i = (s.setUp i (some r)).rootOf r :=
          rootOf_up _ hUFt i r (by omega) hupx
        have e2 : (s.setUp i (some r)).rootOf r = r := by
          apply rootOf_of_root
          rw [hupne r hxr]
          exact hrroot
        rw [e1, e2, ← hr]
      · have e1 : (s.setUp x (some r)).rootOf i = (s.setUp x (some r)).rootOf j := by
          apply rootOf_up _ hUFt i j (by omega)
          rw [hupne i hix]
          exact hij
        rw [e1, hres, rootOf_up s hUF i j hi hij]
  intro k
  by_cases hk : k < s.n
  · exact main k (s.rootOf k) (upReach_rootOf s k) rfl hk
  · rw [rootOf_out s k (by omega), rootOf_out _ k (by omega)]

theorem setUp_compress_pureUp (s : EG D) (hUF : UF s) (x r : Nat)
    (hx : x < s.n) (hxnr : (s.get x).up ≠ none) (hr : s.rootOf x = r) :
    PureUp s (s.setUp x (some r)) := by
  refine ⟨EG.n_setUp s x _, rfl, ?_, ?_, ?_, ?_, ?_, ?_, ?_,
    setUp_compress_rootOf s hUF x r hx hxnr hr⟩
  · intro j; rw [EG.get_setUp]; split
    · rename_i h; rw [h.1]
    · rfl
  · intro j; rw [EG.get_setUp]; split
    · rename_i h; rw [h.1]
    · rfl
  · intro j; rw [EG.get_setUp]; split
    · rename_i h; rw [h.1]
    · rfl
  · intro j; rw [EG.get_setUp]; split
    · rename_i h; rw [h.1]
    · rfl
  · intro j; rw [EG.get_setUp]; split
    · rename_i h; rw [h.1]
    · rfl
  · intro j; rw [EG.get_setUp]; split
    · rename_i h; rw [h.1]
    · rfl
  · intro j; rw [EG.get_setUp]; split
    · rename_i h
      rw [h.1]
      constructor
      · intro hc; exact absurd hc (by simp)
      · intro hc; exact absurd hc hxnr
    · exact Iff.rfl

theorem compressF_pureUp (r : Nat) :
    ∀ (fuel : Nat) (s : EG D) (cur : Nat), UF s → cur < s.n → s.rootOf cur = r →
      PureUp s (compressF r fuel s cur) ∧ UF (compressF r fuel s cur) := by
  intro fuel
  induction fuel with
  | zero => intro s cur hUF _ _; exact ⟨pureUp_refl s, hUF⟩
  | succ fuel ih =>
    intro s cur hUF hcur hr
    rcases hup : (s.get cur).up with _ | j
    · simpa [compressF, hup] using ⟨pureUp_refl s, hUF⟩
    · have hstep : compressF r (fuel + 1) s cur =
          compressF r fuel (s.setUp cur (some r)) j := by
        simp [compressF, hup]
      have hxnr : (s.get cur).up ≠ none := by rw [hup]; simp
      have h1 : PureUp s (s.setUp cur (some r)) :=
        setUp_compress_pureUp s hUF cur r hcur hxnr hr
      have hUF1 : UF (s.setUp cur (some r)) :=
        setUp_compress_UF s hUF cur r hcur hxnr hr
      obtain ⟨hjlt, _⟩ := hUF.2 cur hcur j hup
      have hj1 : j < (s.setUp cur (some r)).n := by rw [h1.n_eq]; omega
      have hr1 : (s.setUp cur (some r)).rootOf j = r := by
        rw [h1.root_eq, ← rootOf_up s hUF cur j hcur hup, hr]
      obtain ⟨h2, hUF2⟩ := ih (s.setUp cur (some r)) j hUF1 hj1 hr1
      rw [hstep]
      exact ⟨pureUp_trans h1 h2, hUF2⟩

theorem rootC_pureUp (s : EG D) (hUF : UF s) (i : Nat) (hi : i < s.n) :
    PureUp s (s.rootC i).1 ∧ UF (s.rootC i).1 ∧ (s.rootC i).2 = s.rootOf i :=
  ⟨(compressF_pureUp (s.rootOf i) s.n s i hUF hi rfl).1,
   (compressF_pureUp (s.rootOf i) s.n s i hUF hi rfl).2, rfl⟩

theorem rootC_out (s : EG D) (i : Nat) (hi : s.n ≤ i) :
    (s.rootC i).1 = s ∧ (s.rootC i).2 = i := by
  have hroot : (s.get i).up = none := by rw [EG.get_out s i hi]; rfl
  constructor
  · show compressF (s.rootOf i) s.n s i = s
    cases hn : s.n with
    | zero => rfl
    | succ m => simp [compressF, hroot]
  · show s.rootOf i = i
    exact rootOf_out s i hi

theorem rootC_egInv (s : EG D) (hI : EGInv s) (i : Nat) :
    EGInv (s.rootC i).1 ∧ PureUp s (s.rootC i).1 := by
  by_cases hi : i < s.n
  · obtain ⟨h1, h2, _⟩ := rootC_pureUp s (egInv_UF hI) i hi
    exact ⟨egInv_of_pureUp hI h2 h1, h1⟩
  · rw [(rootC_out s i (by omega)).1]
    exact ⟨hI, pureUp_refl s⟩

end CompressLemmas

section UnionLemmas

variable {D : Type} [DecidableEq D] [Inhabited D]

theorem countFlip {l : List Nat} {p pn : Nat → Bool} {x : Nat} (hx : x ∈ l)
    (hnd : l.Nodup) (hpx : p x = true) (hpnx : pn x = false)
    (hagree : ∀ y ∈ l, y ≠ x → pn y = p y) :
    (l.filter pn).length + 1 = (l.filter p).length := by
  induction l with
  | nil => cases hx
  | cons h t2 ih =>
    rcases List.mem_cons.1 hx with hh | ht
    · subst hh
      have hnx : x ∉ t2 := (List.nodup_cons.1 hnd).1
      have heq : t2.filter pn = t2.filter p := by
        apply List.filter_congr
        intro y hy
        exact hagree y (List.mem_cons_of_mem _ hy) (fun hc => hnx (hc ▸ hy))
      simp [List.filter_cons, hpx, hpnx, heq]
    · have hhx : h ≠ x := fun hc => (List.nodup_cons.1 hnd).1 (hc ▸ ht)
      have hagree2 : ∀ y ∈ t2, y ≠ x → pn y = p y := fun y hy =>
        hagree y (List.mem_cons_of_mem _ hy)
      have hih := ih ht (List.nodup_cons.1 hnd).2 hagree2
      have hph : pn h = p h := hagree h (List.mem_cons_self h t2) hhx
      rcases hb : p h with _ | _ <;>
        · simp [List.filter_cons, hph, hb]
          omega

theorem mergeRootsS_get (s : EG D) (a b : Nat) (ha : a < s.n) (hb : b < s.n)
    (hab : a ≠ b) (j : Nat) :
    (s.mergeRootsS a b).get j =
      if j = a then { s.get a with up := some b, down := [], uses := [] }
      else if j = b then
        { s.get b with
          rank := if (s.get a).rank = (s.get b).rank then (s.get b).rank + 1
            else (s.get b).rank,
          down := (s.get b).down ++ (s.get a).down }
      else s.get j := by
  unfold EG.mergeRootsS
  by_cases htie : (s.get a).rank = (s.get b).rank <;>
    by_cases hja : j = a <;>
    by_cases hjb : j = b <;>
    simp_all [EG.get_setUses, EG.get_setDown, EG.get_setRank, EG.get_setUp,
      EG.n_setUp, EG.n_setDown, EG.n_setRank, Ne.symm hab]

theorem mergeRootsS_facts (s : EG D) (hI : EGInv s) (a b : Nat)
    (ha : a < s.n) (hb : b < s.n) (hra : (s.get a).up = none)
    (hrb : (s.get b).up = none) (hab : a ≠ b)
    (hrank : (s.get a).rank ≤ (s.get b).rank) :
    MergeFacts s (s.mergeRootsS a b) a b := by
  have hUF := egInv_UF hI
  have hget := mergeRootsS_get s a b ha hb hab
  have hn : (s.mergeRootsS a b).n = s.n := by
    unfold EG.mergeRootsS
    split <;> simp [EG.n_setUses, EG.n_setDown, EG.n_setRank, EG.n_setUp]
  have hroots : (s.mergeRootsS a b).rootsL = s.rootsL := by
    unfold EG.mergeRootsS
    split <;> rfl
  have hupa : ((s.mergeRootsS a b).get a).up = some b := by rw [hget]; simp
  have hupne : ∀ j, j ≠ a → ((s.mergeRootsS a b).get j).up = (s.get j).up := by
    intro j hj
    rw [hget]
    by_cases hjb : j = b <;> simp [hj, hjb, Ne.symm hab]
  have hrankne : ∀ j, j ≠ b → ((s.mergeRootsS a b).get j).rank = (s.get j).rank := by
    intro j hj
    rw [hget]
    by_cases hja : j = a <;> simp [hj, hja, Ne.symm hab]
  have hrankb : ((s.mergeRootsS a b).get b).rank =
      if (s.get a).rank = (s.get b).rank then (s.get b).rank + 1 else (s.get b).rank := by
    rw [hget]
    simp [Ne.symm hab]
  have hrc : (s.mergeRootsS a b).rootCount + 1 = s.rootCount := by
    unfold EG.rootCount
    rw [hn]
    apply countFlip (x := a)
    · exact List.mem_range.2 ha
    · exact List.nodup_range s.n
    · simp [hra]
    · simp [hupa]
    · intro y _ hy
      simp [hupne y hy]
  have hrcpos : 0 < (s.mergeRootsS a b).rootCount := by
    have hmem : b ∈ (List.range (s.mergeRootsS a b).n).filter
        (fun i => decide (((s.mergeRootsS a b).get i).up = none)) := by
      apply List.mem_filter.2
      refine ⟨List.mem_range.2 (by omega), ?_⟩
      rw [hupne b (Ne.symm hab)]
      simp [hrb]
    unfold EG.rootCount
    exact List.length_pos.2 (List.ne_nil_of_mem hmem)
  have hrc2 : 2 ≤ s.rootCount := by omega
  have hrankblt : ((s.mergeRootsS a b).get b).rank < s.n := by
    rw [hrankb]
    have hbound := hI.rankBound b hb
    split
    · omega
    · have := hUF.1 b hb
      omega
  have huft : UF (s.mergeRootsS a b) := by
    constructor
    · intro i hi
      rw [hn] at hi ⊢
      by_cases hib : i = b
      · subst hib; exact hrankblt
      · rw [hrankne i hib]
        exact hUF.1 i hi
    · intro i hi j hup
      rw [hn] at hi ⊢
      by_cases hia : i = a
      · rw [hia, hupa] at hup
        have hjb : j = b := (Option.some.inj hup).symm
        subst hjb
        rw [hia]
        refine ⟨hb, ?_⟩
        rw [hrankne a hab, hrankb]
        split <;> omega
      · rw [hupne i hia] at hup
        obtain ⟨hj, hrk⟩ := hUF.2 i hi j hup
        have hib : i ≠ b := by
          intro hc
          rw [hc, hrb] at hup
          cases hup
        refine ⟨hj, ?_⟩
        rw [hrankne i hib]
        by_cases hjb : j = b
        · subst hjb
          rw [hrankb]
          split <;> omega
        · rw [hrankne j hjb]
          exact hrk
    
  have hrooteq : ∀ k, (s.mergeRootsS a b).rootOf k =
      if s.rootOf k = a then b else s.rootOf k := by
    have main : ∀ k rk, UpReach s k rk → rk = s.rootOf k → k < s.n →
        (s.mergeRootsS a b).rootOf k = if s.rootOf k = a then b else s.rootOf k := by
      intro k rk h
      induction h with
      | refl i =>
        intro hrk hi
        have hroot : (s.get i).up = none := by
          have := up_rootOf s hUF i hi
          rw [← hrk] at this
          exact this
        have hri : s.rootOf i = i := rootOf_of_root s i hroot
        by_cases hia : i = a
        · rw [hri, hia, if_pos rfl]
          have h1 : (s.mergeRootsS a b).rootOf a = (s.mergeRootsS a b).rootOf b := by
            apply rootOf_up _ huft a b (by omega) hupa
          have h2 : (s.mergeRootsS a b).rootOf b = b := by
            apply rootOf_of_root
            rw [hupne b (Ne.symm hab), hrb]
          rw [h1, h2]
        · rw [hri, if_neg hia]
          apply rootOf_of_root
          rw [hupne i hia]
          exact hroot
      | step i j k hij hjk ih =>
        intro hrk hi
        obtain ⟨hj, _⟩ := hUF.2 i hi j hij
        have hia : i ≠ a := by
          intro hc
          rw [hc, hra] at hij
          cases hij
        have hrkj : k = s.rootOf j := by rw [hrk, rootOf_up s hUF i j hi hij]
        have hres := ih hrkj hj
        have e1 : (s.mergeRootsS a b).rootOf i = (s.mergeRootsS a b).rootOf j := by
          apply rootOf_up _ huft i j (by omega)
          rw [hupne i hia]
          exact hij
        rw [e1, hres, rootOf_up s hUF i j hi hij]
    intro k
    by_cases hk : k < s.n
    · exact main k (s.rootOf k) (upReach_rootOf s k) rfl hk
    · have h1 := rootOf_out s k (by omega)
      have h2 := rootOf_out (s.mergeRootsS a b) k (by omega)
      rw [h1, h2]
      have hka : k ≠ a := by omega
      simp [h1, hka]
  refine ⟨hn, hroots, ?_, ?_, ?_, ?_, ?_, ?_, ?_, ?_, hupa, hupne, hrankne, hrankb,
    huft, hrooteq, hrc⟩
  · intro j
    rw [hget]
    by_cases hja : j = a <;> by_cases hjb : j = b <;> simp [hja, hjb, Ne.symm hab]
  · intro j
    rw [hget]
    by_cases hja : j = a <;> by_cases hjb : j = b <;> simp [hja, hjb, Ne.symm hab]
  · intro j
    rw [hget]
    by_cases hja : j = a <;> by_cases hjb : j = b <;> simp [hja, hjb, Ne.symm hab]
  · rw [hget]; simp
  · intro j hj
    rw [hget]
    by_cases hjb : j = b <;> simp [hj, hjb, Ne.symm hab]
  · rw [hget]; simp
  · rw [hget]; simp [Ne.symm hab]
  · intro j hj1 hj2
    rw [hget]
    simp [hj1, hj2]

end UnionLemmas

section EasyClaims

variable {D : Type} [DecidableEq D] [Inhabited D]

/-- C9: cost arithmetic used by extraction is saturating unsigned 64-bit
arithmetic.  For costs `a`, `b` in `uint64` range, `a + b` is the exact
sum when the sum fits (no overflow, i.e. sum `< 2^64`), and is
`inf = 2^64 - 1` when the exact sum overflows; `inf` is absorbing for
addition on both sides. -/
theorem claim_C9 (a b : Nat) (ha : a ≤ INF) (hb : b ≤ INF) :
    (a + b < 2 ^ 64 → cadd a b = a + b) ∧
    (2 ^ 64 ≤ a + b → cadd a b = INF) ∧
    cadd INF a = INF ∧ cadd a INF = INF := by
  refine ⟨?_, ?_, ?_, ?_⟩
  · intro h; unfold cadd; rw [if_pos h]
  · intro h; unfold cadd INF; rw [if_neg (by omega)]
  · unfold cadd INF
    rcases Nat.eq_zero_or_pos a with h0 | h0
    · subst h0; norm_num
    · rw [if_neg (by omega)]
  · unfold cadd INF
    rcases Nat.eq_zero_or_pos a with h0 | h0
    · subst h0; norm_num
    · rw [if_neg (by omega)]

/-- Witness for C9 at concrete inputs. -/
theorem claim_C9_witness : cadd 3 5 = 8 ∧ cadd (2 ^ 63) (2 ^ 63) = INF := by
  constructor
  · exact (claim_C9 3 5 (by norm_num [INF]) (by norm_num [INF])).1 (by norm_num)
  · exact (claim_C9 (2 ^ 63) (2 ^ 63) (by norm_num [INF]) (by norm_num [INF])).2.1
      (by norm_num)

/-- C6: `Node::at(i)` signals a bounds-violation error (the thrown
`egraphs::Error`, modelled as `none`) exactly when `i` is not below the
child count, and returns the `i`-th child otherwise.  The function only
reads the node, so the node and e-graph are unchanged by construction
(the model is a pure function of the node). -/
theorem claim_C6 (nd : ENode D) (k : Nat) :
    (nd.atIdx k = none ↔ nd.children.length ≤ k) ∧
    (∀ h : k < nd.children.length, nd.atIdx k = some (nd.children.get ⟨k, h⟩)) := by
  constructor
  · unfold ENode.atIdx
    split
    · rename_i h
      constructor
      · intro hc; cases hc
      · intro hc; omega
    · rename_i h
      simp only [true_iff]
      omega
  · intro h
    unfold ENode.atIdx
    rw [if_pos h]
    congr 1
    exact List.getD_eq_getElem nd.children 0 h

/-- Witness for C6 at a concrete node. -/
theorem claim_C6_witness :
    (⟨0, [5, 7], 0, none, true, [], []⟩ : ENode Nat).atIdx 1 =
      some (([5, 7] : List Nat).get ⟨1, by norm_num⟩) :=
  (claim_C6 (⟨0, [5, 7], 0, none, true, [], []⟩ : ENode Nat) 1).2 (by norm_num)

/-- C8 (evaluation at the failing input): a request of size
`Arena::SIZE - 1` — strictly smaller than one slab — with alignment 8
fails in a fresh 8-aligned slab (the bump `top + alignment - top %
alignment` always skips at least one byte, and a full `alignment` when
`top` is already aligned), and the retry in a fresh slab appended by
`ArenaAllocator::alloc` fails the same way, so the allocator returns
failure where the source asserts `ptr != nullptr`. -/
theorem claim_C8_failing :
    allocatorAlloc ⟨16, 16⟩ 16 (arenaSIZE - 1) 8 = none := by rfl

end EasyClaims

section NodeLemmas

variable {D : Type} [DecidableEq D] [Inhabited D]

theorem findRootF_congr (s t : EG D) (h : ∀ i, (s.get i).up = (t.get i).up) :
    ∀ f i, findRootF s f i = findRootF t f i := by
  intro f
  induction f with
  | zero => intro i; rfl
  | succ f ih =>
    intro i
    show (match (s.get i).up with
      | none => i
      | some j => findRootF s f j) = (match (t.get i).up with
      | none => i
      | some j => findRootF t f j)
    rw [← h i]
    rcases (s.get i).up with _ | j
    · rfl
    · exact ih j

theorem hcGet_none_iff (s : EG D) (d : D) (cs : List Nat) :
    hcGet s d cs = none ↔
      ∀ j < s.n, ¬((s.get j).inHC = true ∧ (s.get j).data = d ∧
        (s.get j).children = cs) := by
  unfold hcGet
  rw [List.find?_eq_none]
  constructor
  · intro h j hj hc
    have := h j (List.mem_range.2 hj)
    simp [hc.1, hc.2.1, hc.2.2] at this
  · intro h j hj
    have := h j (List.mem_range.1 hj)
    by_contra hc
    simp only [Bool.not_eq_false, Bool.and_eq_true, decide_eq_true_eq] at hc
    exact this ⟨hc.1.1, hc.1.2, hc.2⟩

theorem hcGet_some (s : EG D) {d : D} {cs : List Nat} {m : Nat}
    (h : hcGet s d cs = some m) :
    m < s.n ∧ (s.get m).inHC = true ∧ (s.get m).data = d ∧
      (s.get m).children = cs := by
  unfold hcGet at h
  have hmem := List.mem_of_find?_eq_some h
  have hpred := List.find?_some h
  simp only [Bool.and_eq_true, decide_eq_true_eq] at hpred
  exact ⟨List.mem_range.1 hmem, hpred.1.1, hpred.1.2, hpred.2⟩

theorem get_append (s : EG D) (nd : ENode D) (rl : List Nat) (j : Nat) :
    (EG.mk (s.nodes ++ [nd]) rl).get j = if j = s.n then nd else s.get j := by
  unfold EG.get
  by_cases hj : j = s.n
  · subst hj
    simp [List.getD_eq_getElem?_getD, List.getElem?_append_right, EG.n]
  · rw [if_neg hj]
    rcases Nat.lt_or_ge j s.n with hlt | hge
    · simp only [List.getD_eq_getElem?_getD]
      rw [List.getElem?_append_left (by simpa [EG.n] using hlt)]
    · have hgt : s.nodes.length < j := by
        have : s.n < j := Nat.lt_of_le_of_ne hge (Ne.symm hj)
        simpa [EG.n] using this
      have e1 : (s.nodes ++ [nd])[j]? = none :=
        List.getElem?_eq_none (by simp only [List.length_append, List.length_singleton]; omega)
      have e2 : s.nodes[j]? = none := List.getElem?_eq_none (by omega)
      simp only [List.getD_eq_getElem?_getD, e1, e2]

theorem n_append (s : EG D) (nd : ENode D) (rl : List Nat) :
    (EG.mk (s.nodes ++ [nd]) rl).n = s.n + 1 := by
  simp [EG.n]

theorem addParentUses_spec (pid : Nat) :
    ∀ (cs : List Nat) (k : Nat) (s : EG D),
      (addParentUses pid k cs s).n = s.n ∧
      (addParentUses pid k cs s).rootsL = s.rootsL ∧
      (∀ j, ((addParentUses pid k cs s).get j).data = (s.get j).data) ∧
      (∀ j, ((addParentUses pid k cs s).get j).children = (s.get j).children) ∧
      (∀ j, ((addParentUses pid k cs s).get j).rank = (s.get j).rank) ∧
      (∀ j, ((addParentUses pid k cs s).get j).up = (s.get j).up) ∧
      (∀ j, ((addParentUses pid k cs s).get j).inHC = (s.get j).inHC) ∧
      (∀ j, ((addParentUses pid k cs s).get j).down = (s.get j).down) ∧
      (∀ j pk, pk ∈ ((addParentUses pid k cs s).get j).uses ↔
        (pk ∈ (s.get j).uses ∨
          ∃ m, m < cs.length ∧ pk = (pid, k + m) ∧ cs.getD m 0 = j ∧ j < s.n)) := by
  intro cs
  induction cs with
  | nil =>
    intro k s
    refine ⟨rfl, rfl, fun _ => rfl, fun _ => rfl, fun _ => rfl, fun _ => rfl,
      fun _ => rfl, fun _ => rfl, ?_⟩
    intro j pk
    simp [addParentUses]
  | cons c rest ih =>
    intro k s
    show _ ∧ _
    have hstep : addParentUses pid k (c :: rest) s =
        addParentUses pid (k + 1) rest (s.setUses c ((s.get c).uses ++ [(pid, k)])) := rfl
    set s1 := s.setUses c ((s.get c).uses ++ [(pid, k)]) with hs1
    obtain ⟨hn, hrl, hdata, hch, hrk, hup, hhc, hdn, huse⟩ := ih (k + 1) s1
    have hn1 : s1.n = s.n := EG.n_setUses s c _
    rw [hstep]
    refine ⟨by rw [hn, hn1], by rw [hrl, hs1]; rfl, ?_, ?_, ?_, ?_, ?_, ?_, ?_⟩
    · intro j; rw [hdata j, EG.get_setUses]; split
      · rename_i h; rw [h.1]
      · rfl
    · intro j; rw [hch j, EG.get_setUses]; split
      · rename_i h; rw [h.1]
      · rfl
    · intro j; rw [hrk j, EG.get_setUses]; split
      · rename_i h; rw [h.1]
      · rfl
    · intro j; rw [hup j, EG.get_setUses]; split
      · rename_i h; rw [h.1]
      · rfl
    · intro j; rw [hhc j, EG.get_setUses]; split
      · rename_i h; rw [h.1]
      · rfl
    · intro j; rw [hdn j, EG.get_setUses]; split
      · rename_i h; rw [h.1]
      · rfl
    · intro j pk
      rw [huse j pk, hn1]
      have hs1u : (s1.get j).uses =
          if j = c ∧ c < s.n then (s.get c).uses ++ [(pid, k)] else (s.get j).uses := by
        rw [EG.get_setUses]
        split
        · rename_i h; rfl
        · rfl
      constructor
      · intro h
        rcases h with h | ⟨m, hm, hpk, hgd, hj⟩
        · rw [hs1u] at h
          by_cases hc : j = c ∧ c < s.n
          · rw [if_pos hc] at h
            rcases List.mem_append.1 h with h | h
            · exact Or.inl (hc.1 ▸ h)
            · have : pk = (pid, k) := List.mem_singleton.1 h
              exact Or.inr ⟨0, by simp, by simpa using this, by simp [hc.1],
                by rw [hc.1]; exact hc.2⟩
          · rw [if_neg hc] at h
            exact Or.inl h
        · exact Or.inr ⟨m + 1, by simpa using hm, by rw [hpk]; congr 1; omega,
            by simpa using hgd, hj⟩
      · intro h
        rcases h with h | ⟨m, hm, hpk, hgd, hj⟩
        · left
          rw [hs1u]
          split
          · exact List.mem_append.2 (Or.inl (by rename_i hcc; rw [← hcc.1]; exact h))
          · exact h
        · rcases m with _ | m2
          · left
            rw [hs1u]
            simp only [List.getD_cons_zero] at hgd
            rw [if_pos ⟨hgd.symm, by omega⟩]
            apply List.mem_append.2
            right
            simp only [Nat.add_zero] at hpk
            simp [hpk]
          · right
            refine ⟨m2, by simpa using hm, by rw [hpk]; congr 1; omega,
              by simpa using hgd, hj⟩

theorem addParentUses_nodup (pid : Nat) :
    ∀ (cs : List Nat) (k : Nat) (s : EG D),
      (∀ j, (s.get j).uses.Nodup) →
      (∀ j pk, pk ∈ (s.get j).uses → pk.1 = pid → pk.2 < k) →
      (∀ j, ((addParentUses pid k cs s).get j).uses.Nodup) ∧
      (∀ j pk, pk ∈ ((addParentUses pid k cs s).get j).uses → pk.1 = pid →
        pk.2 < k + cs.length) := by
  intro cs
  induction cs with
  | nil =>
    intro k s hnd hlt
    refine ⟨hnd, ?_⟩
    intro j pk hmem hp
    simpa using hlt j pk hmem hp
  | cons c rest ih =>
    intro k s hnd hlt
    have hstep : addParentUses pid k (c :: rest) s =
        addParentUses pid (k + 1) rest (s.setUses c ((s.get c).uses ++ [(pid, k)])) := rfl
    set s1 := s.setUses c ((s.get c).uses ++ [(pid, k)]) with hs1
    have hs1u : ∀ j, (s1.get j).uses =
        if j = c ∧ c < s.n then (s.get c).uses ++ [(pid, k)] else (s.get j).uses := by
      intro j
      rw [EG.get_setUses]
      split
      · rename_i h; rfl
      · rfl
    have hnd1 : ∀ j, (s1.get j).uses.Nodup := by
      intro j
      rw [hs1u]
      split
      · rename_i h
        apply List.Nodup.append (hnd c) (List.nodup_singleton _)
        intro pk hpk1 hpk2
        have hpkv : pk = (pid, k) := List.mem_singleton.1 hpk2
        have hlt2 := hlt c pk hpk1 (by rw [hpkv])
        rw [hpkv] at hlt2
        exact absurd hlt2 (by omega)
      · exact hnd j
    have hlt1 : ∀ j pk, pk ∈ (s1.get j).uses → pk.1 = pid → pk.2 < k + 1 := by
      intro j pk hmem hp
      rw [hs1u] at hmem
      by_cases hc : j = c ∧ c < s.n
      · rw [if_pos hc] at hmem
        rcases List.mem_append.1 hmem with h | h
        · have := hlt c pk h hp
          omega
        · have : pk = (pid, k) := List.mem_singleton.1 h
          rw [this]
          omega
      · rw [if_neg hc] at hmem
        have := hlt j pk hmem hp
        omega
    obtain ⟨h1, h2⟩ := ih (k + 1) s1 hnd1 hlt1
    rw [hstep]
    refine ⟨h1, ?_⟩
    intro j pk hmem hp
    have := h2 j pk hmem hp
    simp only [List.length_cons]
    omega

end NodeLemmas

section NodeSpec

variable {D : Type} [DecidableEq D] [Inhabited D]

theorem rootOf_congr_adequate (s t : EG D) (hUF : UF s)
    (hup : ∀ i, (t.get i).up = (s.get i).up) (hn : s.n ≤ t.n) :
    ∀ i, t.rootOf i = s.rootOf i := by
  intro i
  have hcongr := findRootF_congr t s hup t.n i
  show findRootF t t.n i = s.rootOf i
  rw [hcongr]
  by_cases hi : i < s.n
  · exact findRootF_adequate_eq s hUF t.n s.n i hi (by omega) (by omega)
  · have hroot : (s.get i).up = none := by rw [EG.get_out s i (by omega)]; rfl
    rw [findRootF_sink s _ _ hroot]
    exact (rootOf_of_root s i hroot).symm

theorem node_fresh_spec (s : EG D) (d : D) (cs : List Nat)
    (hmiss : hcGet s d cs = none) (hcs : ∀ c ∈ cs, c < s.n) :
    (s.node d cs).2 = s.n ∧
    (s.node d cs).1.n = s.n + 1 ∧
    (s.node d cs).1.rootsL = s.rootsL ++ [s.n] ∧
    ((s.node d cs).1.get s.n).data = d ∧
    ((s.node d cs).1.get s.n).children = cs ∧
    ((s.node d cs).1.get s.n).rank = 0 ∧
    ((s.node d cs).1.get s.n).inHC = true ∧
    ((s.node d cs).1.get s.n).down = [s.n] ∧
    ((s.node d cs).1.get s.n).uses = [] ∧
    (∀ j, j ≠ s.n → ((s.node d cs).1.get j).data = (s.get j).data) ∧
    (∀ j, j ≠ s.n → ((s.node d cs).1.get j).children = (s.get j).children) ∧
    (∀ j, j ≠ s.n → ((s.node d cs).1.get j).rank = (s.get j).rank) ∧
    (∀ j, j ≠ s.n → ((s.node d cs).1.get j).inHC = (s.get j).inHC) ∧
    (∀ j, j ≠ s.n → ((s.node d cs).1.get j).down = (s.get j).down) ∧
    (∀ j, ((s.node d cs).1.get j).up = (s.get j).up) ∧
    (∀ j pk, pk ∈ ((s.node d cs).1.get j).uses ↔
      (pk ∈ (s.get j).uses ∨ ∃ m, m < cs.length ∧ pk = (s.n, m) ∧ cs.getD m 0 = j)) := by
  have hnode : s.node d cs =
      (let s1 : EG D := EG.mk (s.nodes ++ [⟨d, cs, 0, none, true, [], [s.n]⟩]) s.rootsL
       let s2 := addParentUses s.n 0 cs s1
       ({ s2 with rootsL := s2.rootsL ++ [s.n] }, s.n)) := by
    unfold EG.node
    rw [hmiss]
  set nd : ENode D := ⟨d, cs, 0, none, true, [], [s.n]⟩ with hnd
  set s1 : EG D := EG.mk (s.nodes ++ [nd]) s.rootsL with hs1def
  obtain ⟨hn2, hrl2, hdata, hch, hrk, hup, hhc, hdn, huse⟩ := addParentUses_spec s.n cs 0 s1
  set s2 := addParentUses s.n 0 cs s1 with hs2def
  have hget1 : ∀ j, s1.get j = if j = s.n then nd else s.get j := fun j =>
    get_append s nd s.rootsL j
  have hn1 : s1.n = s.n + 1 := n_append s nd s.rootsL
  have hgfin : ∀ j, (s.node d cs).1.get j = s2.get j := by
    intro j
    rw [hnode]
    rfl
  have hnfin : (s.node d cs).1.n = s2.n := by rw [hnode]; rfl
  have huse2 : ∀ j pk, pk ∈ (s2.get j).uses ↔
      (pk ∈ (s.get j).uses ∨ ∃ m, m < cs.length ∧ pk = (s.n, m) ∧ cs.getD m 0 = j) := by
    intro j pk
    rw [huse j pk]
    have hu1 : (s1.get j).uses = (s.get j).uses := by
      rw [hget1]
      split
      · rename_i h
        rw [h, hnd, EG.get_out s s.n (Nat.le_refl _)]
        rfl
      · rfl
    rw [hu1]
    constructor
    · intro h
      rcases h with h | ⟨m, hm, hpk, hgd, _⟩
      · exact Or.inl h
      · exact Or.inr ⟨m, hm, by simpa using hpk, hgd⟩
    · intro h
      rcases h with h | ⟨m, hm, hpk, hgd⟩
      · exact Or.inl h
      · have hjn : j < s.n := by
          have : cs.getD m 0 ∈ cs := by
            rw [List.getD_eq_getElem cs 0 hm]
            exact List.getElem_mem hm
          rw [hgd] at this
          exact hcs j this
        exact Or.inr ⟨m, hm, by simpa using hpk, hgd, by omega⟩
  refine ⟨by rw [hnode], by rw [hnfin, hn2, hn1], ?_, ?_, ?_, ?_, ?_, ?_, ?_,
    ?_, ?_, ?_, ?_, ?_, ?_, ?_⟩
  · rw [hnode]
    show s2.rootsL ++ [s.n] = s.rootsL ++ [s.n]
    rw [hrl2]
  · rw [hgfin, hdata, hget1]; simp [hnd]
  · rw [hgfin, hch, hget1]; simp [hnd]
  · rw [hgfin, hrk, hget1]; simp [hnd]
  · rw [hgfin, hhc, hget1]; simp [hnd]
  · rw [hgfin, hdn, hget1]; simp [hnd]
  · rw [hgfin]
    rw [List.eq_nil_iff_forall_not_mem]
    intro pk hpk
    rcases (huse2 s.n pk).1 hpk with h | ⟨m, hm, _, hgd⟩
    · rw [EG.get_out s s.n (Nat.le_refl _)] at h
      cases h
    · have : cs.getD m 0 ∈ cs := by
        rw [List.getD_eq_getElem cs 0 hm]
        exact List.getElem_mem hm
      rw [hgd] at this
      exact absurd (hcs s.n this) (by omega)
  · intro j hj; rw [hgfin, hdata, hget1, if_neg hj]
  · intro j hj; rw [hgfin, hch, hget1, if_neg hj]
  · intro j hj; rw [hgfin, hrk, hget1, if_neg hj]
  · intro j hj; rw [hgfin, hhc, hget1, if_neg hj]
  · intro j hj; rw [hgfin, hdn, hget1, if_neg hj]
  · intro j
    rw [hgfin, hup, hget1]
    split
    · rename_i h
      rw [h, hnd, EG.get_out s s.n (Nat.le_refl _)]
      rfl
    · rfl
  · intro j pk
    rw [hgfin]
    exact huse2 j pk

end NodeSpec

section NodeInv

variable {D : Type} [DecidableEq D] [Inhabited D]

theorem rootCount_le (s : EG D) : s.rootCount ≤ s.n := by
  unfold EG.rootCount
  calc ((List.range s.n).filter fun i => (s.get i).up = none).length
      ≤ (List.range s.n).length := List.length_filter_le _ _
    _ = s.n := List.length_range s.n

theorem node_fresh_rootCount (s : EG D) (hUF : UF s) (d : D) (cs : List Nat)
    (hmiss : hcGet s d cs = none) (hcs : ∀ c ∈ cs, c < s.n) :
    (s.node d cs).1.rootCount = s.rootCount + 1 := by
  obtain ⟨_, hn, _, _, _, _, _, _, _, _, _, _, _, _, hup, _⟩ :=
    node_fresh_spec s d cs hmiss hcs
  unfold EG.rootCount
  rw [hn, List.range_succ, List.filter_append]
  have h1 : (List.range s.n).filter (fun i => decide (((s.node d cs).1.get i).up = none)) =
      (List.range s.n).filter (fun i => decide ((s.get i).up = none)) := by
    apply List.filter_congr
    intro i _
    simp only [decide_eq_decide]
    rw [hup i]
  have h2 : ((s.node d cs).1.get s.n).up = none := by
    rw [hup s.n, EG.get_out s s.n (Nat.le_refl _)]
    rfl
  rw [h1]
  simp [h2]

theorem node_egInv (s : EG D) (hI : EGInv s) (d : D) (cs : List Nat)
    (hcs : ∀ c ∈ cs, c < s.n ∧ (s.get c).up = none) :
    EGInv (s.node d cs).1 := by
  have hUF := egInv_UF hI
  rcases hhit : hcGet s d cs with _ | m
  case some =>
    have heq : (s.node d cs).1 = (s.rootC m).1 := by
      unfold EG.node
      rw [hhit]
    rw [heq]
    exact (rootC_egInv s hI m).1
  case none =>
    have hcslt : ∀ c ∈ cs, c < s.n := fun c hc => (hcs c hc).1
    obtain ⟨hret, hn, hrl, hdN, hchN, hrkN, hhcN, hdnN, husN,
      hdata, hch, hrk, hhc, hdn, hup, huse⟩ := node_fresh_spec s d cs hhit hcslt
    have hroot_eq : ∀ j, (s.node d cs).1.rootOf j = s.rootOf j :=
      rootOf_congr_adequate s _ hUF hup (by omega)
    have hrc := node_fresh_rootCount s hUF d cs hhit hcslt
    have hndum : ∀ j, ((s.node d cs).1.get j).uses.Nodup := by
      have hnode2 : (s.node d cs).1 =
          { addParentUses s.n 0 cs (EG.mk (s.nodes ++ [⟨d, cs, 0, none, true, [], [s.n]⟩]) s.rootsL) with
            rootsL := (addParentUses s.n 0 cs (EG.mk (s.nodes ++ [⟨d, cs, 0, none, true, [], [s.n]⟩]) s.rootsL)).rootsL ++ [s.n] } := by
        unfold EG.node
        rw [hhit]
      set nd : ENode D := ⟨d, cs, 0, none, true, [], [s.n]⟩ with hnd
      set s1 : EG D := EG.mk (s.nodes ++ [nd]) s.rootsL with hs1
      have hu1 : ∀ j, (s1.get j).uses = (s.get j).uses := by
        intro j
        rw [get_append]
        split
        · rename_i h
          rw [h, EG.get_out s s.n (Nat.le_refl _)]
          rfl
        · rfl
      have hpre1 : ∀ j, (s1.get j).uses.Nodup := by
        intro j
        rw [hu1]
        by_cases hj : j < s.n
        · exact hI.usesND j hj
        · rw [EG.get_out s j (by omega)]
          exact List.nodup_nil
      have hpre2 : ∀ j pk, pk ∈ (s1.get j).uses → pk.1 = s.n → pk.2 < 0 := by
        intro j pk hmem hp
        rw [hu1] at hmem
        by_cases hj : j < s.n
        · have := (hI.usesWF j hj pk hmem).1
          omega
        · rw [EG.get_out s j (by omega)] at hmem
          cases hmem
      have := (addParentUses_nodup s.n cs 0 s1 hpre1 hpre2).1
      intro j
      have heqj : (s.node d cs).1.get j = (addParentUses s.n 0 cs s1).get j := by
        rw [hnode2]
        rfl
      rw [heqj]
      exact this j
    constructor
    · intro i hi c hc
      rw [hn] at hi ⊢
      by_cases hin : i = s.n
      · rw [hin, hchN] at hc
        have := hcslt c hc
        omega
      · rw [hch i hin] at hc
        have := hI.chl i (by omega) c hc
        omega
    · intro i hi j hupj
      rw [hn] at hi ⊢
      rw [hup i] at hupj
      by_cases hin : i < s.n
      · have := hI.upLt i hin j hupj
        omega
      · rw [EG.get_out s i (by omega)] at hupj
        cases hupj
    · intro i hi j hupj
      rw [hn] at hi
      rw [hup i] at hupj
      by_cases hin : i < s.n
      · have hjlt := hI.upLt i hin j hupj
        have hjr := hI.upRank i hin j hupj
        rw [hrk i (by omega), hrk j (by omega)]
        exact hjr
      · rw [EG.get_out s i (by omega)] at hupj
        cases hupj
    · intro i hi
      rw [hn] at hi ⊢
      rw [hrc]
      by_cases hin : i = s.n
      · rw [hin, hrkN]
        have := rootCount_le s
        omega
      · rw [hrk i hin]
        have := hI.rankBound i (by omega)
        omega
    · right
      rw [hrc]
      omega
    · intro i
      rw [hrl, hn]
      constructor
      · intro hmem
        rcases List.mem_append.1 hmem with h | h
        · obtain ⟨h1, h2⟩ := (hI.rootsIff i).1 h
          refine ⟨by omega, ?_⟩
          rw [hup i]
          exact h2
        · have hin : i = s.n := List.mem_singleton.1 h
          refine ⟨by omega, ?_⟩
          rw [hin, hup s.n, EG.get_out s s.n (Nat.le_refl _)]
          rfl
      · intro ⟨h1, h2⟩
        rw [hup i] at h2
        by_cases hin : i = s.n
        · exact List.mem_append.2 (Or.inr (by simp [hin]))
        · exact List.mem_append.2 (Or.inl ((hI.rootsIff i).2 ⟨by omega, h2⟩))
    · rw [hrl]
      apply List.Nodup.append hI.rootsND (List.nodup_singleton _)
      intro x hx hx2
      have hxn : x = s.n := List.mem_singleton.1 hx2
      have := ((hI.rootsIff x).1 hx).1
      omega
    · intro i hi hlive c hc
      rw [hn] at hi
      by_cases hin : i = s.n
      · rw [hin, hchN] at hc
        rw [hup c]
        exact (hcs c hc).2
      · rw [hch i hin] at hc
        rw [hhc i hin] at hlive
        rw [hup c]
        exact hI.hcChildRoot i (by omega) hlive c hc
    · intro i hi j hj hlivei hlivej hd hc
      rw [hn] at hi hj
      by_cases hin : i = s.n <;> by_cases hjn : j = s.n
      · rw [hin, hjn]
      · rw [hin] at hd hc ⊢
        rw [hdN] at hd
        rw [hchN] at hc
        rw [hhc j hjn] at hlivej
        rw [hdata j hjn] at hd
        rw [hch j hjn] at hc
        exact absurd ⟨hlivej, hd.symm, hc.symm⟩ ((hcGet_none_iff s d cs).1 hhit j (by omega))
      · rw [hjn] at hd hc ⊢
        rw [hdN] at hd
        rw [hchN] at hc
        rw [hhc i hin] at hlivei
        rw [hdata i hin] at hd
        rw [hch i hin] at hc
        exact absurd ⟨hlivei, hd, hc⟩ ((hcGet_none_iff s d cs).1 hhit i (by omega))
      · rw [hhc i hin] at hlivei
        rw [hhc j hjn] at hlivej
        rw [hdata i hin, hdata j hjn] at hd
        rw [hch i hin, hch j hjn] at hc
        exact hI.hcUnique i (by omega) j (by omega) hlivei hlivej hd hc
    · intro r hr pk hpk
      rcases (huse r pk).1 hpk with h | ⟨m, hm, hpkv, hgd⟩
      · by_cases hrn : r < s.n
        · obtain ⟨h1, h2⟩ := hI.usesWF r hrn pk h
          have hne : pk.1 ≠ s.n := by omega
          rw [hn, hch pk.1 hne]
          exact ⟨by omega, h2⟩
        · rw [EG.get_out s r (by omega)] at h
          cases h
      · rw [hpkv, hn, hchN]
        simpa using hm
    · intro r hr hne
      have hex : ∃ pk, pk ∈ ((s.node d cs).1.get r).uses := by
        rcases hu : ((s.node d cs).1.get r).uses with _ | ⟨pk0, rest⟩
        · exact absurd hu hne
        · exact ⟨pk0, by simp [hu]⟩
      obtain ⟨pk, hpk⟩ := hex
      rw [hup r]
      rcases (huse r pk).1 hpk with h | ⟨m, hm, hpkv, hgd⟩
      · by_cases hrn : r < s.n
        · apply hI.usesOwnerRoot r hrn
          intro hc
          rw [hc] at h
          cases h
        · rw [EG.get_out s r (by omega)] at h
          cases h
      · have hmem : cs.getD m 0 ∈ cs := by
          rw [List.getD_eq_getElem cs 0 hm]
          exact List.getElem_mem hm
        rw [hgd] at hmem
        exact (hcs r hmem).2
    · intro r hr pk hpk hlive
      rcases (huse r pk).1 hpk with h | ⟨m, hm, hpkv, hgd⟩
      · by_cases hrn : r < s.n
        · have hp1 : pk.1 < s.n := (hI.usesWF r hrn pk h).1
          have hne : pk.1 ≠ s.n := by omega
          rw [hhc pk.1 hne] at hlive
          rw [hch pk.1 hne]
          exact hI.usesAcc r hrn pk h hlive
        · rw [EG.get_out s r (by omega)] at h
          cases h
      · rw [hpkv, hchN]
        simpa using hgd
    · intro p hp hlive k hk
      rw [hn] at hp
      by_cases hpn : p = s.n
      · rw [hpn, hchN] at hk
        refine ⟨cs.getD k 0, ?_, ?_⟩
        · have hmem : cs.getD k 0 ∈ cs := by
            rw [List.getD_eq_getElem cs 0 hk]
            exact List.getElem_mem hk
          have := hcslt _ hmem
          omega
        · rw [hpn]
          exact (huse (cs.getD k 0) (s.n, k)).2 (Or.inr ⟨k, hk, rfl, rfl⟩)
      · rw [hhc p hpn] at hlive
        rw [hch p hpn] at hk
        obtain ⟨r, hrlt, hmem⟩ := hI.usesCompl p (by omega) hlive k hk
        exact ⟨r, by omega, (huse r (p, k)).2 (Or.inl hmem)⟩
    · intro r _
      exact hndum r
    · intro r hr r2 hr2 hrne pk hpk hpk2
      rcases (huse r pk).1 hpk with h | ⟨m, hm, hpkv, hgd⟩ <;>
        rcases (huse r2 pk).1 hpk2 with h2 | ⟨m2, hm2, hpkv2, hgd2⟩
      · by_cases hrn : r < s.n
        · by_cases hrn2 : r2 < s.n
          · exact hI.usesDisj r hrn r2 hrn2 hrne pk h h2
          · rw [EG.get_out s r2 (by omega)] at h2
            cases h2
        · rw [EG.get_out s r (by omega)] at h
          cases h
      · by_cases hrn : r < s.n
        · have := (hI.usesWF r hrn pk h).1
          rw [hpkv2] at this
          simp at this
        · rw [EG.get_out s r (by omega)] at h
          cases h
      · by_cases hrn2 : r2 < s.n
        · have := (hI.usesWF r2 hrn2 pk h2).1
          rw [hpkv] at this
          simp at this
        · rw [EG.get_out s r2 (by omega)] at h2
          cases h2
      · have : m = m2 := by
          rw [hpkv] at hpkv2
          have := Prod.mk.injEq .. ▸ hpkv2
          simpa using this
        rw [← this] at hgd2
        rw [hgd] at hgd2
        exact hrne hgd2
    · intro i hi hiup
      rw [hn] at hi
      rw [hup i] at hiup
      by_cases hin : i = s.n
      · rw [hin, EG.get_out s s.n (Nat.le_refl _)] at hiup
        exact absurd rfl hiup
      · rw [hdn i hin]
        exact hI.downSub i (by omega) hiup
    · intro r hr j hj
      rw [hn] at hr
      by_cases hrn : r = s.n
      · rw [hrn, hdnN] at hj
        have hjn : j = s.n := List.mem_singleton.1 hj
        rw [hjn, hrn, hn, hroot_eq]
        refine ⟨by omega, ?_⟩
        apply rootOf_of_root
        rw [EG.get_out s s.n (Nat.le_refl _)]
        rfl
      · rw [hdn r hrn] at hj
        obtain ⟨h1, h2⟩ := hI.downMem r (by omega) j hj
        rw [hn, hroot_eq]
        exact ⟨by omega, h2⟩
    · intro j hj hlive
      rw [hn] at hj
      by_cases hjn : j = s.n
      · rw [hjn, hroot_eq]
        have hrn : s.rootOf s.n = s.n := by
          apply rootOf_of_root
          rw [EG.get_out s s.n (Nat.le_refl _)]
          rfl
        rw [hrn, hdnN]
        simp
      · rw [hhc j hjn] at hlive
        rw [hroot_eq]
        have hrlt : s.rootOf j < s.n := rootOf_lt s hUF j (by omega)
        rw [hdn (s.rootOf j) (by omega)]
        exact hI.downCompl j (by omega) hlive
    · intro r hr
      rw [hn] at hr
      by_cases hrn : r = s.n
      · rw [hrn, hdnN]
        exact List.nodup_singleton _
      · rw [hdn r hrn]
        by_cases hrlt : r < s.n
        · exact hI.downND r hrlt
        · rw [EG.get_out s r (by omega)]
          exact List.nodup_nil

end NodeInv

section IterLemmas

variable {D : Type} [DecidableEq D] [Inhabited D]

theorem frame_refl (s : EG D) : Frame s s :=
  ⟨rfl, fun _ => rfl, fun _ => rfl, fun _ => rfl, fun _ => rfl, rfl, fun _ => rfl⟩

theorem frame_trans {s t u : EG D} (h1 : Frame s t) (h2 : Frame t u) : Frame s u :=
  ⟨h2.n_eq.trans h1.n_eq, fun j => (h2.data_eq j).trans (h1.data_eq j),
   fun j => (h2.children_eq j).trans (h1.children_eq j),
   fun j => (h2.inHC_eq j).trans (h1.inHC_eq j),
   fun j => (h2.uses_eq j).trans (h1.uses_eq j),
   h2.roots_eq.trans h1.roots_eq,
   fun j => (h2.root_eq j).trans (h1.root_eq j)⟩

theorem frame_of_pureUp {s t : EG D} (h : PureUp s t) : Frame s t :=
  ⟨h.n_eq, h.data_eq, h.children_eq, h.inHC_eq, h.uses_eq, h.roots_eq, h.root_eq⟩

theorem setDown_rootOf (s : EG D) (r : Nat) (v : List Nat) :
    ∀ k, (s.setDown r v).rootOf k = s.rootOf k := by
  intro k
  show findRootF _ (s.setDown r v).n k = findRootF s s.n k
  rw [EG.n_setDown]
  apply findRootF_congr
  intro i
  rw [EG.get_setDown]
  split
  · rename_i h; rw [h.1]
  · rfl

theorem setDown_compact_egInv (s : EG D) (hI : EGInv s) (r : Nat) (newRing : List Nat)
    (hr : r < s.n) (hroot : (s.get r).up = none)
    (hsub : ∀ j ∈ newRing, j ∈ (s.get r).down) (hnd : newRing.Nodup)
    (hlive : ∀ j, j < s.n → (s.get j).inHC = true → s.rootOf j = r → j ∈ newRing) :
    EGInv (s.setDown r newRing) := by
  set t := s.setDown r newRing with ht
  have hn : t.n = s.n := EG.n_setDown s r newRing
  have hget : ∀ j, t.get j = if j = r ∧ r < s.n then { s.get r with down := newRing } else s.get j :=
    fun j => EG.get_setDown s r newRing j
  have hdn : ∀ j, j ≠ r → (t.get j).down = (s.get j).down := by
    intro j hj
    rw [hget]
    simp [hj]
  have hdr : (t.get r).down = newRing := by
    rw [hget]
    simp [hr]
  have hdata : ∀ j, (t.get j).data = (s.get j).data := by
    intro j; rw [hget]; split
    · rename_i h; rw [h.1]
    · rfl
  have hch : ∀ j, (t.get j).children = (s.get j).children := by
    intro j; rw [hget]; split
    · rename_i h; rw [h.1]
    · rfl
  have hrk : ∀ j, (t.get j).rank = (s.get j).rank := by
    intro j; rw [hget]; split
    · rename_i h; rw [h.1]
    · rfl
  have hup : ∀ j, (t.get j).up = (s.get j).up := by
    intro j; rw [hget]; split
    · rename_i h; rw [h.1]
    · rfl
  have hhc : ∀ j, (t.get j).inHC = (s.get j).inHC := by
    intro j; rw [hget]; split
    · rename_i h; rw [h.1]
    · rfl
  have hus : ∀ j, (t.get j).uses = (s.get j).uses := by
    intro j; rw [hget]; split
    · rename_i h; rw [h.1]
    · rfl
  have hroot_eq : ∀ k, t.rootOf k = s.rootOf k := setDown_rootOf s r newRing
  have hrc : t.rootCount = s.rootCount := by
    unfold EG.rootCount
    rw [hn]
    congr 1
    apply List.filter_congr
    intro i _
    simp only [decide_eq_decide]
    rw [hup i]
  constructor
  · intro i hi c hc
    rw [hch] at hc
    rw [hn] at hi ⊢
    exact hI.chl i hi c hc
  · intro i hi j hupj
    rw [hup] at hupj
    rw [hn] at hi ⊢
    exact hI.upLt i hi j hupj
  · intro i hi j hupj
    rw [hup] at hupj
    rw [hn] at hi
    rw [hrk, hrk]
    exact hI.upRank i hi j hupj
  · intro i hi
    rw [hn] at hi ⊢
    rw [hrk, hrc]
    exact hI.rankBound i hi
  · rw [hn, hrc]; exact hI.rootPos
  · intro i
    show i ∈ s.rootsL ↔ _
    rw [hn]
    rw [hI.rootsIff i, hup]
  · exact hI.rootsND
  · intro i hi hlivei c hc
    rw [hn] at hi
    rw [hhc] at hlivei
    rw [hch] at hc
    rw [hup]
    exact hI.hcChildRoot i hi hlivei c hc
  · intro i hi j hj h1 h2 h3 h4
    rw [hn] at hi hj
    rw [hhc] at h1 h2
    rw [hdata, hdata] at h3
    rw [hch, hch] at h4
    exact hI.hcUnique i hi j hj h1 h2 h3 h4
  · intro r2 hr2 pk hpk
    rw [hus] at hpk
    rw [hn] at hr2 ⊢
    rw [hch]
    exact hI.usesWF r2 hr2 pk hpk
  · intro r2 hr2 hne
    rw [hus] at hne
    rw [hn] at hr2
    rw [hup]
    exact hI.usesOwnerRoot r2 hr2 hne
  · intro r2 hr2 pk hpk hlive2
    rw [hus] at hpk
    rw [hhc] at hlive2
    rw [hn] at hr2
    rw [hch]
    exact hI.usesAcc r2 hr2 pk hpk hlive2
  · intro p hp hlivep k hk
    rw [hn] at hp
    rw [hhc] at hlivep
    rw [hch] at hk
    obtain ⟨r2, h1, h2⟩ := hI.usesCompl p hp hlivep k hk
    refine ⟨r2, by omega, ?_⟩
    rw [hus]
    exact h2
  · intro r2 hr2
    rw [hus]
    rw [hn] at hr2
    exact hI.usesND r2 hr2
  · intro r2 hr2 r3 hr3 hne pk hpk
    rw [hus] at hpk ⊢
    rw [hn] at hr2 hr3
    exact hI.usesDisj r2 hr2 r3 hr3 hne pk hpk
  · intro i hi hiup
    rw [hup] at hiup
    rw [hn] at hi
    by_cases hir : i = r
    · rw [hir] at hiup
      exact absurd hroot hiup
    · rw [hdn i hir]
      exact hI.downSub i hi hiup
  · intro r2 hr2 j hj
    rw [hn] at hr2 ⊢
    rw [hroot_eq]
    by_cases hir : r2 = r
    · rw [hir, hdr] at hj
      have := hsub j hj
      rw [hir]
      exact hI.downMem r hr j this
    · rw [hdn r2 hir] at hj
      exact hI.downMem r2 hr2 j hj
  · intro j hj hlivej
    rw [hn] at hj
    rw [hhc] at hlivej
    rw [hroot_eq]
    by_cases hjr : s.rootOf j = r
    · rw [hjr, hdr]
      exact hlive j hj hlivej hjr
    · rw [hdn _ hjr]
      exact hI.downCompl j hj hlivej
  · intro r2 hr2
    by_cases hir : r2 = r
    · rw [hir, hdr]
      exact hnd
    · rw [hdn r2 hir]
      rw [hn] at hr2
      exact hI.downND r2 hr2

end IterLemmas

section ClassIterSpec

variable {D : Type} [DecidableEq D] [Inhabited D]

theorem frame_setDown (s : EG D) (r : Nat) (v : List Nat) :
    Frame s (s.setDown r v) := by
  refine ⟨EG.n_setDown s r v, ?_, ?_, ?_, ?_, rfl, setDown_rootOf s r v⟩ <;>
    intro j <;> rw [EG.get_setDown] <;> split
  · rename_i h; rw [h.1]
  · rfl
  · rename_i h; rw [h.1]
  · rfl
  · rename_i h; rw [h.1]
  · rfl
  · rename_i h; rw [h.1]
  · rfl

theorem classIter_spec (s : EG D) (hI : EGInv s) (i : Nat) (hi : i < s.n) :
    EGInv (s.classIter i).1 ∧
    Frame s (s.classIter i).1 ∧
    (s.classIter i).2.1 = s.rootOf i ∧
    (s.classIter i).2.2.Nodup ∧
    (∀ j, j ∈ (s.classIter i).2.2 ↔
      (j < s.n ∧ (s.get j).inHC = true ∧ s.rootOf j = s.rootOf i)) := by
  have hUF := egInv_UF hI
  obtain ⟨hI1, hP1⟩ := rootC_egInv s hI i
  obtain ⟨_, hUF1, hret⟩ := rootC_pureUp s hUF i hi
  set s1 := (s.rootC i).1 with hs1
  set r := s.rootOf i with hrdef
  have hrlt : r < s.n := rootOf_lt s hUF i hi
  have hrlt1 : r < s1.n := by rw [hP1.n_eq]; omega
  have hroot1 : (s1.get r).up = none := by
    rw [hP1.upNone_iff] at *
    exact up_rootOf s hUF i hi
  have hring : (s1.get r).down = (s.get r).down := hP1.down_eq r
  have hunfold : s.classIter i =
      (s1.setDown r ((((s1.get r).down).takeWhile fun j => !(s1.get j).inHC) ++
        (((s1.get r).down).filter fun j => (s1.get j).inHC)), r,
        ((s1.get r).down).filter fun j => (s1.get j).inHC) := by
    show (let pr := s.rootC i
      let ring := (pr.1.get pr.2).down
      let ys := ring.filter fun j => (pr.1.get j).inHC
      let ring2 := (ring.takeWhile fun j => !(pr.1.get j).inHC) ++ ys
      (pr.1.setDown pr.2 ring2, pr.2, ys)) = _
    rw [show s.rootC i = (s1, r) from Prod.ext rfl hret]
  set ring := (s1.get r).down with hringdef
  set ys := ring.filter (fun j => (s1.get j).inHC) with hys
  set ring2 := (ring.takeWhile fun j => !(s1.get j).inHC) ++ ys with hring2
  have hysmem : ∀ j, j ∈ ys ↔ (j < s.n ∧ (s.get j).inHC = true ∧ s.rootOf j = r) := by
    intro j
    rw [hys, List.mem_filter]
    constructor
    · intro ⟨h1, h2⟩
      rw [hringdef, hP1.down_eq r] at h1
      obtain ⟨hjlt, hjr⟩ := hI.downMem r hrlt j h1
      refine ⟨hjlt, ?_, hjr⟩
      rw [← hP1.inHC_eq j]
      simpa using h2
    · intro ⟨h1, h2, h3⟩
      have hmem : j ∈ (s.get (s.rootOf j)).down := hI.downCompl j h1 h2
      rw [h3] at hmem
      rw [hringdef, hP1.down_eq r]
      refine ⟨hmem, ?_⟩
      rw [hP1.inHC_eq j]
      simpa using h2
  have hysnd : ys.Nodup := by
    rw [hys]
    apply List.Nodup.filter
    rw [hringdef, hP1.down_eq r]
    exact hI.downND r hrlt
  have hr2sub : ∀ j ∈ ring2, j ∈ (s1.get r).down := by
    intro j hj
    rcases List.mem_append.1 hj with h | h
    · exact (List.takeWhile_sublist _).subset h
    · exact (List.filter_sublist _).subset h
  have hr2nd : ring2.Nodup := by
    rw [hring2]
    apply List.Nodup.append
    · refine (List.takeWhile_sublist _).nodup ?_
      rw [hringdef, hP1.down_eq r]
      exact hI.downND r hrlt
    · exact hysnd
    · intro x hx1 hx2
      have h1 := List.mem_takeWhile_imp hx1
      have h2 := (List.mem_filter.1 hx2).2
      simp only [Bool.not_eq_true'] at h1
      rw [h1] at h2
      cases h2
  have hlive2 : ∀ j, j < s1.n → (s1.get j).inHC = true → s1.rootOf j = r → j ∈ ring2 := by
    intro j h1 h2 h3
    apply List.mem_append.2
    right
    rw [hys, List.mem_filter]
    constructor
    · have := hI1.downCompl j h1 h2
      rw [h3] at this
      rw [hringdef]
      exact this
    · simpa using h2
  constructor
  · rw [hunfold]
    exact setDown_compact_egInv s1 hI1 r ring2 hrlt1 hroot1 hr2sub hr2nd hlive2
  refine ⟨?_, by rw [hunfold], ?_, ?_⟩
  · rw [hunfold]
    exact frame_trans (frame_of_pureUp hP1) (frame_setDown s1 r ring2)
  · rw [hunfold]
    exact hysnd
  · intro j
    rw [hunfold]
    exact hysmem j

theorem classIter_out (s : EG D) (i : Nat) (hi : s.n ≤ i) :
    (s.classIter i).1 = s ∧ (s.classIter i).2.2 = [] := by
  obtain ⟨h1, h2⟩ := rootC_out s i hi
  have hd : (s.get i).down = [] := by rw [EG.get_out s i hi]; rfl
  have hunfold : s.classIter i =
      (s.setDown i [], i, ([] : List Nat)) := by
    show (let pr := s.rootC i
      let ring := (pr.1.get pr.2).down
      let ys := ring.filter fun j => (pr.1.get j).inHC
      let ring2 := (ring.takeWhile fun j => !(pr.1.get j).inHC) ++ ys
      (pr.1.setDown pr.2 ring2, pr.2, ys)) = _
    rw [show s.rootC i = (s, i) from Prod.ext h1 h2]
    simp [hd]
  rw [hunfold]
  refine ⟨?_, rfl⟩
  unfold EG.setDown EG.setN
  rw [List.set_eq_of_length_le (by simpa [EG.n] using hi)]

end ClassIterSpec

section WalkTransport

variable {D : Type} [DecidableEq D] [Inhabited D]

theorem walkInv_UF {s : EG D} {win lose : Nat} {rem kept : List (Nat × Nat)}
    (hW : WalkInv s win lose rem kept) : UF s := by
  constructor
  · intro i hi
    have h1 := hW.rankBound i hi
    have h2 : 0 < s.rootCount := by
      rcases hW.rootPos with h | h
      · omega
      · exact h
    omega
  · intro i hi j hup
    exact ⟨hW.upLt i hi j hup, hW.upRank i hi j hup⟩

theorem walkInv_of_pureUp {s t : EG D} {win lose : Nat}
    {rem kept : List (Nat × Nat)} (hW : WalkInv s win lose rem kept)
    (hUFt : UF t) (h : PureUp s t) : WalkInv t win lose rem kept := by
  have hn := h.n_eq
  constructor
  · rw [hn]; exact hW.winLt
  · rw [hn]; exact hW.loseLt
  · rw [h.upNone_iff]; exact hW.winRoot
  · intro hc; exact hW.loseNR ((h.upNone_iff lose).1 hc)
  · intro i hi c hc
    rw [h.children_eq] at hc
    rw [hn]
    exact hW.chl i (by omega) c hc
  · intro i hi j hup
    have := (hUFt.2 i hi j hup).1
    omega
  · intro i hi j hup
    exact (hUFt.2 i hi j hup).2
  · intro i hi
    rw [h.rank_eq, hn, h.rootCount_eq]
    exact hW.rankBound i (by omega)
  · rw [hn, h.rootCount_eq]
    exact hW.rootPos
  · intro i
    rw [h.roots_eq, hn]
    exact (hW.rootsIff i).trans (by rw [h.upNone_iff i])
  · rw [h.roots_eq]; exact hW.rootsND
  · intro i hi hhc k hk
    rw [h.inHC_eq] at hhc
    rw [h.children_eq] at hk ⊢
    rw [h.upNone_iff]
    exact hW.hcCR i (by omega) hhc k hk
  · intro i hi j hj hhi hhj hd hc
    rw [h.inHC_eq] at hhi hhj
    rw [h.data_eq, h.data_eq] at hd
    rw [h.children_eq, h.children_eq] at hc
    exact hW.hcUnique i (by omega) j (by omega) hhi hhj hd hc
  · intro r hr pk hpk
    rw [h.uses_eq] at hpk
    rw [hn, h.children_eq]
    exact hW.usesWF r (by omega) pk hpk
  · intro pk hpk
    rw [hn, h.children_eq]
    exact hW.pendWF pk hpk
  · intro r hr hne
    rw [h.uses_eq] at hne
    rw [h.upNone_iff]
    exact hW.usesOwnerRoot r (by omega) hne
  · intro r hr pk hpk hhc
    rw [h.uses_eq] at hpk
    rw [h.inHC_eq] at hhc
    rw [h.children_eq]
    exact hW.usesAcc r (by omega) pk hpk hhc
  · intro p hp hhc k hk
    rw [h.inHC_eq] at hhc
    rw [h.children_eq] at hk
    rcases hW.usesCompl p (by omega) hhc k hk with ⟨r, hr, hmem⟩ | hmem | hmem
    · exact Or.inl ⟨r, by omega, by rw [h.uses_eq]; exact hmem⟩
    · exact Or.inr (Or.inl hmem)
    · exact Or.inr (Or.inr hmem)
  · intro r hr
    rw [h.uses_eq]
    exact hW.usesND r (by omega)
  · intro r hr r2 hr2 hne pk hpk
    rw [h.uses_eq] at hpk
    rw [h.uses_eq]
    exact hW.usesDisj r (by omega) r2 (by omega) hne pk hpk
  · exact hW.pendND
  · intro pk hpk r hr
    rw [h.uses_eq]
    exact hW.pendRingDisj pk hpk r (by omega)
  · intro pk hpk
    rw [h.children_eq]
    exact hW.keptChild pk hpk
  · intro pk hpk hhc
    rw [h.inHC_eq] at hhc
    rw [h.children_eq]
    exact hW.remChild pk hpk hhc
  · intro i hi hup
    rw [h.down_eq]
    have hup2 : (s.get i).up ≠ none := fun hc => hup ((h.upNone_iff i).mpr hc)
    exact hW.downSub i (by omega) hup2
  · intro r hr j hj
    rw [h.down_eq] at hj
    rw [hn, h.root_eq]
    exact hW.downMem r (by omega) j hj
  · intro j hj hhc
    rw [h.inHC_eq] at hhc
    rw [h.root_eq, h.down_eq]
    exact hW.downCompl j (by omega) hhc
  · intro r hr
    rw [h.down_eq]
    exact hW.downND r (by omega)

end WalkTransport

section WalkStep

variable {D : Type} [DecidableEq D] [Inhabited D]

theorem getD_set_self (l : List Nat) (k w : Nat) (h : k < l.length) :
    (l.set k w).getD k 0 = w := by
  simp [List.getD_eq_getElem?_getD, List.getElem?_set_self h]

theorem getD_set_ne (l : List Nat) (k w k2 : Nat) (h : k2 ≠ k) :
    (l.set k w).getD k2 0 = l.getD k2 0 := by
  simp [List.getD_eq_getElem?_getD, List.getElem?_set_ne (Ne.symm h)]

theorem pend_shift {p : Nat × Nat} {rest kept : List (Nat × Nat)}
    (h : ((p :: rest) ++ kept).Nodup) : (rest ++ (kept ++ [p])).Nodup := by
  have hperm : (rest ++ (kept ++ [p])).Perm ((p :: rest) ++ kept) := by
    rw [← List.append_assoc]
    exact List.perm_append_comm
  exact hperm.symm.nodup h

theorem rootOf_of_upEq (s t : EG D) (hn : t.n = s.n)
    (hup : ∀ j, (t.get j).up = (s.get j).up) : ∀ k, t.rootOf k = s.rootOf k := by
  intro k
  show findRootF t t.n k = findRootF s s.n k
  rw [hn]
  exact findRootF_congr t s hup s.n k

theorem rootCount_of_upEq (s t : EG D) (hn : t.n = s.n)
    (hup : ∀ j, (t.get j).up = (s.get j).up) : t.rootCount = s.rootCount := by
  unfold EG.rootCount
  rw [hn]
  congr 1
  apply List.filter_congr
  intro i _
  simp only [decide_eq_decide]
  rw [hup i]

theorem totalUses_of_usesEq (s t : EG D) (hn : t.n = s.n)
    (hus : ∀ j, (t.get j).uses = (s.get j).uses) : t.totalUses = s.totalUses := by
  unfold EG.totalUses
  rw [hn]
  congr 1
  apply List.map_congr_left
  intro i _
  rw [hus i]

theorem evict_get (s : EG D) (p k win : Nat) (hp : p < s.n) (j : Nat) :
    (((s.setInHC p false).setChild p k win).get j) =
      if j = p then
        { s.get p with inHC := false, children := (s.get p).children.set k win }
      else s.get j := by
  simp only [EG.get_setChild, EG.get_setInHC, EG.n_setChild, EG.n_setInHC]
  by_cases hj : j = p
  · subst hj
    simp [hp]
  · simp [hj]

theorem reinsert_get (s : EG D) (p k win : Nat) (hp : p < s.n)
    (hlive : (s.get p).inHC = true) (j : Nat) :
    ((((s.setInHC p false).setChild p k win).setInHC p true).get j) =
      if j = p then { s.get p with children := (s.get p).children.set k win }
      else s.get j := by
  have hev := evict_get s p k win hp
  simp only [EG.get_setInHC, EG.n_setChild, EG.n_setInHC, hev]
  by_cases hj : j = p
  · subst hj
    simp [hp, hlive]
  · simp [hj]

end WalkStep

section WalkEvict

variable {D : Type} [DecidableEq D] [Inhabited D]

theorem walk_evict (s : EG D) (win lose p k : Nat) (rest kept : List (Nat × Nat))
    (hW : WalkInv s win lose ((p, k) :: rest) kept)
    (hin : (s.get p).inHC = true) :
    WalkInv ((s.setInHC p false).setChild p k win) win lose rest
      (kept ++ [(p, k)]) := by
  obtain ⟨hp, hk⟩ := hW.pendWF (p, k) (by simp)
  have hchild : (s.get p).children.getD k 0 = lose := hW.remChild (p, k) (by simp) hin
  have hget := evict_get s p k win hp
  set t := (s.setInHC p false).setChild p k win with htdef
  have hn : t.n = s.n := by rw [htdef, EG.n_setChild, EG.n_setInHC]
  have hup : ∀ j, (t.get j).up = (s.get j).up := by
    intro j; rw [hget]; split
    · rename_i h; rw [h]
    · rfl
  have hdata : ∀ j, (t.get j).data = (s.get j).data := by
    intro j; rw [hget]; split
    · rename_i h; rw [h]
    · rfl
  have hrank : ∀ j, (t.get j).rank = (s.get j).rank := by
    intro j; rw [hget]; split
    · rename_i h; rw [h]
    · rfl
  have hdown : ∀ j, (t.get j).down = (s.get j).down := by
    intro j; rw [hget]; split
    · rename_i h; rw [h]
    · rfl
  have huses : ∀ j, (t.get j).uses = (s.get j).uses := by
    intro j; rw [hget]; split
    · rename_i h; rw [h]
    · rfl
  have hch : ∀ j, j ≠ p → (t.get j).children = (s.get j).children := by
    intro j hj; rw [hget, if_neg hj]
  have hchp : (t.get p).children = (s.get p).children.set k win := by
    rw [hget, if_pos rfl]
  have hlen : ∀ j, (t.get j).children.length = (s.get j).children.length := by
    intro j
    by_cases hj : j = p
    · rw [hj, hchp, List.length_set]
    · rw [hch j hj]
  have hhc : ∀ j, j ≠ p → (t.get j).inHC = (s.get j).inHC := by
    intro j hj; rw [hget, if_neg hj]
  have hhcp : (t.get p).inHC = false := by rw [hget, if_pos rfl]
  have hroot : ∀ j, t.rootOf j = s.rootOf j := rootOf_of_upEq s t hn hup
  have hrc : t.rootCount = s.rootCount := rootCount_of_upEq s t hn hup
  have hroots : t.rootsL = s.rootsL := rfl
  have hcAt : ∀ j k2, j ≠ p → (t.get j).children.getD k2 0 = (s.get j).children.getD k2 0 := by
    intro j k2 hj; rw [hch j hj]
  have hcAtp : ∀ k2, k2 ≠ k → (t.get p).children.getD k2 0 = (s.get p).children.getD k2 0 := by
    intro k2 hk2; rw [hchp, getD_set_ne _ _ _ _ hk2]
  have hcAtpk : (t.get p).children.getD k 0 = win := by
    rw [hchp, getD_set_self _ _ _ hk]
  have hpky : (p, k) ∉ kept := by
    have := hW.pendND
    rw [List.cons_append, List.nodup_cons] at this
    intro hc
    exact this.1 (List.mem_append.2 (Or.inr hc))
  have hpkrest : (p, k) ∉ rest := by
    have := hW.pendND
    rw [List.cons_append, List.nodup_cons] at this
    intro hc
    exact this.1 (List.mem_append.2 (Or.inl hc))
  constructor
  · rw [hn]; exact hW.winLt
  · rw [hn]; exact hW.loseLt
  · rw [hup]; exact hW.winRoot
  · rw [hup]; exact hW.loseNR
  · intro i hi c hc
    rw [hn] at hi ⊢
    by_cases hip : i = p
    · rw [hip, hchp] at hc
      rcases List.mem_or_eq_of_mem_set hc with h | h
      · exact hW.chl p hp c h
      · rw [h]; exact hW.winLt
    · rw [hch i hip] at hc
      exact hW.chl i hi c hc
  · intro i hi j hupj
    rw [hup] at hupj
    rw [hn] at hi ⊢
    exact hW.upLt i hi j hupj
  · intro i hi j hupj
    rw [hup] at hupj
    rw [hn] at hi
    rw [hrank, hrank]
    exact hW.upRank i hi j hupj
  · intro i hi
    rw [hn] at hi ⊢
    rw [hrank, hrc]
    exact hW.rankBound i hi
  · rw [hn, hrc]; exact hW.rootPos
  · intro i
    rw [hroots, hn, hup]
    exact hW.rootsIff i
  · rw [hroots]; exact hW.rootsND
  · intro i hi hlivei k2 hk2
    rw [hn] at hi
    by_cases hip : i = p
    · rw [hip, hhcp] at hlivei
      cases hlivei
    · rw [hhc i hip] at hlivei
      rw [hlen] at hk2
      rw [hcAt i k2 hip, hup]
      rcases hW.hcCR i hi hlivei k2 hk2 with h | ⟨hmem, hval⟩
      · exact Or.inl h
      · rcases List.mem_cons.1 hmem with h | h
        · exact absurd (congrArg Prod.fst h) (by simpa using hip)
        · exact Or.inr ⟨h, hval⟩
  · intro i hi j hj h1 h2 h3 h4
    rw [hn] at hi hj
    by_cases hip : i = p
    · rw [hip, hhcp] at h1
      cases h1
    · by_cases hjp : j = p
      · rw [hjp, hhcp] at h2
        cases h2
      · rw [hhc i hip] at h1
        rw [hhc j hjp] at h2
        rw [hdata, hdata] at h3
        rw [hch i hip, hch j hjp] at h4
        exact hW.hcUnique i hi j hj h1 h2 h3 h4
  · intro r hr pk hpk
    rw [huses] at hpk
    rw [hn] at hr ⊢
    obtain ⟨h1, h2⟩ := hW.usesWF r hr pk hpk
    rw [hlen]
    exact ⟨h1, h2⟩
  · intro pk hpk
    rw [hn, hlen]
    apply hW.pendWF
    rcases List.mem_append.1 hpk with h | h
    · exact List.mem_append.2 (Or.inl (List.mem_cons_of_mem _ h))
    · rcases List.mem_append.1 h with h2 | h2
      · exact List.mem_append.2 (Or.inr h2)
      · have : pk = (p, k) := List.mem_singleton.1 h2
        rw [this]
        simp
  · intro r hr hne
    rw [huses] at hne
    rw [hn] at hr
    rw [hup]
    exact hW.usesOwnerRoot r hr hne
  · intro r hr pk hpk hlivepk
    rw [huses] at hpk
    rw [hn] at hr
    by_cases hpkp : pk.1 = p
    · rw [hpkp, hhcp] at hlivepk
      cases hlivepk
    · rw [hhc pk.1 hpkp] at hlivepk
      rw [hcAt pk.1 pk.2 hpkp]
      exact hW.usesAcc r hr pk hpk hlivepk
  · intro q hq hliveq k2 hk2
    rw [hn] at hq
    by_cases hqp : q = p
    · rw [hqp, hhcp] at hliveq
      cases hliveq
    · rw [hhc q hqp] at hliveq
      rw [hlen] at hk2
      rcases hW.usesCompl q hq hliveq k2 hk2 with ⟨r, hr1, hr2⟩ | h | h
      · refine Or.inl ⟨r, by omega, ?_⟩
        rw [huses]
        exact hr2
      · rcases List.mem_cons.1 h with h2 | h2
        · exact absurd (congrArg Prod.fst h2) (by simpa using hqp)
        · exact Or.inr (Or.inl h2)
      · exact Or.inr (Or.inr (List.mem_append.2 (Or.inl h)))
  · intro r hr
    rw [huses]
    rw [hn] at hr
    exact hW.usesND r hr
  · intro r hr r2 hr2 hne pk hpk
    rw [huses] at hpk ⊢
    rw [hn] at hr hr2
    exact hW.usesDisj r hr r2 hr2 hne pk hpk
  · exact pend_shift hW.pendND
  · intro pk hpk r hr
    rw [huses]
    rw [hn] at hr
    apply hW.pendRingDisj pk _ r hr
    rcases List.mem_append.1 hpk with h | h
    · exact List.mem_append.2 (Or.inl (List.mem_cons_of_mem _ h))
    · rcases List.mem_append.1 h with h2 | h2
      · exact List.mem_append.2 (Or.inr h2)
      · have : pk = (p, k) := List.mem_singleton.1 h2
        rw [this]
        simp
  · intro pk hpk
    rcases List.mem_append.1 hpk with h | h
    · by_cases hpkp : pk.1 = p
      · have hk2 : pk.2 ≠ k := by
          intro hc
          have hpkv : pk = (p, k) := Prod.ext hpkp hc
          rw [hpkv] at h
          exact hpky h
        have hbase := hW.keptChild pk h
        have heq : (t.get pk.1).children.getD pk.2 0 =
            (s.get pk.1).children.getD pk.2 0 := by
          rw [hpkp]
          exact hcAtp pk.2 hk2
        rw [heq]
        exact hbase
      · rw [hcAt pk.1 pk.2 hpkp]
        exact hW.keptChild pk h
    · have : pk = (p, k) := List.mem_singleton.1 h
      rw [this]
      exact hcAtpk
  · intro pk hpk hlivepk
    by_cases hpkp : pk.1 = p
    · rw [hpkp, hhcp] at hlivepk
      cases hlivepk
    · rw [hhc pk.1 hpkp] at hlivepk
      rw [hcAt pk.1 pk.2 hpkp]
      exact hW.remChild pk (List.mem_cons_of_mem _ hpk) hlivepk
  · intro i hi hiup
    rw [hup] at hiup
    rw [hn] at hi
    rw [hdown]
    exact hW.downSub i hi hiup
  · intro r hr j hj
    rw [hdown] at hj
    rw [hn] at hr ⊢
    rw [hroot]
    exact hW.downMem r hr j hj
  · intro j hj hlivej
    rw [hn] at hj
    by_cases hjp : j = p
    · rw [hjp, hhcp] at hlivej
      cases hlivej
    · rw [hhc j hjp] at hlivej
      rw [hroot, hdown]
      exact hW.downCompl j hj hlivej
  · intro r hr
    rw [hdown]
    rw [hn] at hr
    exact hW.downND r hr

end WalkEvict

section WalkReinsert

variable {D : Type} [DecidableEq D] [Inhabited D]

theorem walk_reinsert (s : EG D) (win lose p k : Nat)
    (rest kept : List (Nat × Nat))
    (hW : WalkInv s win lose ((p, k) :: rest) kept)
    (hin : (s.get p).inHC = true)
    (hmiss : hcGet ((s.setInHC p false).setChild p k win)
      ((((s.setInHC p false).setChild p k win).get p).data)
      ((((s.setInHC p false).setChild p k win).get p).children) = none) :
    WalkInv (((s.setInHC p false).setChild p k win).setInHC p true) win lose rest
      (kept ++ [(p, k)]) := by
  obtain ⟨hp, hk⟩ := hW.pendWF (p, k) (by simp)
  have hchild : (s.get p).children.getD k 0 = lose := hW.remChild (p, k) (by simp) hin
  have hget := reinsert_get s p k win hp hin
  have hget2 := evict_get s p k win hp
  set t2 := (s.setInHC p false).setChild p k win with ht2def
  set t := t2.setInHC p true with htdef
  have hn2 : t2.n = s.n := by rw [ht2def, EG.n_setChild, EG.n_setInHC]
  have hn : t.n = s.n := by rw [htdef, EG.n_setInHC, hn2]
  have hup : ∀ j, (t.get j).up = (s.get j).up := by
    intro j; rw [hget]; split
    · rename_i h; rw [h]
    · rfl
  have hdata : ∀ j, (t.get j).data = (s.get j).data := by
    intro j; rw [hget]; split
    · rename_i h; rw [h]
    · rfl
  have hrank : ∀ j, (t.get j).rank = (s.get j).rank := by
    intro j; rw [hget]; split
    · rename_i h; rw [h]
    · rfl
  have hdown : ∀ j, (t.get j).down = (s.get j).down := by
    intro j; rw [hget]; split
    · rename_i h; rw [h]
    · rfl
  have huses : ∀ j, (t.get j).uses = (s.get j).uses := by
    intro j; rw [hget]; split
    · rename_i h; rw [h]
    · rfl
  have hch : ∀ j, j ≠ p → (t.get j).children = (s.get j).children := by
    intro j hj; rw [hget, if_neg hj]
  have hchp : (t.get p).children = (s.get p).children.set k win := by
    rw [hget, if_pos rfl]
  have hlen : ∀ j, (t.get j).children.length = (s.get j).children.length := by
    intro j
    by_cases hj : j = p
    · rw [hj, hchp, List.length_set]
    · rw [hch j hj]
  have hhc : ∀ j, j ≠ p → (t.get j).inHC = (s.get j).inHC := by
    intro j hj; rw [hget, if_neg hj]
  have hhcp : (t.get p).inHC = true := by rw [hget, if_pos rfl]; exact hin
  have hroot : ∀ j, t.rootOf j = s.rootOf j := rootOf_of_upEq s t hn hup
  have hrc : t.rootCount = s.rootCount := rootCount_of_upEq s t hn hup
  have hroots : t.rootsL = s.rootsL := rfl
  have hcAt : ∀ j k2, j ≠ p → (t.get j).children.getD k2 0 = (s.get j).children.getD k2 0 := by
    intro j k2 hj; rw [hch j hj]
  have hcAtp : ∀ k2, k2 ≠ k → (t.get p).children.getD k2 0 = (s.get p).children.getD k2 0 := by
    intro k2 hk2; rw [hchp, getD_set_ne _ _ _ _ hk2]
  have hcAtpk : (t.get p).children.getD k 0 = win := by
    rw [hchp, getD_set_self _ _ _ hk]
  have hpky : (p, k) ∉ kept := by
    have := hW.pendND
    rw [List.cons_append, List.nodup_cons] at this
    intro hc
    exact this.1 (List.mem_append.2 (Or.inr hc))
  have hpkrest : (p, k) ∉ rest := by
    have := hW.pendND
    rw [List.cons_append, List.nodup_cons] at this
    intro hc
    exact this.1 (List.mem_append.2 (Or.inl hc))
  have hpkrings : ∀ r, r < s.n → (p, k) ∉ (s.get r).uses := fun r hr =>
    hW.pendRingDisj (p, k) (by simp) r hr
  have hmiss2 := (hcGet_none_iff t2 _ _).1 hmiss
  have ht2p : (t2.get p).data = (s.get p).data ∧
      (t2.get p).children = (s.get p).children.set k win := by
    rw [hget2, if_pos rfl]
    exact ⟨rfl, rfl⟩
  have ht2ne : ∀ j, j ≠ p → t2.get j = s.get j := by
    intro j hj
    rw [hget2, if_neg hj]
  constructor
  · rw [hn]; exact hW.winLt
  · rw [hn]; exact hW.loseLt
  · rw [hup]; exact hW.winRoot
  · rw [hup]; exact hW.loseNR
  · intro i hi c hc
    rw [hn] at hi ⊢
    by_cases hip : i = p
    · rw [hip, hchp] at hc
      rcases List.mem_or_eq_of_mem_set hc with h | h
      · exact hW.chl p hp c h
      · rw [h]; exact hW.winLt
    · rw [hch i hip] at hc
      exact hW.chl i hi c hc
  · intro i hi j hupj
    rw [hup] at hupj
    rw [hn] at hi ⊢
    exact hW.upLt i hi j hupj
  · intro i hi j hupj
    rw [hup] at hupj
    rw [hn] at hi
    rw [hrank, hrank]
    exact hW.upRank i hi j hupj
  · intro i hi
    rw [hn] at hi ⊢
    rw [hrank, hrc]
    exact hW.rankBound i hi
  · rw [hn, hrc]; exact hW.rootPos
  · intro i
    rw [hroots, hn, hup]
    exact hW.rootsIff i
  · rw [hroots]; exact hW.rootsND
  · intro i hi hlivei k2 hk2
    rw [hn] at hi
    by_cases hip : i = p
    · subst hip
      by_cases hk2k : k2 = k
      · rw [hk2k]
        left
        rw [hcAtpk, hup]
        exact hW.winRoot
      · rw [hcAtp k2 hk2k, hup]
        rw [hlen] at hk2
        rcases hW.hcCR i hi hin k2 hk2 with h | ⟨hmem, hval⟩
        · exact Or.inl h
        · rcases List.mem_cons.1 hmem with h2 | h2
          · exact absurd (congrArg Prod.snd h2) (by simpa using hk2k)
          · exact Or.inr ⟨h2, hval⟩
    · rw [hhc i hip] at hlivei
      rw [hlen] at hk2
      rw [hcAt i k2 hip, hup]
      rcases hW.hcCR i hi hlivei k2 hk2 with h | ⟨hmem, hval⟩
      · exact Or.inl h
      · rcases List.mem_cons.1 hmem with h2 | h2
        · exact absurd (congrArg Prod.fst h2) (by simpa using hip)
        · exact Or.inr ⟨h2, hval⟩
  · intro i hi j hj h1 h2 h3 h4
    rw [hn] at hi hj
    by_cases hip : i = p <;> by_cases hjp : j = p
    · rw [hip, hjp]
    · exfalso
      apply hmiss2 j (by omega)
      rw [ht2ne j hjp, ht2p.1, ht2p.2]
      rw [hip] at h3 h4
      rw [hdata p, hdata j] at h3
      rw [hchp, hch j hjp] at h4
      rw [hhc j hjp] at h2
      exact ⟨h2, h3.symm, h4.symm⟩
    · exfalso
      apply hmiss2 i (by omega)
      rw [ht2ne i hip, ht2p.1, ht2p.2]
      rw [hjp] at h3 h4
      rw [hdata p, hdata i] at h3
      rw [hchp, hch i hip] at h4
      rw [hhc i hip] at h1
      exact ⟨h1, h3, h4⟩
    · rw [hhc i hip] at h1
      rw [hhc j hjp] at h2
      rw [hdata, hdata] at h3
      rw [hch i hip, hch j hjp] at h4
      exact hW.hcUnique i hi j hj h1 h2 h3 h4
  · intro r hr pk hpk
    rw [huses] at hpk
    rw [hn] at hr ⊢
    obtain ⟨h1, h2⟩ := hW.usesWF r hr pk hpk
    rw [hlen]
    exact ⟨h1, h2⟩
  · intro pk hpk
    rw [hn, hlen]
    apply hW.pendWF
    rcases List.mem_append.1 hpk with h | h
    · exact List.mem_append.2 (Or.inl (List.mem_cons_of_mem _ h))
    · rcases List.mem_append.1 h with h2 | h2
      · exact List.mem_append.2 (Or.inr h2)
      · have : pk = (p, k) := List.mem_singleton.1 h2
        rw [this]
        simp
  · intro r hr hne
    rw [huses] at hne
    rw [hn] at hr
    rw [hup]
    exact hW.usesOwnerRoot r hr hne
  · intro r hr pk hpk hlivepk
    rw [huses] at hpk
    rw [hn] at hr
    by_cases hpkp : pk.1 = p
    · have hk2 : pk.2 ≠ k := by
        intro hc
        have hpkv : pk = (p, k) := Prod.ext hpkp hc
        rw [hpkv] at hpk
        exact hpkrings r hr hpk
      have hbase := hW.usesAcc r hr pk hpk (by rw [hpkp]; exact hin)
      have heq : (t.get pk.1).children.getD pk.2 0 =
          (s.get pk.1).children.getD pk.2 0 := by
        rw [hpkp]
        exact hcAtp pk.2 hk2
      rw [heq]
      exact hbase
    · rw [hhc pk.1 hpkp] at hlivepk
      rw [hcAt pk.1 pk.2 hpkp]
      exact hW.usesAcc r hr pk hpk hlivepk
  · intro q hq hliveq k2 hk2
    rw [hn] at hq
    by_cases hqp : q = p
    · subst hqp
      by_cases hk2k : k2 = k
      · rw [hk2k]
        exact Or.inr (Or.inr (List.mem_append.2 (Or.inr (by simp))))
      · rw [hlen] at hk2
        rcases hW.usesCompl q hq hin k2 hk2 with ⟨r, hr1, hr2⟩ | h | h
        · refine Or.inl ⟨r, by omega, ?_⟩
          rw [huses]
          exact hr2
        · rcases List.mem_cons.1 h with h2 | h2
          · exact absurd (congrArg Prod.snd h2) (by simpa using hk2k)
          · exact Or.inr (Or.inl h2)
        · exact Or.inr (Or.inr (List.mem_append.2 (Or.inl h)))
    · rw [hhc q hqp] at hliveq
      rw [hlen] at hk2
      rcases hW.usesCompl q hq hliveq k2 hk2 with ⟨r, hr1, hr2⟩ | h | h
      · refine Or.inl ⟨r, by omega, ?_⟩
        rw [huses]
        exact hr2
      · rcases List.mem_cons.1 h with h2 | h2
        · exact absurd (congrArg Prod.fst h2) (by simpa using hqp)
        · exact Or.inr (Or.inl h2)
      · exact Or.inr (Or.inr (List.mem_append.2 (Or.inl h)))
  · intro r hr
    rw [huses]
    rw [hn] at hr
    exact hW.usesND r hr
  · intro r hr r2 hr2 hne pk hpk
    rw [huses] at hpk ⊢
    rw [hn] at hr hr2
    exact hW.usesDisj r hr r2 hr2 hne pk hpk
  · exact pend_shift hW.pendND
  · intro pk hpk r hr
    rw [huses]
    rw [hn] at hr
    apply hW.pendRingDisj pk _ r hr
    rcases List.mem_append.1 hpk with h | h
    · exact List.mem_append.2 (Or.inl (List.mem_cons_of_mem _ h))
    · rcases List.mem_append.1 h with h2 | h2
      · exact List.mem_append.2 (Or.inr h2)
      · have : pk = (p, k) := List.mem_singleton.1 h2
        rw [this]
        simp
  · intro pk hpk
    rcases List.mem_append.1 hpk with h | h
    · by_cases hpkp : pk.1 = p
      · have hk2 : pk.2 ≠ k := by
          intro hc
          have hpkv : pk = (p, k) := Prod.ext hpkp hc
          rw [hpkv] at h
          exact hpky h
        have hbase := hW.keptChild pk h
        have heq : (t.get pk.1).children.getD pk.2 0 =
            (s.get pk.1).children.getD pk.2 0 := by
          rw [hpkp]
          exact hcAtp pk.2 hk2
        rw [heq]
        exact hbase
      · rw [hcAt pk.1 pk.2 hpkp]
        exact hW.keptChild pk h
    · have : pk = (p, k) := List.mem_singleton.1 h
      rw [this]
      exact hcAtpk
  · intro pk hpk hlivepk
    by_cases hpkp : pk.1 = p
    · have hk2 : pk.2 ≠ k := by
        intro hc
        have hpkv : pk = (p, k) := Prod.ext hpkp hc
        rw [hpkv] at hpk
        exact hpkrest hpk
      have hbase := hW.remChild pk (List.mem_cons_of_mem _ hpk)
        (by rw [hpkp]; exact hin)
      have heq : (t.get pk.1).children.getD pk.2 0 =
          (s.get pk.1).children.getD pk.2 0 := by
        rw [hpkp]
        exact hcAtp pk.2 hk2
      rw [heq]
      exact hbase
    · rw [hhc pk.1 hpkp] at hlivepk
      rw [hcAt pk.1 pk.2 hpkp]
      exact hW.remChild pk (List.mem_cons_of_mem _ hpk) hlivepk
  · intro i hi hiup
    rw [hup] at hiup
    rw [hn] at hi
    rw [hdown]
    exact hW.downSub i hi hiup
  · intro r hr j hj
    rw [hdown] at hj
    rw [hn] at hr ⊢
    rw [hroot]
    exact hW.downMem r hr j hj
  · intro j hj hlivej
    rw [hn] at hj
    rw [hroot, hdown]
    by_cases hjp : j = p
    · rw [hjp]
      exact hW.downCompl p hp hin
    · rw [hhc j hjp] at hlivej
      exact hW.downCompl j hj hlivej
  · intro r hr
    rw [hdown]
    rw [hn] at hr
    exact hW.downND r hr

end WalkReinsert

section WalkMaster

variable {D : Type} [DecidableEq D] [Inhabited D]

theorem walk_skip (s : EG D) (win lose p k : Nat) (rest kept : List (Nat × Nat))
    (hW : WalkInv s win lose ((p, k) :: rest) kept)
    (hout : ¬ (s.get p).inHC = true) :
    WalkInv s win lose rest kept := by
  have hpend : (rest ++ kept).Nodup := by
    have := hW.pendND
    rw [List.cons_append, List.nodup_cons] at this
    exact this.2
  constructor
  · exact hW.winLt
  · exact hW.loseLt
  · exact hW.winRoot
  · exact hW.loseNR
  · exact hW.chl
  · exact hW.upLt
  · exact hW.upRank
  · exact hW.rankBound
  · exact hW.rootPos
  · exact hW.rootsIff
  · exact hW.rootsND
  · intro i hi hlivei k2 hk2
    rcases hW.hcCR i hi hlivei k2 hk2 with h | ⟨hmem, hval⟩
    · exact Or.inl h
    · rcases List.mem_cons.1 hmem with h2 | h2
      · exfalso
        have : i = p := by simpa using congrArg Prod.fst h2
        rw [this] at hlivei
        exact hout hlivei
      · exact Or.inr ⟨h2, hval⟩
  · exact hW.hcUnique
  · exact hW.usesWF
  · intro pk hpk
    apply hW.pendWF
    rcases List.mem_append.1 hpk with h | h
    · exact List.mem_append.2 (Or.inl (List.mem_cons_of_mem _ h))
    · exact List.mem_append.2 (Or.inr h)
  · exact hW.usesOwnerRoot
  · exact hW.usesAcc
  · intro q hq hliveq k2 hk2
    rcases hW.usesCompl q hq hliveq k2 hk2 with h | h | h
    · exact Or.inl h
    · rcases List.mem_cons.1 h with h2 | h2
      · exfalso
        have : q = p := by simpa using congrArg Prod.fst h2
        rw [this] at hliveq
        exact hout hliveq
      · exact Or.inr (Or.inl h2)
    · exact Or.inr (Or.inr h)
  · exact hW.usesND
  · exact hW.usesDisj
  · exact hpend
  · intro pk hpk r hr
    apply hW.pendRingDisj pk _ r hr
    rcases List.mem_append.1 hpk with h | h
    · exact List.mem_append.2 (Or.inl (List.mem_cons_of_mem _ h))
    · exact List.mem_append.2 (Or.inr h)
  · exact hW.keptChild
  · intro pk hpk hlive
    exact hW.remChild pk (List.mem_cons_of_mem _ hpk) hlive
  · exact hW.downSub
  · exact hW.downMem
  · exact hW.downCompl
  · exact hW.downND

theorem processUses_master (win lose : Nat) :
    ∀ (rem : List (Nat × Nat)) (s : EG D) (q kept : List (Nat × Nat)),
      WalkInv s win lose rem kept →
      (∀ pq ∈ q, pq.1 < s.n ∧ pq.2 < s.n) →
      WalkInv (processUses win rem s q kept).1 win lose []
        (processUses win rem s q kept).2.2 ∧
      (∀ pq ∈ (processUses win rem s q kept).2.1,
        pq.1 < s.n ∧ pq.2 < s.n) ∧
      (processUses win rem s q kept).1.n = s.n ∧
      (processUses win rem s q kept).1.rootsL = s.rootsL ∧
      (∀ j, (processUses win rem s q kept).1.rootOf j = s.rootOf j) ∧
      (∀ j, ((processUses win rem s q kept).1.get j).uses = (s.get j).uses) ∧
      (processUses win rem s q kept).2.1.length ≤ q.length + rem.length ∧
      (processUses win rem s q kept).2.2.length ≤ kept.length + rem.length ∧
      (processUses win rem s q kept).1.rootCount = s.rootCount ∧
      (∀ pq ∈ q, pq ∈ (processUses win rem s q kept).2.1) := by
  intro rem
  induction rem with
  | nil =>
    intro s q kept hW hq
    exact ⟨hW, hq, rfl, rfl, fun _ => rfl, fun _ => rfl, by simp [processUses],
      by simp [processUses], rfl, fun pq h => h⟩
  | cons pk rest ih =>
    obtain ⟨p, k⟩ := pk
    intro s q kept hW hq
    by_cases hin : (s.get p).inHC = true
    · obtain ⟨hp, hk⟩ := hW.pendWF (p, k) (by simp)
      have hstep : processUses win ((p, k) :: rest) s q kept =
          (let s2 := (s.setInHC p false).setChild p k win
           match hcGet s2 (s2.get p).data (s2.get p).children with
           | none => processUses win rest (s2.setInHC p true) q (kept ++ [(p, k)])
           | some other =>
             let pr := s2.queueMerge q p other
             processUses win rest pr.1 pr.2 (kept ++ [(p, k)])) := by
        show (if (s.get p).inHC = true then _ else _) = _
        rw [if_pos hin]
      set s2 := (s.setInHC p false).setChild p k win with hs2
      have hn2 : s2.n = s.n := by rw [hs2, EG.n_setChild, EG.n_setInHC]
      rcases hfind : hcGet s2 (s2.get p).data (s2.get p).children with _ | other
      · have hW3 := walk_reinsert s win lose p k rest kept hW hin hfind
        set s3 := s2.setInHC p true with hs3
        have hn3 : s3.n = s.n := by rw [hs3, EG.n_setInHC, hn2]
        have hq3 : ∀ pq ∈ q, pq.1 < s3.n ∧ pq.2 < s3.n := by
          intro pq hpq
          rw [hn3]
          exact hq pq hpq
        obtain ⟨c1, c2, c3, c4, c5, c6, c7, c7b, c8, c9⟩ := ih s3 q (kept ++ [(p, k)]) hW3 hq3
        have hrw : processUses win ((p, k) :: rest) s q kept =
            processUses win rest s3 q (kept ++ [(p, k)]) := by
          rw [hstep]
          show (match hcGet s2 (s2.get p).data (s2.get p).children with
           | none => processUses win rest (s2.setInHC p true) q (kept ++ [(p, k)])
           | some other =>
             let pr := s2.queueMerge q p other
             processUses win rest pr.1 pr.2 (kept ++ [(p, k)])) = _
          rw [hfind]
        rw [hrw]
        have hrootOf3 : ∀ j, s3.rootOf j = s.rootOf j := by
          intro j
          apply rootOf_of_upEq
          · exact hn3
          · intro j2
            rw [hs3, EG.get_setInHC]
            split
            · rename_i h
              rw [h.1, hs2, evict_get s p k win hp, if_pos rfl]
            · rw [hs2, evict_get s p k win hp]
              split
              · rename_i h h2
                rw [h2]
              · rfl
        have huses3 : ∀ j, (s3.get j).uses = (s.get j).uses := by
          intro j
          rw [hs3, EG.get_setInHC]
          split
          · rename_i h
            rw [h.1, hs2, evict_get s p k win hp, if_pos rfl]
          · rw [hs2, evict_get s p k win hp]
            split
            · rename_i h h2
              rw [h2]
            · rfl
        have hrc3 : s3.rootCount = s.rootCount := by
          apply rootCount_of_upEq
          · exact hn3
          · intro j2
            rw [hs3, EG.get_setInHC]
            split
            · rename_i h
              rw [h.1, hs2, evict_get s p k win hp, if_pos rfl]
            · rw [hs2, evict_get s p k win hp]
              split
              · rename_i h h2
                rw [h2]
              · rfl
        refine ⟨c1, ?_, by rw [c3, hn3], by rw [c4, hs3, EG.rootsL_setInHC, hs2,
          EG.rootsL_setChild, EG.rootsL_setInHC], ?_, ?_, ?_, ?_, by rw [c8, hrc3], c9⟩
        · intro pq hpq
          have := c2 pq hpq
          rw [hn3] at this
          exact this
        · intro j
          rw [c5 j, hrootOf3 j]
        · intro j
          rw [c6 j, huses3 j]
        · calc (processUses win rest s3 q (kept ++ [(p, k)])).2.1.length
              ≤ q.length + rest.length := c7
            _ ≤ q.length + ((p, k) :: rest).length := by simp
        · have := c7b
          have hlen2 : (kept ++ [(p, k)]).length = kept.length + 1 := by simp
          rw [hlen2] at this
          simp only [List.length_cons]
          omega
      · have hW2 := walk_evict s win lose p k rest kept hW hin
        have hUF2 : UF s2 := walkInv_UF hW2
        obtain ⟨hother, hotherHC, hotherD, hotherC⟩ := hcGet_some s2 hfind
        have hpn2 : p < s2.n := by omega
        have hon2 : other < s2.n := by omega
        obtain ⟨hP1, hUFa, hreta⟩ := rootC_pureUp s2 hUF2 p hpn2
        set sa := (s2.rootC p).1 with hsa
        have hon2a : other < sa.n := by rw [hP1.n_eq]; omega
        obtain ⟨hP2, hUFb, hretb⟩ := rootC_pureUp sa hUFa other hon2a
        set sb := (sa.rootC other).1 with hsb
        have hWb : WalkInv sb win lose rest (kept ++ [(p, k)]) :=
          walkInv_of_pureUp (walkInv_of_pureUp hW2 hUFa hP1) hUFb hP2
        have hnb : sb.n = s.n := by rw [hP2.n_eq, hP1.n_eq, hn2]
        have hqm : s2.queueMerge q p other =
            (sb, if (s2.rootC p).2 = (sa.rootC other).2 then q
              else q ++ [((s2.rootC p).2, (sa.rootC other).2)]) := rfl
        have hrp : (s2.rootC p).2 = s2.rootOf p := hreta
        have hro : (sa.rootC other).2 = sa.rootOf other := hretb
        have hrplt : s2.rootOf p < s.n := by
          have := rootOf_lt s2 hUF2 p hpn2
          omega
        have hrolt : sa.rootOf other < s.n := by
          have := rootOf_lt sa hUFa other hon2a
          rw [hP1.n_eq, hn2] at this
          exact this
        set q2 := (s2.queueMerge q p other).2 with hq2
        have hq2wf : ∀ pq ∈ q2, pq.1 < sb.n ∧ pq.2 < sb.n := by
          intro pq hpq
          rw [hnb]
          rw [hq2, hqm] at hpq
          simp only at hpq
          rcases hsplit : decide ((s2.rootC p).2 = (sa.rootC other).2) with _ | _
          · rw [if_neg (of_decide_eq_false hsplit)] at hpq
            rcases List.mem_append.1 hpq with h | h
            · exact hq pq h
            · have : pq = ((s2.rootC p).2, (sa.rootC other).2) := List.mem_singleton.1 h
              rw [this, hrp, hro]
              exact ⟨hrplt, hrolt⟩
          · rw [if_pos (of_decide_eq_true hsplit)] at hpq
            exact hq pq hpq
        have hq2len : q2.length ≤ q.length + 1 := by
          rw [hq2, hqm]
          simp only
          split
          · exact Nat.le_succ _
          · simp
        obtain ⟨c1, c2, c3, c4, c5, c6, c7, c7b, c8, c9⟩ := ih sb q2 (kept ++ [(p, k)]) hWb hq2wf
        have hrw : processUses win ((p, k) :: rest) s q kept =
            processUses win rest sb q2 (kept ++ [(p, k)]) := by
          rw [hstep]
          show (match hcGet s2 (s2.get p).data (s2.get p).children with
           | none => processUses win rest (s2.setInHC p true) q (kept ++ [(p, k)])
           | some other =>
             let pr := s2.queueMerge q p other
             processUses win rest pr.1 pr.2 (kept ++ [(p, k)])) = _
          rw [hfind]
          rfl
        rw [hrw]
        have hrootOfb : ∀ j, sb.rootOf j = s.rootOf j := by
          intro j
          rw [hP2.root_eq, hP1.root_eq]
          apply rootOf_of_upEq
          · exact hn2
          · intro j2
            rw [hs2, evict_get s p k win hp]
            split
            · rename_i h
              rw [h]
            · rfl
        have husesb : ∀ j, (sb.get j).uses = (s.get j).uses := by
          intro j
          rw [hP2.uses_eq, hP1.uses_eq]
          rw [hs2, evict_get s p k win hp]
          split
          · rename_i h
            rw [h]
          · rfl
        have hrcb : sb.rootCount = s.rootCount := by
          rw [hP2.rootCount_eq, hP1.rootCount_eq]
          apply rootCount_of_upEq
          · exact hn2
          · intro j2
            rw [hs2, evict_get s p k win hp]
            split
            · rename_i h
              rw [h]
            · rfl
        have hrlb : sb.rootsL = s.rootsL := by
          rw [hP2.roots_eq, hP1.roots_eq, hs2, EG.rootsL_setChild, EG.rootsL_setInHC]
        refine ⟨c1, ?_, by rw [c3, hnb], by rw [c4, hrlb], ?_, ?_, ?_, ?_,
          by rw [c8, hrcb], ?_⟩
        · intro pq hpq
          have := c2 pq hpq
          rw [hnb] at this
          exact this
        · intro j
          rw [c5 j, hrootOfb j]
        · intro j
          rw [c6 j, husesb j]
        · calc (processUses win rest sb q2 (kept ++ [(p, k)])).2.1.length
              ≤ q2.length + rest.length := c7
            _ ≤ (q.length + 1) + rest.length := by omega
            _ = q.length + ((p, k) :: rest).length := by simp; omega
        · have := c7b
          have hlen2 : (kept ++ [(p, k)]).length = kept.length + 1 := by simp
          rw [hlen2] at this
          simp only [List.length_cons]
          omega
        · intro pq hpq
          apply c9
          rw [hq2, hqm]
          simp only
          split
          · exact hpq
          · exact List.mem_append.2 (Or.inl hpq)
    · have hstep : processUses win ((p, k) :: rest) s q kept =
          processUses win rest s q kept := by
        show (if (s.get p).inHC = true then _ else _) = _
        rw [if_neg hin]
      rw [hstep]
      have hW2 := walk_skip s win lose p k rest kept hW hin
      obtain ⟨c1, c2, c3, c4, c5, c6, c7, c7b, c8, c9⟩ := ih s q kept hW2 hq
      refine ⟨c1, c2, c3, c4, c5, c6, ?_, ?_, c8, c9⟩
      · calc (processUses win rest s q kept).2.1.length
            ≤ q.length + rest.length := c7
          _ ≤ q.length + ((p, k) :: rest).length := by simp
      · have := c7b
        simp only [List.length_cons] at this ⊢
        omega

end WalkMaster

section DrainEntry

variable {D : Type} [DecidableEq D] [Inhabited D]

theorem rootCount_pos_of_root (s : EG D) (i : Nat) (hi : i < s.n)
    (hroot : (s.get i).up = none) : 0 < s.rootCount := by
  have hmem : i ∈ (List.range s.n).filter (fun j => decide ((s.get j).up = none)) := by
    apply List.mem_filter.2
    exact ⟨List.mem_range.2 hi, by simp [hroot]⟩
  unfold EG.rootCount
  exact List.length_pos.2 (List.ne_nil_of_mem hmem)

theorem drain_entry (s : EG D) (hI : EGInv s) (win lose : Nat)
    (hw : win < s.n) (hl : lose < s.n) (hrw : (s.get win).up = none)
    (hrl : (s.get lose).up = none) (hne : lose ≠ win)
    (hrank : (s.get lose).rank ≤ (s.get win).rank) :
    WalkInv { s.mergeRootsS lose win with rootsL := s.rootsL.erase lose }
      win lose ((s.get lose).uses) [] := by
  have hUF := egInv_UF hI
  have MF := mergeRootsS_facts s hI lose win hl hw hrl hrw hne hrank
  set m := s.mergeRootsS lose win with hm
  set t : EG D := { m with rootsL := s.rootsL.erase lose } with htd
  have hget : ∀ j, t.get j = m.get j := fun _ => rfl
  have hn : t.n = m.n := rfl
  have hroott : ∀ j, t.rootOf j = m.rootOf j :=
    rootOf_of_upEq m t rfl (fun _ => rfl)
  have hrct : t.rootCount = m.rootCount :=
    rootCount_of_upEq m t rfl (fun _ => rfl)
  have hchildAt : ∀ j k2, (m.get j).children.getD k2 0 = (s.get j).children.getD k2 0 := by
    intro j k2
    rw [MF.children_eq]
  constructor
  · rw [hn, MF.n_eq]; exact hw
  · rw [hn, MF.n_eq]; exact hl
  · rw [hget, MF.up_ne win (Ne.symm hne)]; exact hrw
  · rw [hget, MF.up_a]; simp
  · intro i hi c hc
    rw [hget, MF.children_eq] at hc
    rw [hn, MF.n_eq] at hi ⊢
    exact hI.chl i hi c hc
  · intro i hi j hup
    rw [hn, MF.n_eq] at hi ⊢
    rw [hget] at hup
    exact (MF.uf.2 i (by rw [MF.n_eq]; omega) j hup).1.trans_le (le_of_eq MF.n_eq)
  · intro i hi j hup
    rw [hn, MF.n_eq] at hi
    rw [hget, hget] at *
    exact (MF.uf.2 i (by rw [MF.n_eq]; omega) j hup).2
  · intro i hi
    rw [hn, MF.n_eq] at hi ⊢
    rw [hget, hrct]
    have hrcm : m.rootCount + 1 = s.rootCount := MF.rc
    by_cases hiw : i = win
    · rw [hiw, MF.rank_b]
      have := hI.rankBound win hw
      split
      · omega
      · omega
    · rw [MF.rank_ne i ?hne2]
      · have := hI.rankBound i hi
        omega
      · exact hiw
  · right
    rw [hrct]
    apply rootCount_pos_of_root m win (by rw [MF.n_eq]; omega)
    rw [MF.up_ne win (Ne.symm hne)]
    exact hrw
  · intro i
    show i ∈ s.rootsL.erase lose ↔ _
    rw [hn, MF.n_eq, hget]
    rw [hI.rootsND.mem_erase_iff]
    constructor
    · intro ⟨h1, h2⟩
      obtain ⟨h3, h4⟩ := (hI.rootsIff i).1 h2
      refine ⟨h3, ?_⟩
      rw [MF.up_ne i h1]
      exact h4
    · intro ⟨h1, h2⟩
      have hil : i ≠ lose := by
        intro hc
        rw [hc, MF.up_a] at h2
        cases h2
      rw [MF.up_ne i hil] at h2
      exact ⟨hil, (hI.rootsIff i).2 ⟨h1, h2⟩⟩
  · exact hI.rootsND.erase lose
  · intro i hi hlivei k2 hk2
    rw [hget, MF.inHC_eq] at hlivei
    rw [hget, MF.children_eq] at hk2
    rw [hn, MF.n_eq] at hi
    simp only [hget, hchildAt]
    have hcm : (s.get i).children.getD k2 0 ∈ (s.get i).children := by
      rw [List.getD_eq_getElem _ 0 hk2]
      exact List.getElem_mem hk2
    have hcroot := hI.hcChildRoot i hi hlivei _ hcm
    by_cases hcl : (s.get i).children.getD k2 0 = lose
    · right
      refine ⟨?_, hcl⟩
      obtain ⟨r, hr1, hr2⟩ := hI.usesCompl i hi hlivei k2 hk2
      have := hI.usesAcc r hr1 (i, k2) hr2 hlivei
      simp only at this
      have hrlose : r = lose := by rw [← this, hcl]
      rw [hrlose] at hr2
      exact hr2
    · left
      rw [MF.up_ne _ hcl]
      exact hcroot
  · intro i hi j hj h1 h2 h3 h4
    rw [hn, MF.n_eq] at hi hj
    rw [hget, MF.inHC_eq] at h1 h2
    rw [hget, hget, MF.data_eq, MF.data_eq] at h3
    rw [hget, hget, MF.children_eq, MF.children_eq] at h4
    exact hI.hcUnique i hi j hj h1 h2 h3 h4
  · intro r hr pk hpk
    rw [hn, MF.n_eq] at hr ⊢
    rw [hget] at hpk
    rw [hget, MF.children_eq]
    by_cases hrl2 : r = lose
    · rw [hrl2, MF.uses_a] at hpk
      cases hpk
    · rw [MF.uses_ne r hrl2] at hpk
      exact hI.usesWF r hr pk hpk
  · intro pk hpk
    rw [List.append_nil] at hpk
    rw [hn, MF.n_eq, hget, MF.children_eq]
    exact hI.usesWF lose hl pk hpk
  · intro r hr hne2
    rw [hget] at hne2 ⊢
    rw [hn, MF.n_eq] at hr
    by_cases hrl2 : r = lose
    · rw [hrl2, MF.uses_a] at hne2
      exact absurd rfl hne2
    · rw [MF.uses_ne r hrl2] at hne2
      rw [MF.up_ne r hrl2]
      exact hI.usesOwnerRoot r hr hne2
  · intro r hr pk hpk hlive
    rw [hget] at hpk hlive
    rw [MF.inHC_eq] at hlive
    rw [hn, MF.n_eq] at hr
    simp only [hget, hchildAt]
    by_cases hrl2 : r = lose
    · rw [hrl2, MF.uses_a] at hpk
      cases hpk
    · rw [MF.uses_ne r hrl2] at hpk
      exact hI.usesAcc r hr pk hpk hlive
  · intro p hp hlivep k2 hk2
    rw [hget, MF.inHC_eq] at hlivep
    rw [hget, MF.children_eq] at hk2
    rw [hn, MF.n_eq] at hp
    obtain ⟨r, hr1, hr2⟩ := hI.usesCompl p hp hlivep k2 hk2
    by_cases hrl2 : r = lose
    · right; left
      rw [hrl2] at hr2
      exact hr2
    · left
      refine ⟨r, by rw [hn, MF.n_eq]; omega, ?_⟩
      rw [hget, MF.uses_ne r hrl2]
      exact hr2
  · intro r hr
    rw [hget]
    rw [hn, MF.n_eq] at hr
    by_cases hrl2 : r = lose
    · rw [hrl2, MF.uses_a]
      exact List.nodup_nil
    · rw [MF.uses_ne r hrl2]
      exact hI.usesND r hr
  · intro r hr r2 hr2 hne2 pk hpk
    rw [hget] at hpk ⊢
    rw [hn, MF.n_eq] at hr hr2
    by_cases hrl2 : r = lose
    · rw [hrl2, MF.uses_a] at hpk
      cases hpk
    · by_cases hrl3 : r2 = lose
      · rw [hrl3, MF.uses_a]
        simp
      · rw [MF.uses_ne r hrl2] at hpk
        rw [MF.uses_ne r2 hrl3]
        exact hI.usesDisj r hr r2 hr2 hne2 pk hpk
  · rw [List.append_nil]
    exact hI.usesND lose hl
  · intro pk hpk r hr
    rw [List.append_nil] at hpk
    rw [hget]
    rw [hn, MF.n_eq] at hr
    by_cases hrl2 : r = lose
    · rw [hrl2, MF.uses_a]
      simp
    · rw [MF.uses_ne r hrl2]
      exact hI.usesDisj lose hl r hr (fun hc => hrl2 hc.symm) pk hpk
  · intro pk hpk
    cases hpk
  · intro pk hpk hlive
    rw [hget, MF.inHC_eq] at hlive
    simp only [hget, hchildAt]
    exact hI.usesAcc lose hl pk hpk hlive
  · intro i hi hiup
    rw [hget] at hiup ⊢
    rw [hn, MF.n_eq] at hi
    by_cases hil : i = lose
    · rw [hil, MF.down_a]
    · rw [MF.up_ne i hil] at hiup
      by_cases hiw : i = win
      · rw [hiw] at hiup
        exact absurd hrw hiup
      · rw [MF.down_ne i hil hiw]
        exact hI.downSub i hi hiup
  · intro r hr j hj
    rw [hget] at hj
    rw [hn, MF.n_eq] at hr ⊢
    rw [hroott, MF.root_eq]
    by_cases hrl2 : r = lose
    · rw [hrl2, MF.down_a] at hj
      cases hj
    · by_cases hrw2 : r = win
      · rw [hrw2, MF.down_b] at hj
        rcases List.mem_append.1 hj with h | h
        · obtain ⟨h1, h2⟩ := hI.downMem win hw j h
          rw [h2, hrw2]
          refine ⟨h1, ?_⟩
          rw [if_neg (Ne.symm hne)]
        · obtain ⟨h1, h2⟩ := hI.downMem lose hl j h
          rw [h2, hrw2]
          exact ⟨h1, by rw [if_pos rfl]⟩
      · rw [MF.down_ne r hrl2 hrw2] at hj
        obtain ⟨h1, h2⟩ := hI.downMem r hr j hj
        rw [h2]
        exact ⟨h1, by rw [if_neg hrl2]⟩
  · intro j hj hlivej
    rw [hget, MF.inHC_eq] at hlivej
    rw [hn, MF.n_eq] at hj
    rw [hroott, MF.root_eq, hget]
    have hbase := hI.downCompl j hj hlivej
    by_cases hjl : s.rootOf j = lose
    · rw [hjl, if_pos rfl, MF.down_b]
      apply List.mem_append.2
      right
      rw [← hjl]
      exact hbase
    · rw [if_neg hjl]
      by_cases hjw : s.rootOf j = win
      · rw [hjw, MF.down_b]
        apply List.mem_append.2
        left
        rw [← hjw]
        exact hbase
      · rw [MF.down_ne _ hjl hjw]
        exact hbase
  · intro r hr
    rw [hget]
    rw [hn, MF.n_eq] at hr
    by_cases hrl2 : r = lose
    · rw [hrl2, MF.down_a]
      exact List.nodup_nil
    · by_cases hrw2 : r = win
      · rw [hrw2, MF.down_b]
        apply List.Nodup.append (hI.downND win hw) (hI.downND lose hl)
        intro x hx1 hx2
        have e1 := (hI.downMem win hw x hx1).2
        have e2 := (hI.downMem lose hl x hx2).2
        rw [e1] at e2
        exact hne e2.symm
      · rw [MF.down_ne r hrl2 hrw2]
        exact hI.downND r hr

end DrainEntry

section DrainExit

variable {D : Type} [DecidableEq D] [Inhabited D]

theorem drain_exit (s : EG D) (win lose : Nat) (kept : List (Nat × Nat))
    (hW : WalkInv s win lose [] kept) :
    EGInv (s.setUses win ((s.get win).uses ++ kept)) := by
  have hwin := hW.winLt
  set t := s.setUses win ((s.get win).uses ++ kept) with htd
  have hget : ∀ j, t.get j = if j = win ∧ win < s.n then
      { s.get win with uses := (s.get win).uses ++ kept } else s.get j :=
    fun j => EG.get_setUses s win _ j
  have hn : t.n = s.n := EG.n_setUses s win _
  have hus : ∀ j, j ≠ win → (t.get j).uses = (s.get j).uses := by
    intro j hj
    rw [hget, if_neg (fun hc => hj hc.1)]
  have husw : (t.get win).uses = (s.get win).uses ++ kept := by
    rw [hget, if_pos ⟨rfl, hwin⟩]
  have hdata : ∀ j, (t.get j).data = (s.get j).data := by
    intro j; rw [hget]; split
    · rename_i h; rw [h.1]
    · rfl
  have hch : ∀ j, (t.get j).children = (s.get j).children := by
    intro j; rw [hget]; split
    · rename_i h; rw [h.1]
    · rfl
  have hrank : ∀ j, (t.get j).rank = (s.get j).rank := by
    intro j; rw [hget]; split
    · rename_i h; rw [h.1]
    · rfl
  have hup : ∀ j, (t.get j).up = (s.get j).up := by
    intro j; rw [hget]; split
    · rename_i h; rw [h.1]
    · rfl
  have hhc : ∀ j, (t.get j).inHC = (s.get j).inHC := by
    intro j; rw [hget]; split
    · rename_i h; rw [h.1]
    · rfl
  have hdown : ∀ j, (t.get j).down = (s.get j).down := by
    intro j; rw [hget]; split
    · rename_i h; rw [h.1]
    · rfl
  have hroot : ∀ j, t.rootOf j = s.rootOf j := rootOf_of_upEq s t hn hup
  have hrc : t.rootCount = s.rootCount := rootCount_of_upEq s t hn hup
  have hroots : t.rootsL = s.rootsL := rfl
  have hkept : ∀ pk ∈ kept, pk ∈ kept := fun pk h => h
  have hkeptND : kept.Nodup := by
    have := hW.pendND
    rw [List.nil_append] at this
    exact this
  have hkeptRD : ∀ pk ∈ kept, ∀ r < s.n, pk ∉ (s.get r).uses := by
    intro pk hpk r hr
    exact hW.pendRingDisj pk (by rw [List.nil_append]; exact hpk) r hr
  constructor
  · intro i hi c hc
    rw [hch] at hc
    rw [hn] at hi ⊢
    exact hW.chl i hi c hc
  · intro i hi j hupj
    rw [hup] at hupj
    rw [hn] at hi ⊢
    exact hW.upLt i hi j hupj
  · intro i hi j hupj
    rw [hup] at hupj
    rw [hn] at hi
    rw [hrank, hrank]
    exact hW.upRank i hi j hupj
  · intro i hi
    rw [hn] at hi ⊢
    rw [hrank, hrc]
    exact hW.rankBound i hi
  · rw [hn, hrc]; exact hW.rootPos
  · intro i
    rw [hroots, hn, hup]
    exact hW.rootsIff i
  · rw [hroots]; exact hW.rootsND
  · intro i hi hlivei c hc
    rw [hn] at hi
    rw [hhc] at hlivei
    rw [hch] at hc
    rw [hup]
    obtain ⟨k, hk, hval⟩ := List.getElem_of_mem hc
    have := hW.hcCR i hi hlivei k hk
    rcases this with h | ⟨hmem, _⟩
    · rw [List.getD_eq_getElem _ 0 hk, hval] at h
      exact h
    · cases hmem
  · intro i hi j hj h1 h2 h3 h4
    rw [hn] at hi hj
    rw [hhc] at h1 h2
    rw [hdata, hdata] at h3
    rw [hch, hch] at h4
    exact hW.hcUnique i hi j hj h1 h2 h3 h4
  · intro r hr pk hpk
    rw [hn] at hr ⊢
    rw [hch]
    by_cases hrw : r = win
    · rw [hrw, husw] at hpk
      rcases List.mem_append.1 hpk with h | h
      · exact hW.usesWF win hwin pk h
      · exact hW.pendWF pk (by rw [List.nil_append]; exact h)
    · rw [hus r hrw] at hpk
      exact hW.usesWF r hr pk hpk
  · intro r hr hne
    rw [hn] at hr
    rw [hup]
    by_cases hrw : r = win
    · rw [hrw]
      exact hW.winRoot
    · rw [hus r hrw] at hne
      exact hW.usesOwnerRoot r hr hne
  · intro r hr pk hpk hlive
    rw [hn] at hr
    rw [hhc] at hlive
    rw [hch]
    by_cases hrw : r = win
    · rw [hrw, husw] at hpk
      rcases List.mem_append.1 hpk with h | h
      · rw [hrw]
        exact hW.usesAcc win hwin pk h hlive
      · rw [hrw]
        exact hW.keptChild pk h
    · rw [hus r hrw] at hpk
      exact hW.usesAcc r hr pk hpk hlive
  · intro p hp hlivep k hk
    rw [hn] at hp
    rw [hhc] at hlivep
    rw [hch] at hk
    rcases hW.usesCompl p hp hlivep k hk with ⟨r, hr1, hr2⟩ | h | h
    · by_cases hrw : r = win
      · refine ⟨win, by omega, ?_⟩
        rw [husw]
        apply List.mem_append.2
        left
        rw [← hrw]
        exact hr2
      · refine ⟨r, by omega, ?_⟩
        rw [hus r hrw]
        exact hr2
    · cases h
    · refine ⟨win, by omega, ?_⟩
      rw [husw]
      exact List.mem_append.2 (Or.inr h)
  · intro r hr
    rw [hn] at hr
    by_cases hrw : r = win
    · rw [hrw, husw]
      apply List.Nodup.append (hW.usesND win hwin) hkeptND
      intro x hx1 hx2
      exact hkeptRD x hx2 win hwin hx1
    · rw [hus r hrw]
      exact hW.usesND r hr
  · intro r hr r2 hr2 hne pk hpk
    rw [hn] at hr hr2
    by_cases hrw : r = win <;> by_cases hrw2 : r2 = win
    · rw [hrw] at hne
      rw [hrw2] at hne
      exact absurd rfl hne
    · rw [hrw, husw] at hpk
      rw [hus r2 hrw2]
      rcases List.mem_append.1 hpk with h | h
      · exact hW.usesDisj win hwin r2 hr2 (by rw [← hrw]; exact hne) pk h
      · exact hkeptRD pk h r2 hr2
    · rw [hus r hrw] at hpk
      rw [hrw2, husw]
      intro hc
      rcases List.mem_append.1 hc with h | h
      · exact hW.usesDisj r hr win hwin (by rw [← hrw2]; exact hne) pk hpk h
      · exact hkeptRD pk h r hr hpk
    · rw [hus r hrw] at hpk
      rw [hus r2 hrw2]
      exact hW.usesDisj r hr r2 hr2 hne pk hpk
  · intro i hi hiup
    rw [hup] at hiup
    rw [hn] at hi
    rw [hdown]
    exact hW.downSub i hi hiup
  · intro r hr j hj
    rw [hdown] at hj
    rw [hn] at hr ⊢
    rw [hroot]
    exact hW.downMem r hr j hj
  · intro j hj hlivej
    rw [hn] at hj
    rw [hhc] at hlivej
    rw [hroot, hdown]
    exact hW.downCompl j hj hlivej
  · intro r hr
    rw [hdown]
    rw [hn] at hr
    exact hW.downND r hr

end DrainExit

section DrainStep

variable {D : Type} [DecidableEq D] [Inhabited D]

theorem sum_update {l : List Nat} {f g : Nat → Nat} {x d : Nat} (hx : x ∈ l)
    (hnd : l.Nodup) (hgx : g x = f x + d) (hag : ∀ y ∈ l, y ≠ x → g y = f y) :
    (l.map g).sum = (l.map f).sum + d := by
  induction l with
  | nil => cases hx
  | cons h t ih =>
    rcases List.mem_cons.1 hx with hh | ht
    · subst hh
      have hnx : x ∉ t := (List.nodup_cons.1 hnd).1
      have heq : t.map g = t.map f := List.map_congr_left fun y hy =>
        hag y (List.mem_cons_of_mem _ hy) (fun hc => hnx (hc ▸ hy))
      simp only [List.map_cons, List.sum_cons, heq, hgx]
      omega
    · have hhx : h ≠ x := fun hc => (List.nodup_cons.1 hnd).1 (hc ▸ ht)
      have hrec := ih ht (List.nodup_cons.1 hnd).2
        (fun y hy => hag y (List.mem_cons_of_mem _ hy))
      simp only [List.map_cons, List.sum_cons, hag h (List.mem_cons_self h t) hhx, hrec]
      omega

theorem uses_le_totalUses (s : EG D) (i : Nat) (hi : i < s.n) :
    (s.get i).uses.length ≤ s.totalUses := by
  unfold EG.totalUses
  apply List.single_le_sum (fun _ _ => Nat.zero_le _)
  exact List.mem_map.2 ⟨i, List.mem_range.2 hi, rfl⟩

theorem drain_union_step (s2 : EG D) (hI2 : EGInv s2) (win lose : Nat)
    (q' : List (Nat × Nat))
    (hw : win < s2.n) (hl : lose < s2.n) (hrw : (s2.get win).up = none)
    (hrl : (s2.get lose).up = none) (hne : lose ≠ win)
    (hrank : (s2.get lose).rank ≤ (s2.get win).rank)
    (hq' : ∀ pq ∈ q', pq.1 < s2.n ∧ pq.2 < s2.n)
    (s4 : EG D) (hs4 : s4 = { s2.mergeRootsS lose win with rootsL := s2.rootsL.erase lose })
    (s6 : EG D)
    (hs6 : s6 = (processUses win ((s2.get lose).uses) s4 q' []).1.setUses win
      (((processUses win ((s2.get lose).uses) s4 q' []).1.get win).uses ++
        (processUses win ((s2.get lose).uses) s4 q' []).2.2)) :
    EGInv s6 ∧ s6.n = s2.n ∧
    (∀ pq ∈ (processUses win ((s2.get lose).uses) s4 q' []).2.1,
      pq.1 < s2.n ∧ pq.2 < s2.n) ∧
    (∀ pq ∈ q', pq ∈ (processUses win ((s2.get lose).uses) s4 q' []).2.1) ∧
    (processUses win ((s2.get lose).uses) s4 q' []).2.1.length +
      s6.rootCount * (s6.totalUses + 1) <
      (q'.length + 1) + s2.rootCount * (s2.totalUses + 1) ∧
    (∀ x y, s2.rootOf x = s2.rootOf y → s6.rootOf x = s6.rootOf y) ∧
    s6.rootOf lose = s6.rootOf win := by
  have hUF2 := egInv_UF hI2
  have MF := mergeRootsS_facts s2 hI2 lose win hl hw hrl hrw hne hrank
  have hW4 : WalkInv s4 win lose ((s2.get lose).uses) [] := by
    rw [hs4]
    exact drain_entry s2 hI2 win lose hw hl hrw hrl hne hrank
  have hn4 : s4.n = s2.n := by rw [hs4]; exact MF.n_eq
  have hget4 : ∀ j, s4.get j = (s2.mergeRootsS lose win).get j := by
    intro j; rw [hs4]; rfl
  have hroot4 : ∀ j, s4.rootOf j = (s2.mergeRootsS lose win).rootOf j := by
    rw [hs4]
    exact rootOf_of_upEq (s2.mergeRootsS lose win) _ rfl (fun _ => rfl)
  have hrc4 : s4.rootCount = (s2.mergeRootsS lose win).rootCount := by
    rw [hs4]
    exact rootCount_of_upEq (s2.mergeRootsS lose win) _ rfl (fun _ => rfl)
  have hq4 : ∀ pq ∈ q', pq.1 < s4.n ∧ pq.2 < s4.n := by
    intro pq hpq
    rw [hn4]
    exact hq' pq hpq
  obtain ⟨c1, c2, c3, c4, c5, c6, c7, c7b, c8, c9⟩ :=
    processUses_master win lose ((s2.get lose).uses) s4 q' [] hW4 hq4
  set s5 := (processUses win ((s2.get lose).uses) s4 q' []).1 with hs5
  set kept := (processUses win ((s2.get lose).uses) s4 q' []).2.2 with hkept
  set q2 := (processUses win ((s2.get lose).uses) s4 q' []).2.1 with hq2
  have hI6 : EGInv s6 := by
    rw [hs6]
    exact drain_exit s5 win lose kept c1
  have hn6 : s6.n = s2.n := by
    rw [hs6, EG.n_setUses, c3, hn4]
  have hup6 : ∀ j, (s6.get j).up = (s5.get j).up := by
    intro j
    rw [hs6, EG.get_setUses]
    split
    · rename_i h; rw [h.1]
    · rfl
  have hroot65 : ∀ j, s6.rootOf j = s5.rootOf j := by
    apply rootOf_of_upEq
    · rw [hs6, EG.n_setUses]
    · exact hup6
  have hroot6 : ∀ j, s6.rootOf j =
      (if s2.rootOf j = lose then win else s2.rootOf j) := by
    intro j
    rw [hroot65, c5, hroot4, MF.root_eq]
  have hrc6 : s6.rootCount + 1 = s2.rootCount := by
    have h65 : s6.rootCount = s5.rootCount := by
      apply rootCount_of_upEq
      · rw [hs6, EG.n_setUses]
      · exact hup6
    rw [h65, c8, hrc4]
    exact MF.rc
  have hdlen : (s2.get lose).uses.length ≤ s2.totalUses :=
    uses_le_totalUses s2 lose hl
  have htU24 : s2.totalUses = s4.totalUses + (s2.get lose).uses.length := by
    unfold EG.totalUses
    rw [hn4]
    apply sum_update (x := lose)
    · exact List.mem_range.2 hl
    · exact List.nodup_range s2.n
    · rw [hget4, MF.uses_a]
      simp
    · intro y _ hy
      rw [hget4, MF.uses_ne y hy]
  have htU5 : s5.totalUses = s4.totalUses := totalUses_of_usesEq s4 s5 c3 c6
  have htU6 : s6.totalUses = s5.totalUses + kept.length := by
    unfold EG.totalUses
    rw [hs6, EG.n_setUses]
    apply sum_update (x := win)
    · apply List.mem_range.2
      rw [c3, hn4]
      exact hw
    · exact List.nodup_range _
    · rw [EG.get_setUses, if_pos ⟨rfl, by rw [c3, hn4]; exact hw⟩]
      simp
    · intro y _ hy
      rw [EG.get_setUses, if_neg (fun hc => hy hc.1)]
  have hklen : kept.length ≤ (s2.get lose).uses.length := by
    have := c7b
    simpa using this
  have htU62 : s6.totalUses ≤ s2.totalUses := by omega
  refine ⟨hI6, hn6, ?_, ?_, ?_, ?_, ?_⟩
  · intro pq hpq
    have := c2 pq hpq
    rw [hn4] at this
    exact this
  · exact c9
  · have hq2len : q2.length ≤ q'.length + (s2.get lose).uses.length := c7
    have hmul : s6.rootCount * (s6.totalUses + 1) ≤
        s6.rootCount * (s2.totalUses + 1) :=
      Nat.mul_le_mul_left _ (by omega)
    have hmul2 : (s6.rootCount + 1) * (s2.totalUses + 1) =
        s2.rootCount * (s2.totalUses + 1) := by rw [hrc6]
    have hexp : (s6.rootCount + 1) * (s2.totalUses + 1) =
        s6.rootCount * (s2.totalUses + 1) + (s2.totalUses + 1) := by ring
    omega
  · intro x y hxy
    rw [hroot6, hroot6, hxy]
  · rw [hroot6, hroot6]
    have h1 : s2.rootOf lose = lose := rootOf_of_root s2 lose hrl
    have h2 : s2.rootOf win = win := rootOf_of_root s2 win hrw
    rw [h1, h2, if_pos rfl, if_neg (Ne.symm hne)]

end DrainStep

section DrainMaster

variable {D : Type} [DecidableEq D] [Inhabited D]

theorem drain_union_apply (fuel : Nat) {s s2 : EG D} {a b ra rb win lose : Nat}
    {q' : List (Nat × Nat)}
    (ih : ∀ (t : EG D) (q : List (Nat × Nat)) (c : Bool),
      EGInv t → (∀ pq ∈ q, pq.1 < t.n ∧ pq.2 < t.n) →
      q.length + t.rootCount * (t.totalUses + 1) < fuel →
      EGInv (mergeDrain fuel t q c).1 ∧
      (mergeDrain fuel t q c).1.n = t.n ∧
      (∀ pq ∈ q, (mergeDrain fuel t q c).1.rootOf pq.1 =
        (mergeDrain fuel t q c).1.rootOf pq.2) ∧
      (∀ x y, t.rootOf x = t.rootOf y →
        (mergeDrain fuel t q c).1.rootOf x = (mergeDrain fuel t q c).1.rootOf y))
    (hI2 : EGInv s2) (hPn : s2.n = s.n) (hProot : ∀ j, s2.rootOf j = s.rootOf j)
    (hPrc : s2.rootCount = s.rootCount) (hPtU : s2.totalUses = s.totalUses)
    (hra : s.rootOf a = ra) (hrb : s.rootOf b = rb)
    (hraLt : ra < s2.n) (hrbLt : rb < s2.n)
    (hupra : (s2.get ra).up = none) (huprb : (s2.get rb).up = none)
    (hne : ra ≠ rb)
    (hwl : win = ra ∧ lose = rb ∨ win = rb ∧ lose = ra)
    (hrank : (s2.get lose).rank ≤ (s2.get win).rank)
    (hq' : ∀ pq ∈ q', pq.1 < s2.n ∧ pq.2 < s2.n)
    (hΦ : q'.length + 1 + s.rootCount * (s.totalUses + 1) ≤ fuel)
    {s4 : EG D}
    (hs4 : s4 = { s2.mergeRootsS lose win with rootsL := s2.rootsL.erase lose })
    {s6 : EG D}
    (hs6 : s6 = (processUses win ((s2.get lose).uses) s4 q' []).1.setUses win
      (((processUses win ((s2.get lose).uses) s4 q' []).1.get win).uses ++
        (processUses win ((s2.get lose).uses) s4 q' []).2.2))
    {q2 : List (Nat × Nat)}
    (hq2 : q2 = (processUses win ((s2.get lose).uses) s4 q' []).2.1) :
    EGInv (mergeDrain fuel s6 q2 true).1 ∧
    (mergeDrain fuel s6 q2 true).1.n = s.n ∧
    (∀ pq ∈ (a, b) :: q', (mergeDrain fuel s6 q2 true).1.rootOf pq.1 =
      (mergeDrain fuel s6 q2 true).1.rootOf pq.2) ∧
    (∀ x y, s.rootOf x = s.rootOf y →
      (mergeDrain fuel s6 q2 true).1.rootOf x =
        (mergeDrain fuel s6 q2 true).1.rootOf y) := by
  obtain ⟨hwLt, hlLt, hupw, hupl, hlw⟩ : win < s2.n ∧ lose < s2.n ∧
      (s2.get win).up = none ∧ (s2.get lose).up = none ∧ lose ≠ win := by
    rcases hwl with ⟨hw1, hl1⟩ | ⟨hw1, hl1⟩ <;> subst hw1 <;> subst hl1
    · exact ⟨hraLt, hrbLt, hupra, huprb, Ne.symm hne⟩
    · exact ⟨hrbLt, hraLt, huprb, hupra, hne⟩
  obtain ⟨st1, st2, st3, st4, st5, st6, st7⟩ :=
    drain_union_step s2 hI2 win lose q' hwLt hlLt hupw hupl hlw hrank hq' s4 hs4 s6 hs6
  rw [← hq2] at st3 st4 st5
  have hq2b : ∀ pq ∈ q2, pq.1 < s6.n ∧ pq.2 < s6.n := by
    intro pq hpq
    rw [st2]
    exact st3 pq hpq
  have hΦ6 : q2.length + s6.rootCount * (s6.totalUses + 1) < fuel := by
    rw [hPrc, hPtU] at st5
    omega
  obtain ⟨r1, r2, r3, r4⟩ := ih s6 q2 true st1 hq2b hΦ6
  have hrarb6 : s6.rootOf ra = s6.rootOf rb := by
    rcases hwl with ⟨hw1, hl1⟩ | ⟨hw1, hl1⟩ <;> subst hw1 <;> subst hl1
    · exact st7.symm
    · exact st7
  have ha6 : s6.rootOf a = s6.rootOf ra := by
    apply st6
    rw [rootOf_of_root s2 ra hupra, hProot a, hra]
  have hb6 : s6.rootOf b = s6.rootOf rb := by
    apply st6
    rw [rootOf_of_root s2 rb huprb, hProot b, hrb]
  refine ⟨r1, r2.trans (st2.trans hPn), ?_, ?_⟩
  · intro pq hpq
    rcases List.mem_cons.1 hpq with h | h
    · refine r4 pq.1 pq.2 ?_
      rw [h]
      exact ha6.trans (hrarb6.trans hb6.symm)
    · exact r3 pq (st4 pq h)
  · intro x y hxy
    apply r4
    apply st6
    rw [hProot, hProot]
    exact hxy

theorem mergeDrain_master :
    ∀ (fuel : Nat) (s : EG D) (q : List (Nat × Nat)) (ch : Bool),
      EGInv s →
      (∀ pq ∈ q, pq.1 < s.n ∧ pq.2 < s.n) →
      q.length + s.rootCount * (s.totalUses + 1) < fuel →
      EGInv (mergeDrain fuel s q ch).1 ∧
      (mergeDrain fuel s q ch).1.n = s.n ∧
      (∀ pq ∈ q, (mergeDrain fuel s q ch).1.rootOf pq.1 =
        (mergeDrain fuel s q ch).1.rootOf pq.2) ∧
      (∀ x y, s.rootOf x = s.rootOf y →
        (mergeDrain fuel s q ch).1.rootOf x = (mergeDrain fuel s q ch).1.rootOf y) := by
  intro fuel
  induction fuel with
  | zero => intro s q ch _ _ hΦ; exact absurd hΦ (Nat.not_lt_zero _)
  | succ fuel ih =>
    intro s q ch hI hq hΦ
    rcases q with _ | ⟨⟨a, b⟩, q'⟩
    · exact ⟨hI, rfl, fun pq h => absurd h (List.not_mem_nil pq), fun x y h => h⟩
    · obtain ⟨ha, hb⟩ := hq (a, b) (List.mem_cons_self _ _)
      have hUF := egInv_UF hI
      obtain ⟨hI1, hP1⟩ := rootC_egInv s hI a
      obtain ⟨hI2, hP2⟩ := rootC_egInv (s.rootC a).1 hI1 b
      have hP : PureUp s ((s.rootC a).1.rootC b).1 := pureUp_trans hP1 hP2
      have hraV : (s.rootC a).2 = s.rootOf a := rfl
      have hrbV : ((s.rootC a).1.rootC b).2 = s.rootOf b := hP1.root_eq b
      have hraLt : s.rootOf a < s.n := rootOf_lt s hUF a ha
      have hrbLt : s.rootOf b < s.n := rootOf_lt s hUF b hb
      have hupa : (s.get (s.rootOf a)).up = none := up_rootOf s hUF a ha
      have hupb : (s.get (s.rootOf b)).up = none := up_rootOf s hUF b hb
      have hq' : ∀ pq ∈ q', pq.1 < ((s.rootC a).1.rootC b).1.n ∧
          pq.2 < ((s.rootC a).1.rootC b).1.n := by
        intro pq hpq
        rw [hP.n_eq]
        exact hq pq (List.mem_cons_of_mem _ hpq)
      have hraLt2 : s.rootOf a < ((s.rootC a).1.rootC b).1.n := by
        rw [hP.n_eq]; exact hraLt
      have hrbLt2 : ((s.rootC a).1.rootC b).2 < ((s.rootC a).1.rootC b).1.n := by
        rw [hrbV, hP.n_eq]; exact hrbLt
      have hupa2 : (((s.rootC a).1.rootC b).1.get (s.rootOf a)).up = none :=
        (hP.upNone_iff _).2 hupa
      have hupb2 : (((s.rootC a).1.rootC b).1.get ((s.rootC a).1.rootC b).2).up = none := by
        rw [hrbV]; exact (hP.upNone_iff _).2 hupb
      simp only [List.length_cons] at hΦ
      simp only [mergeDrain]
      split
      · rename_i hrr
        have heq : s.rootOf a = s.rootOf b := by rw [← hraV, ← hrbV]; exact hrr
        have hΦ2 : q'.length + ((s.rootC a).1.rootC b).1.rootCount *
            (((s.rootC a).1.rootC b).1.totalUses + 1) < fuel := by
          rw [hP.rootCount_eq, hP.totalUses_eq]
          omega
        obtain ⟨r1, r2, r3, r4⟩ := ih ((s.rootC a).1.rootC b).1 q' ch hI2 hq' hΦ2
        refine ⟨r1, r2.trans hP.n_eq, ?_, ?_⟩
        · intro pq hpq
          rcases List.mem_cons.1 hpq with h | h
          · exact r4 pq.1 pq.2 (by rw [hP.root_eq, hP.root_eq, h]; exact heq)
          · exact r3 pq h
        · intro x y hxy
          exact r4 x y (by rw [hP.root_eq, hP.root_eq]; exact hxy)
      · rename_i hrr
        have hne : s.rootOf a ≠ s.rootOf b :=
          fun h => hrr (hraV.trans (h.trans hrbV.symm))
        have hne2 : s.rootOf a ≠ ((s.rootC a).1.rootC b).2 := by
          rw [hrbV]; exact hne
        have hΦ' : q'.length + 1 + s.rootCount * (s.totalUses + 1) ≤ fuel := by
          omega
        split
        · rename_i hrank
          rw [hraV] at hrank
          exact drain_union_apply fuel ih hI2 hP.n_eq hP.root_eq hP.rootCount_eq
            hP.totalUses_eq rfl hrbV.symm hraLt2 hrbLt2 hupa2 hupb2 hne2
            (Or.inl ⟨rfl, rfl⟩) (Nat.le_of_lt hrank) hq' hΦ' rfl rfl rfl
        · rename_i hrank
          rw [hraV] at hrank
          exact drain_union_apply fuel ih hI2 hP.n_eq hP.root_eq hP.rootCount_eq
            hP.totalUses_eq rfl hrbV.symm hraLt2 hrbLt2 hupa2 hupb2 hne2
            (Or.inr ⟨rfl, rfl⟩) (Nat.le_of_not_lt hrank) hq' hΦ' rfl rfl rfl

end DrainMaster

section MergeEntry

variable {D : Type} [DecidableEq D] [Inhabited D]

theorem mergeQ_master (s : EG D) (q : List (Nat × Nat)) (hI : EGInv s)
    (hq : ∀ pq ∈ q, pq.1 < s.n ∧ pq.2 < s.n) :
    EGInv (s.mergeQ q).1 ∧ (s.mergeQ q).1.n = s.n ∧
    (∀ pq ∈ q, (s.mergeQ q).1.rootOf pq.1 = (s.mergeQ q).1.rootOf pq.2) ∧
    (∀ x y, s.rootOf x = s.rootOf y →
      (s.mergeQ q).1.rootOf x = (s.mergeQ q).1.rootOf y) :=
  mergeDrain_master (mergeFuel s q) s q false hI hq
    (by unfold mergeFuel; omega)

theorem merge_master (s : EG D) (a b : Nat) (hI : EGInv s)
    (ha : a < s.n) (hb : b < s.n) :
    EGInv (s.merge a b).1 ∧ (s.merge a b).1.n = s.n ∧
    (s.merge a b).1.rootOf a = (s.merge a b).1.rootOf b ∧
    (∀ x y, s.rootOf x = s.rootOf y →
      (s.merge a b).1.rootOf x = (s.merge a b).1.rootOf y) := by
  have hUF := egInv_UF hI
  obtain ⟨hI1, hP1⟩ := rootC_egInv s hI a
  obtain ⟨hI2, hP2⟩ := rootC_egInv (s.rootC a).1 hI1 b
  have hP : PureUp s ((s.rootC a).1.rootC b).1 := pureUp_trans hP1 hP2
  have hraV : (s.rootC a).2 = s.rootOf a := rfl
  have hrbV : ((s.rootC a).1.rootC b).2 = s.rootOf b := hP1.root_eq b
  have hraLt : s.rootOf a < s.n := rootOf_lt s hUF a ha
  have hrbLt : s.rootOf b < s.n := rootOf_lt s hUF b hb
  have hupa : (s.get (s.rootOf a)).up = none := up_rootOf s hUF a ha
  have hupb : (s.get (s.rootOf b)).up = none := up_rootOf s hUF b hb
  have hm : s.merge a b = ((s.rootC a).1.rootC b).1.mergeQ
      (if (s.rootC a).2 = ((s.rootC a).1.rootC b).2 then []
        else [((s.rootC a).2, ((s.rootC a).1.rootC b).2)]) := rfl
  have hroota2 : ((s.rootC a).1.rootC b).1.rootOf a = s.rootOf a := hP.root_eq a
  have hrootb2 : ((s.rootC a).1.rootC b).1.rootOf b = s.rootOf b := hP.root_eq b
  have hrootra : ((s.rootC a).1.rootC b).1.rootOf (s.rootOf a) = s.rootOf a :=
    rootOf_of_root _ _ ((hP.upNone_iff _).2 hupa)
  have hrootrb : ((s.rootC a).1.rootC b).1.rootOf (s.rootOf b) = s.rootOf b :=
    rootOf_of_root _ _ ((hP.upNone_iff _).2 hupb)
  rw [hm]
  by_cases hrr : (s.rootC a).2 = ((s.rootC a).1.rootC b).2
  · rw [if_pos hrr]
    have heq : s.rootOf a = s.rootOf b := by rw [← hraV, ← hrbV]; exact hrr
    obtain ⟨r1, r2, _, r4⟩ := mergeQ_master ((s.rootC a).1.rootC b).1 [] hI2
      (fun pq h => absurd h (List.not_mem_nil pq))
    refine ⟨r1, r2.trans hP.n_eq, ?_, ?_⟩
    · exact r4 a b (by rw [hroota2, hrootb2]; exact heq)
    · intro x y hxy
      exact r4 x y (by rw [hP.root_eq, hP.root_eq]; exact hxy)
  · rw [if_neg hrr]
    have hqb : ∀ pq ∈ [((s.rootC a).2, ((s.rootC a).1.rootC b).2)],
        pq.1 < ((s.rootC a).1.rootC b).1.n ∧ pq.2 < ((s.rootC a).1.rootC b).1.n := by
      intro pq h
      rw [List.mem_singleton] at h
      rw [h, hP.n_eq]
      exact ⟨by rw [hraV]; exact hraLt, by rw [hrbV]; exact hrbLt⟩
    obtain ⟨r1, r2, r3, r4⟩ := mergeQ_master ((s.rootC a).1.rootC b).1
      [((s.rootC a).2, ((s.rootC a).1.rootC b).2)] hI2 hqb
    have hpair := r3 ((s.rootC a).2, ((s.rootC a).1.rootC b).2)
      (List.mem_singleton_self _)
    refine ⟨r1, r2.trans hP.n_eq, ?_, ?_⟩
    · have h1 := r4 a (s.rootOf a) (by rw [hroota2, hrootra])
      have h2 := r4 b (s.rootOf b) (by rw [hrootb2, hrootrb])
      rw [h1, h2, ← hraV, ← hrbV]
      exact hpair
    · intro x y hxy
      exact r4 x y (by rw [hP.root_eq, hP.root_eq]; exact hxy)

end MergeEntry

section ExtractState

variable {D : Type} [DecidableEq D] [Inhabited D]

theorem relaxUses_state (base : D → Nat) :
    ∀ (l : List (Nat × Nat)) (s : EG D) (costs extr q : List (Nat × Nat)),
      EGInv s →
      EGInv (relaxUses base l s costs extr q).1 ∧
      Frame s (relaxUses base l s costs extr q).1 := by
  intro l
  induction l with
  | nil => intro s costs extr q hI; exact ⟨hI, frame_refl s⟩
  | cons pk rest ih =>
    intro s costs extr q hI
    obtain ⟨p, k⟩ := pk
    by_cases hhc : (s.get p).inHC = true
    · have hunf : relaxUses base ((p, k) :: rest) s costs extr q =
          relaxUses base rest (s.rootC p).1
            (relax (s.rootC p).2 (cfn s base costs p) p costs extr q).1
            (relax (s.rootC p).2 (cfn s base costs p) p costs extr q).2.1
            (relax (s.rootC p).2 (cfn s base costs p) p costs extr q).2.2 := by
        show (if (s.get p).inHC = true then _ else _) = _
        rw [if_pos hhc]
      rw [hunf]
      obtain ⟨hI1, hP1⟩ := rootC_egInv s hI p
      obtain ⟨r1, r2⟩ := ih (s.rootC p).1 _ _ _ hI1
      exact ⟨r1, frame_trans (frame_of_pureUp hP1) r2⟩
    · have hunf : relaxUses base ((p, k) :: rest) s costs extr q =
          relaxUses base rest s costs extr q := by
        show (if (s.get p).inHC = true then _ else _) = _
        rw [if_neg hhc]
      rw [hunf]
      exact ih s costs extr q hI

theorem seedLoop_state (base : D → Nat) :
    ∀ (roots : List Nat) (s : EG D) (costs extr q : List (Nat × Nat)),
      EGInv s → (∀ r ∈ roots, r < s.n) →
      EGInv (seedLoop base roots s costs extr q).1 ∧
      Frame s (seedLoop base roots s costs extr q).1 := by
  intro roots
  induction roots with
  | nil => intro s costs extr q hI _; exact ⟨hI, frame_refl s⟩
  | cons r rest ih =>
    intro s costs extr q hI hb
    have hr : r < s.n := hb r (List.mem_cons_self _ _)
    obtain ⟨hI1, hF1, _, _, _⟩ := classIter_spec s hI r hr
    have hunf : seedLoop base (r :: rest) s costs extr q =
        seedLoop base rest (s.classIter r).1
          (seedYs (s.classIter r).1 base r (s.classIter r).2.2 costs extr q).1
          (seedYs (s.classIter r).1 base r (s.classIter r).2.2 costs extr q).2.1
          (seedYs (s.classIter r).1 base r (s.classIter r).2.2 costs extr q).2.2 := rfl
    rw [hunf]
    obtain ⟨r1, r2⟩ := ih (s.classIter r).1 _ _ _ hI1
      (fun x hx => by rw [hF1.n_eq]; exact hb x (List.mem_cons_of_mem _ hx))
    exact ⟨r1, frame_trans hF1 r2⟩

theorem extractLoop_state (base : D → Nat) :
    ∀ (fuel : Nat) (s : EG D) (costs extr q : List (Nat × Nat)),
      EGInv s →
      EGInv (extractLoop base fuel s costs extr q).1 ∧
      Frame s (extractLoop base fuel s costs extr q).1 := by
  intro fuel
  induction fuel with
  | zero => intro s costs extr q hI; exact ⟨hI, frame_refl s⟩
  | succ fuel ih =>
    intro s costs extr q hI
    cases hmq : minItem q with
    | none =>
      simp only [extractLoop, hmq]
      exact ⟨hI, frame_refl s⟩
    | some it =>
      simp only [extractLoop, hmq]
      by_cases hc : alookupD costs it.1 INF = it.2
      · rw [if_pos hc]
        obtain ⟨hI1, hF1⟩ :=
          relaxUses_state base ((s.get it.1).uses) s costs extr (q.erase it) hI
        obtain ⟨r1, r2⟩ := ih _ _ _ _ hI1
        exact ⟨r1, frame_trans hF1 r2⟩
      · rw [if_neg hc]
        exact ih s costs extr (q.erase it) hI

theorem extract_state (s : EG D) (base : D → Nat) (fuel : Nat) (hI : EGInv s) :
    EGInv (s.extract base fuel).1 ∧ Frame s (s.extract base fuel).1 := by
  have hb : ∀ r ∈ s.rootsL, r < s.n := fun r hr => ((hI.rootsIff r).1 hr).1
  obtain ⟨hI1, hF1⟩ := seedLoop_state base s.rootsL s
    (s.rootsL.map fun r => (r, INF)) (s.rootsL.map fun r => (r, r)) [] hI hb
  obtain ⟨r1, r2⟩ := extractLoop_state base fuel
    (seedLoop base s.rootsL s (s.rootsL.map fun r => (r, INF))
      (s.rootsL.map fun r => (r, r)) []).1
    (seedLoop base s.rootsL s (s.rootsL.map fun r => (r, INF))
      (s.rootsL.map fun r => (r, r)) []).2.1
    (seedLoop base s.rootsL s (s.rootsL.map fun r => (r, INF))
      (s.rootsL.map fun r => (r, r)) []).2.2.1
    (seedLoop base s.rootsL s (s.rootsL.map fun r => (r, INF))
      (s.rootsL.map fun r => (r, r)) []).2.2.2 hI1
  exact ⟨r1, frame_trans hF1 r2⟩

theorem egEmpty_inv : EGInv (egEmpty D) := by
  refine ⟨?_, ?_, ?_, ?_, ?_, ?_, ?_, ?_, ?_, ?_, ?_, ?_, ?_, ?_, ?_, ?_, ?_, ?_, ?_⟩ <;>
    first
    | exact Or.inl rfl
    | exact List.nodup_nil
    | (intro i hi; exact absurd hi (by simp [egEmpty, EG.n]))
    | (intro i; simp [egEmpty, EG.n])

theorem reach_inv : ∀ s : EG D, Reach s → EGInv s := by
  intro s h
  induction h with
  | empty => exact egEmpty_inv
  | node s d cs _ hcs ih => exact node_egInv s ih d cs hcs
  | merge s a b _ ha hb ih => exact (merge_master s a b ih ha hb).1
  | mergeQ s q _ hq ih => exact (mergeQ_master s q ih hq).1
  | rootC s i _ _ ih => exact (rootC_egInv s ih i).1
  | classIter s i _ hi ih => exact (classIter_spec s ih i hi).1
  | extract s base fuel _ ih => exact (extract_state s base fuel ih).1

end ExtractState

section ClaimsA

variable {D : Type} [DecidableEq D] [Inhabited D]

/-- C7: Extraction is read-only.  For every reachable e-graph state and
every cost function (and any fuel), running `extract` leaves the node
count, every node's data, children and hashcons membership, the roots
set, the use rings, and the induced equivalence (`rootOf`) unchanged. -/
theorem claim_C7 (s : EG D) (h : Reach s) (base : D → Nat) (fuel : Nat) :
    Frame s (s.extract base fuel).1 :=
  (extract_state s base fuel (reach_inv s h)).2

theorem claim_C7_witness :
    Frame (((egEmpty Nat).node 5 []).1)
      ((((egEmpty Nat).node 5 []).1.extract (fun d => d) 4).1) :=
  claim_C7 (((egEmpty Nat).node 5 []).1)
    (Reach.node (egEmpty Nat) 5 [] Reach.empty
      (fun c hc => absurd hc (List.not_mem_nil c)))
    (fun d => d) 4

/-- C5: Union-find invariant between public operations: up-edges of live
nodes stay in range with strictly increasing rank (hence
`rank(parent) ≥ rank(child)` and acyclicity: no up-chain returns to its
origin), a node is its own root exactly when its up pointer is absent,
and `merge_roots` on two roots `a ≠ b` with `rank a ≤ rank b` links
`a.up = b` and bumps `b`'s rank exactly on a rank tie. -/
theorem claim_C5 (s : EG D) (h : Reach s) :
    (∀ i, i < s.n → ∀ j, (s.get i).up = some j →
      j < s.n ∧ (s.get i).rank < (s.get j).rank) ∧
    (∀ i j, i < s.n → (s.get i).up = some j → ¬ UpReach s j i) ∧
    (∀ i, i < s.n → (s.rootOf i = i ↔ (s.get i).up = none)) ∧
    (∀ a b, a < s.n → b < s.n → (s.get a).up = none → (s.get b).up = none →
      a ≠ b → (s.get a).rank ≤ (s.get b).rank →
      ((s.mergeRootsS a b).get a).up = some b ∧
      ((s.mergeRootsS a b).get b).rank =
        (if (s.get a).rank = (s.get b).rank then (s.get b).rank + 1
          else (s.get b).rank)) := by
  have hI := reach_inv s h
  have hUF := egInv_UF hI
  refine ⟨hUF.2, ?_, ?_, ?_⟩
  · intro i j hi hup hreach
    obtain ⟨hj, hr⟩ := hUF.2 i hi j hup
    have := upReach_rank s hUF j i hreach hj
    omega
  · intro i hi
    constructor
    · intro hroot
      rcases hup : (s.get i).up with _ | j
      · rfl
      · have := rank_lt_rootOf s hUF i j hi hup
        rw [hroot] at this
        omega
    · exact rootOf_of_root s i
  · intro a b ha hb hra hrb hne hrank
    have MF := mergeRootsS_facts s hI a b ha hb hra hrb hne hrank
    exact ⟨MF.up_a, MF.rank_b⟩

theorem claim_C5_witness :
    (∀ i, i < (((egEmpty Nat).node 5 []).1).n → ∀ j,
      ((((egEmpty Nat).node 5 []).1).get i).up = some j →
      j < (((egEmpty Nat).node 5 []).1).n ∧
      ((((egEmpty Nat).node 5 []).1).get i).rank <
        ((((egEmpty Nat).node 5 []).1).get j).rank) ∧
    (∀ i j, i < (((egEmpty Nat).node 5 []).1).n →
      ((((egEmpty Nat).node 5 []).1).get i).up = some j →
      ¬ UpReach (((egEmpty Nat).node 5 []).1) j i) ∧
    (∀ i, i < (((egEmpty Nat).node 5 []).1).n →
      ((((egEmpty Nat).node 5 []).1).rootOf i = i ↔
        ((((egEmpty Nat).node 5 []).1).get i).up = none)) ∧
    (∀ a b, a < (((egEmpty Nat).node 5 []).1).n →
      b < (((egEmpty Nat).node 5 []).1).n →
      ((((egEmpty Nat).node 5 []).1).get a).up = none →
      ((((egEmpty Nat).node 5 []).1).get b).up = none →
      a ≠ b → ((((egEmpty Nat).node 5 []).1).get a).rank ≤
        ((((egEmpty Nat).node 5 []).1).get b).rank →
      (((((egEmpty Nat).node 5 []).1).mergeRootsS a b).get a).up = some b ∧
      (((((egEmpty Nat).node 5 []).1).mergeRootsS a b).get b).rank =
        (if ((((egEmpty Nat).node 5 []).1).get a).rank =
            ((((egEmpty Nat).node 5 []).1).get b).rank
          then ((((egEmpty Nat).node 5 []).1).get b).rank + 1
          else ((((egEmpty Nat).node 5 []).1).get b).rank)) :=
  claim_C5 (((egEmpty Nat).node 5 []).1)
    (Reach.node (egEmpty Nat) 5 [] Reach.empty
      (fun c hc => absurd hc (List.not_mem_nil c)))

/-- C4: Iterating the e-class of a handle `i` yields the root of `i` and
exactly the set of nodes currently in the hashcons whose root equals
`root(i)`, each exactly once; the pattern-filtered iteration yields
exactly the subset of those whose stored data satisfies the predicate. -/
theorem claim_C4 (s : EG D) (h : Reach s) (i : Nat) (hi : i < s.n) (P : D → Bool) :
    (s.classIter i).2.1 = s.rootOf i ∧
    (s.classIter i).2.2.Nodup ∧
    (∀ j, j ∈ (s.classIter i).2.2 ↔
      (j < s.n ∧ (s.get j).inHC = true ∧ s.rootOf j = s.rootOf i)) ∧
    (∀ j, j ∈ (s.classMatch i P).2.2 ↔
      ((j < s.n ∧ (s.get j).inHC = true ∧ s.rootOf j = s.rootOf i) ∧
        P ((s.get j).data) = true)) := by
  have hI := reach_inv s h
  obtain ⟨hI1, hF1, hroot, hnd, hmem⟩ := classIter_spec s hI i hi
  refine ⟨hroot, hnd, hmem, ?_⟩
  intro j
  have hunf : (s.classMatch i P).2.2 =
      (s.classIter i).2.2.filter fun j => P (((s.classIter i).1.get j).data) := rfl
  rw [hunf, List.mem_filter, hmem j, hF1.data_eq j]

theorem claim_C4_witness :
    ((((egEmpty Nat).node 5 []).1).classIter 0).2.1 =
      (((egEmpty Nat).node 5 []).1).rootOf 0 ∧
    ((((egEmpty Nat).node 5 []).1).classIter 0).2.2.Nodup ∧
    (∀ j, j ∈ ((((egEmpty Nat).node 5 []).1).classIter 0).2.2 ↔
      (j < (((egEmpty Nat).node 5 []).1).n ∧
        ((((egEmpty Nat).node 5 []).1).get j).inHC = true ∧
        (((egEmpty Nat).node 5 []).1).rootOf j =
          (((egEmpty Nat).node 5 []).1).rootOf 0)) ∧
    (∀ j, j ∈ ((((egEmpty Nat).node 5 []).1).classMatch 0 (fun d => d == 5)).2.2 ↔
      ((j < (((egEmpty Nat).node 5 []).1).n ∧
        ((((egEmpty Nat).node 5 []).1).get j).inHC = true ∧
        (((egEmpty Nat).node 5 []).1).rootOf j =
          (((egEmpty Nat).node 5 []).1).rootOf 0) ∧
        (((((egEmpty Nat).node 5 []).1).get j).data == 5) = true)) :=
  claim_C4 (((egEmpty Nat).node 5 []).1)
    (Reach.node (egEmpty Nat) 5 [] Reach.empty
      (fun c hc => absurd hc (List.not_mem_nil c)))
    0 (by decide) (fun d => d == 5)

end ClaimsA

section ClaimsB

variable {D : Type} [DecidableEq D] [Inhabited D]

/-- C1: Upward congruence is closed in every reachable state: two live
(hashconsed) nodes with equal data and pointwise root-equal children are
in the same class (in fact, by hashcons uniqueness, they are the same
node); and immediately after `merge(a, b)` both arguments have the same
root. -/
theorem claim_C1 (s : EG D) (h : Reach s) :
    (∀ i j, i < s.n → j < s.n →
      (s.get i).inHC = true → (s.get j).inHC = true →
      (s.get i).data = (s.get j).data →
      (s.get i).children.length = (s.get j).children.length →
      (∀ k, k < (s.get i).children.length →
        s.rootOf ((s.get i).children.getD k 0) =
          s.rootOf ((s.get j).children.getD k 0)) →
      s.rootOf i = s.rootOf j) ∧
    (∀ a b, a < s.n → b < s.n →
      (s.merge a b).1.rootOf a = (s.merge a b).1.rootOf b) := by
  have hI := reach_inv s h
  constructor
  · intro i j hi hj hhi hhj hd hlen hroots
    have hchl : (s.get i).children = (s.get j).children := by
      apply List.ext_getElem hlen
      intro k h1 h2
      have hci : (s.get i).children[k] ∈ (s.get i).children := List.getElem_mem h1
      have hcj : (s.get j).children[k] ∈ (s.get j).children := List.getElem_mem h2
      have hri : (s.get ((s.get i).children[k])).up = none :=
        hI.hcChildRoot i hi hhi _ hci
      have hrj : (s.get ((s.get j).children[k])).up = none :=
        hI.hcChildRoot j hj hhj _ hcj
      have hk := hroots k h1
      rw [List.getD_eq_getElem _ _ h1, List.getD_eq_getElem _ _ h2,
        rootOf_of_root s _ hri, rootOf_of_root s _ hrj] at hk
      exact hk
    rw [hI.hcUnique i hi j hj hhi hhj hd hchl]
  · intro a b ha hb
    exact (merge_master s a b hI ha hb).2.2.1

theorem claim_C1_witness :
    (∀ i j, i < (((egEmpty Nat).node 5 []).1).n →
      j < (((egEmpty Nat).node 5 []).1).n →
      ((((egEmpty Nat).node 5 []).1).get i).inHC = true →
      ((((egEmpty Nat).node 5 []).1).get j).inHC = true →
      ((((egEmpty Nat).node 5 []).1).get i).data =
        ((((egEmpty Nat).node 5 []).1).get j).data →
      ((((egEmpty Nat).node 5 []).1).get i).children.length =
        ((((egEmpty Nat).node 5 []).1).get j).children.length →
      (∀ k, k < ((((egEmpty Nat).node 5 []).1).get i).children.length →
        (((egEmpty Nat).node 5 []).1).rootOf
            (((((egEmpty Nat).node 5 []).1).get i).children.getD k 0) =
          (((egEmpty Nat).node 5 []).1).rootOf
            (((((egEmpty Nat).node 5 []).1).get j).children.getD k 0)) →
      (((egEmpty Nat).node 5 []).1).rootOf i =
        (((egEmpty Nat).node 5 []).1).rootOf j) ∧
    (∀ a b, a < (((egEmpty Nat).node 5 []).1).n →
      b < (((egEmpty Nat).node 5 []).1).n →
      ((((egEmpty Nat).node 5 []).1).merge a b).1.rootOf a =
        ((((egEmpty Nat).node 5 []).1).merge a b).1.rootOf b) :=
  claim_C1 (((egEmpty Nat).node 5 []).1)
    (Reach.node (egEmpty Nat) 5 [] Reach.empty
      (fun c hc => absurd hc (List.not_mem_nil c)))

theorem hcGet_congr (s t : EG D) (hn : t.n = s.n)
    (hd : ∀ j, (t.get j).data = (s.get j).data)
    (hc : ∀ j, (t.get j).children = (s.get j).children)
    (hh : ∀ j, (t.get j).inHC = (s.get j).inHC) (d : D) (cs : List Nat) :
    hcGet t d cs = hcGet s d cs := by
  unfold hcGet
  rw [hn]
  have hp : (fun j => (t.get j).inHC && decide ((t.get j).data = d) &&
      decide ((t.get j).children = cs)) =
      (fun j => (s.get j).inHC && decide ((s.get j).data = d) &&
        decide ((s.get j).children = cs)) := by
    funext j
    rw [hd j, hc j, hh j]
  rw [hp]

theorem hcGet_fresh (s : EG D) (d : D) (cs : List Nat)
    (hmiss : hcGet s d cs = none) (hcs : ∀ c ∈ cs, c < s.n) :
    hcGet (s.node d cs).1 d cs = some s.n := by
  obtain ⟨hid, hn1, hrl, hdata, hch, hrk, hhc, hdn, hus, hdne, hchne, hrkne,
    hhcne, hdnne, hupall, husall⟩ := node_fresh_spec s d cs hmiss hcs
  unfold hcGet
  rw [hn1, List.range_succ, List.find?_append]
  have h1 : (List.range s.n).find? (fun j => ((s.node d cs).1.get j).inHC &&
      decide (((s.node d cs).1.get j).data = d) &&
      decide (((s.node d cs).1.get j).children = cs)) = none := by
    rw [List.find?_eq_none]
    intro j hj
    have hjn : j < s.n := List.mem_range.1 hj
    have hne : j ≠ s.n := by omega
    rw [hdne j hne, hchne j hne, hhcne j hne]
    have hnom := (hcGet_none_iff s d cs).1 hmiss j hjn
    intro hcon
    simp only [Bool.and_eq_true, decide_eq_true_eq] at hcon
    exact hnom ⟨hcon.1.1, hcon.1.2, hcon.2⟩
  rw [h1]
  simp [List.find?, hdata, hch, hhc]

theorem node_hit (t : EG D) (d : D) (cs : List Nat) (m : Nat)
    (h : hcGet t d cs = some m) : t.node d cs = t.rootC m := by
  unfold EG.node
  rw [h]

/-- C3: Node construction is idempotent under hash-consing: constructing
`(d, cs)` twice in succession (children being current roots) yields
handles with the same root in the final state; and when the hashcons
already holds a match `m`, the returned handle is `root(m)`. -/
theorem claim_C3 (s : EG D) (h : Reach s) (d : D) (cs : List Nat)
    (hcs : ∀ c ∈ cs, c < s.n ∧ (s.get c).up = none) :
    ((s.node d cs).1.node d cs).1.rootOf ((s.node d cs).1.node d cs).2 =
      ((s.node d cs).1.node d cs).1.rootOf (s.node d cs).2 ∧
    (∀ m, hcGet s d cs = some m → (s.node d cs).2 = s.rootOf m) := by
  have hI := reach_inv s h
  constructor
  · rcases hhit : hcGet s d cs with _ | m
    · have hcslt : ∀ c ∈ cs, c < s.n := fun c hc => (hcs c hc).1
      obtain ⟨hid, hn1, _⟩ := node_fresh_spec s d cs hhit hcslt
      have hfresh := hcGet_fresh s d cs hhit hcslt
      have hsecond : (s.node d cs).1.node d cs = (s.node d cs).1.rootC s.n :=
        node_hit _ d cs s.n hfresh
      rw [hsecond, hid]
      have hIt : EGInv (s.node d cs).1 := node_egInv s hI d cs hcs
      obtain ⟨hI2, hP2⟩ := rootC_egInv (s.node d cs).1 hIt s.n
      rw [hP2.root_eq, hP2.root_eq]
      show (s.node d cs).1.rootOf ((s.node d cs).1.rootOf s.n) =
        (s.node d cs).1.rootOf s.n
      exact rootOf_idem _ (egInv_UF hIt) s.n (by rw [hn1]; omega)
    · have hfirst : s.node d cs = s.rootC m := node_hit s d cs m hhit
      rw [hfirst]
      obtain ⟨hI1, hP1⟩ := rootC_egInv s hI m
      have hsame : hcGet (s.rootC m).1 d cs = some m := by
        rw [hcGet_congr s (s.rootC m).1 hP1.n_eq hP1.data_eq hP1.children_eq
          hP1.inHC_eq d cs]
        exact hhit
      have hsecond : (s.rootC m).1.node d cs = (s.rootC m).1.rootC m :=
        node_hit _ d cs m hsame
      rw [hsecond]
      obtain ⟨hI2, hP2⟩ := rootC_egInv (s.rootC m).1 hI1 m
      rw [hP2.root_eq, hP2.root_eq]
      show (s.rootC m).1.rootOf ((s.rootC m).1.rootOf m) =
        (s.rootC m).1.rootOf (s.rootOf m)
      rw [hP1.root_eq m]
  · intro m hm
    rw [node_hit s d cs m hm]
    rfl

theorem claim_C3_witness :
    (((egEmpty Nat).node 7 []).1.node 7 []).1.rootOf
        (((egEmpty Nat).node 7 []).1.node 7 []).2 =
      (((egEmpty Nat).node 7 []).1.node 7 []).1.rootOf
        ((egEmpty Nat).node 7 []).2 ∧
    (∀ m, hcGet (egEmpty Nat) 7 [] = some m →
      ((egEmpty Nat).node 7 []).2 = (egEmpty Nat).rootOf m) :=
  claim_C3 (egEmpty Nat) Reach.empty 7 []
    (fun c hc => absurd hc (List.not_mem_nil c))

end ClaimsB

section MapsInv

variable {D : Type} [DecidableEq D] [Inhabited D]

theorem alookup_some_mem (m : List (Nat × Nat)) (x v : Nat)
    (h : alookup m x = some v) : x ∈ m.map Prod.fst := by
  induction m with
  | nil => cases h
  | cons kv rest ih =>
    obtain ⟨k, w⟩ := kv
    by_cases hk : k = x
    · subst hk
      exact List.mem_cons_self _ _
    · have : alookup rest x = some v := by
        have hunf : alookup ((k, w) :: rest) x = alookup rest x := by
          show (if k = x then some w else alookup rest x) = _
          rw [if_neg hk]
        rw [hunf] at h
        exact h
      exact List.mem_cons_of_mem _ (ih this)

theorem aupdate_keys (m : List (Nat × Nat)) (x v : Nat) :
    (aupdate m x v).map Prod.fst = m.map Prod.fst := by
  induction m with
  | nil => rfl
  | cons kv rest ih =>
    obtain ⟨k, w⟩ := kv
    show (if k = x then (k, v) :: rest else (k, w) :: aupdate rest x v).map
      Prod.fst = _
    by_cases hk : k = x
    · rw [if_pos hk]
      simp
    · rw [if_neg hk]
      simp only [List.map_cons, ih]

theorem alookup_aupdate_self (m : List (Nat × Nat)) (x v : Nat)
    (h : x ∈ m.map Prod.fst) : alookup (aupdate m x v) x = some v := by
  induction m with
  | nil => cases h
  | cons kv rest ih =>
    obtain ⟨k, w⟩ := kv
    show alookup (if k = x then (k, v) :: rest else (k, w) :: aupdate rest x v)
      x = some v
    by_cases hk : k = x
    · rw [if_pos hk]
      show (if k = x then some v else _) = some v
      rw [if_pos hk]
    · rw [if_neg hk]
      show (if k = x then some w else alookup (aupdate rest x v) x) = some v
      rw [if_neg hk]
      apply ih
      rcases List.mem_cons.1 h with h1 | h1
      · exact absurd h1.symm hk
      · exact h1

theorem alookup_aupdate_ne (m : List (Nat × Nat)) (x v y : Nat) (h : y ≠ x) :
    alookup (aupdate m x v) y = alookup m y := by
  induction m with
  | nil => rfl
  | cons kv rest ih =>
    obtain ⟨k, w⟩ := kv
    show alookup (if k = x then (k, v) :: rest else (k, w) :: aupdate rest x v)
      y = _
    by_cases hk : k = x
    · rw [if_pos hk]
      show (if k = y then some v else alookup rest y) =
        (if k = y then some w else alookup rest y)
      rw [if_neg (by rw [hk]; exact fun hc => h hc.symm)]
      rw [if_neg (by rw [hk]; exact fun hc => h hc.symm)]
    · rw [if_neg hk]
      show (if k = y then some w else alookup (aupdate rest x v) y) =
        (if k = y then some w else alookup rest y)
      by_cases hky : k = y
      · rw [if_pos hky, if_pos hky]
      · rw [if_neg hky, if_neg hky, ih]

theorem alookup_init_const (l : List Nat) (c x : Nat) :
    alookup (l.map fun r => (r, c)) x = if x ∈ l then some c else none := by
  induction l with
  | nil => rfl
  | cons r rest ih =>
    show (if r = x then some c else alookup (rest.map fun r => (r, c)) x) = _
    by_cases hr : r = x
    · rw [if_pos hr, if_pos (by rw [hr]; exact List.mem_cons_self _ _)]
    · rw [if_neg hr, ih]
      by_cases hm : x ∈ rest
      · rw [if_pos hm, if_pos (List.mem_cons_of_mem _ hm)]
      · rw [if_neg hm, if_neg (by
          intro hc
          rcases List.mem_cons.1 hc with h1 | h1
          · exact hr h1.symm
          · exact hm h1)]

theorem alookup_init_id (l : List Nat) (x : Nat) :
    alookup (l.map fun r => (r, r)) x = if x ∈ l then some x else none := by
  induction l with
  | nil => rfl
  | cons r rest ih =>
    show (if r = x then some r else alookup (rest.map fun r => (r, r)) x) = _
    by_cases hr : r = x
    · rw [if_pos hr, if_pos (by rw [hr]; exact List.mem_cons_self _ _), hr]
    · rw [if_neg hr, ih]
      by_cases hm : x ∈ rest
      · rw [if_pos hm, if_pos (List.mem_cons_of_mem _ hm)]
      · rw [if_neg hm, if_neg (by
          intro hc
          rcases List.mem_cons.1 hc with h1 | h1
          · exact hr h1.symm
          · exact hm h1)]

theorem init_keys_const (l : List Nat) (c : Nat) :
    ((l.map fun r => (r, c)).map Prod.fst) = l := by
  rw [List.map_map]
  exact List.map_id l

theorem init_keys_id (l : List Nat) :
    ((l.map fun r => (r, r)).map Prod.fst) = l := by
  rw [List.map_map]
  exact List.map_id l

theorem relax_minv (s0 : EG D) (costs extr q : List (Nat × Nat))
    (r cand nd : Nat) (hM : MInv s0 costs extr) (hr : s0.rootOf nd = r)
    (hrk : r ∈ s0.rootsL) :
    MInv s0 (relax r cand nd costs extr q).1 (relax r cand nd costs extr q).2.1 := by
  obtain ⟨hk1, hk2, hv, hinf, hrep⟩ := hM
  by_cases hlt : cand < alookupD costs r INF
  · have hunf : relax r cand nd costs extr q =
        (aupdate costs r cand, aupdate extr r nd, q ++ [(r, cand)]) := by
      unfold relax
      rw [if_pos hlt]
    rw [hunf]
    have hrkc : r ∈ costs.map Prod.fst := by rw [hk1]; exact hrk
    have hrke : r ∈ extr.map Prod.fst := by rw [hk2]; exact hrk
    have hcand : cand < INF := by
      unfold alookupD at hlt
      rcases hlo : alookup costs r with _ | v
      · rw [hlo] at hlt
        exact hlt
      · rw [hlo] at hlt
        simp only [Option.getD_some] at hlt
        have := hv r v hlo
        omega
    refine ⟨by rw [aupdate_keys]; exact hk1, by rw [aupdate_keys]; exact hk2,
      ?_, ?_, ?_⟩
    · intro r' v hl
      by_cases hr' : r' = r
      · subst hr'
        rw [alookup_aupdate_self costs r' cand hrkc] at hl
        cases hl
        omega
      · rw [alookup_aupdate_ne costs r cand r' hr'] at hl
        exact hv r' v hl
    · intro r' hmem hl
      by_cases hr' : r' = r
      · subst hr'
        unfold alookupD at hl
        rw [alookup_aupdate_self costs r' cand hrkc] at hl
        simp only [Option.getD_some] at hl
        omega
      · unfold alookupD at hl
        rw [alookup_aupdate_ne costs r cand r' hr'] at hl
        rw [alookup_aupdate_ne extr r nd r' hr']
        exact hinf r' hmem hl
    · intro r' nd' hl
      by_cases hr' : r' = r
      · subst hr'
        rw [alookup_aupdate_self extr r' nd hrke] at hl
        cases hl
        exact hr
      · rw [alookup_aupdate_ne extr r nd r' hr'] at hl
        exact hrep r' nd' hl
  · have hunf : relax r cand nd costs extr q = (costs, extr, q) := by
      unfold relax
      rw [if_neg hlt]
    rw [hunf]
    exact ⟨hk1, hk2, hv, hinf, hrep⟩

end MapsInv

section MapsInv2

variable {D : Type} [DecidableEq D] [Inhabited D]

theorem seedYs_minv (s0 s : EG D) (base : D → Nat) (r : Nat) :
    ∀ (ys : List Nat) (costs extr q : List (Nat × Nat)),
      MInv s0 costs extr → (∀ j ∈ ys, s0.rootOf j = r) → r ∈ s0.rootsL →
      MInv s0 (seedYs s base r ys costs extr q).1
        (seedYs s base r ys costs extr q).2.1 := by
  intro ys
  induction ys with
  | nil => intro costs extr q hM _ _; exact hM
  | cons j js ih =>
    intro costs extr q hM hys hrk
    by_cases hle : (s.get j).children.length = 0
    · have hunf : seedYs s base r (j :: js) costs extr q =
          seedYs s base r js
            (relax r (cfn s base costs j) j costs extr q).1
            (relax r (cfn s base costs j) j costs extr q).2.1
            (relax r (cfn s base costs j) j costs extr q).2.2 := by
        show (if (s.get j).children.length = 0 then _ else _) = _
        rw [if_pos hle]
      rw [hunf]
      exact ih _ _ _ (relax_minv s0 costs extr q r (cfn s base costs j) j hM
        (hys j (List.mem_cons_self _ _)) hrk)
        (fun x hx => hys x (List.mem_cons_of_mem _ hx)) hrk
    · have hunf : seedYs s base r (j :: js) costs extr q =
          seedYs s base r js costs extr q := by
        show (if (s.get j).children.length = 0 then _ else _) = _
        rw [if_neg hle]
      rw [hunf]
      exact ih _ _ _ hM (fun x hx => hys x (List.mem_cons_of_mem _ hx)) hrk

theorem seedLoop_minv (s0 : EG D) (hI0 : EGInv s0) (base : D → Nat) :
    ∀ (roots : List Nat) (s : EG D) (costs extr q : List (Nat × Nat)),
      EGInv s → Frame s0 s → MInv s0 costs extr →
      (∀ r ∈ roots, r ∈ s0.rootsL) →
      MInv s0 (seedLoop base roots s costs extr q).2.1
        (seedLoop base roots s costs extr q).2.2.1 := by
  intro roots
  induction roots with
  | nil => intro s costs extr q _ _ hM _; exact hM
  | cons r rest ih =>
    intro s costs extr q hI hF hM hroots
    have hrk : r ∈ s0.rootsL := hroots r (List.mem_cons_self _ _)
    obtain ⟨hr0, hup0⟩ := (hI0.rootsIff r).1 hrk
    have hr : r < s.n := by rw [hF.n_eq]; exact hr0
    obtain ⟨hI1, hF1, hroot1, hnd1, hmem1⟩ := classIter_spec s hI r hr
    have hys : ∀ j ∈ (s.classIter r).2.2, s0.rootOf j = r := by
      intro j hj
      obtain ⟨hjn, hjc, hjr⟩ := (hmem1 j).1 hj
      rw [← hF.root_eq j, hjr, hF.root_eq r]
      exact rootOf_of_root s0 r hup0
    have hunf : seedLoop base (r :: rest) s costs extr q =
        seedLoop base rest (s.classIter r).1
          (seedYs (s.classIter r).1 base r (s.classIter r).2.2 costs extr q).1
          (seedYs (s.classIter r).1 base r (s.classIter r).2.2 costs extr q).2.1
          (seedYs (s.classIter r).1 base r (s.classIter r).2.2 costs extr q).2.2 := rfl
    rw [hunf]
    exact ih (s.classIter r).1 _ _ _ hI1 (frame_trans hF hF1)
      (seedYs_minv s0 (s.classIter r).1 base r (s.classIter r).2.2 costs extr q
        hM hys hrk)
      (fun x hx => hroots x (List.mem_cons_of_mem _ hx))

theorem relaxUses_minv (s0 : EG D) (hI0 : EGInv s0) (base : D → Nat) :
    ∀ (l : List (Nat × Nat)) (s : EG D) (costs extr q : List (Nat × Nat)),
      EGInv s → Frame s0 s → MInv s0 costs extr →
      (∀ pk ∈ l, pk.1 < s.n) →
      MInv s0 (relaxUses base l s costs extr q).2.1
        (relaxUses base l s costs extr q).2.2.1 := by
  intro l
  induction l with
  | nil => intro s costs extr q _ _ hM _; exact hM
  | cons pk rest ih =>
    intro s costs extr q hI hF hM hb
    obtain ⟨p, k⟩ := pk
    have hp : p < s.n := hb (p, k) (List.mem_cons_self _ _)
    by_cases hhc : (s.get p).inHC = true
    · have hunf : relaxUses base ((p, k) :: rest) s costs extr q =
          relaxUses base rest (s.rootC p).1
            (relax (s.rootC p).2 (cfn s base costs p) p costs extr q).1
            (relax (s.rootC p).2 (cfn s base costs p) p costs extr q).2.1
            (relax (s.rootC p).2 (cfn s base costs p) p costs extr q).2.2 := by
        show (if (s.get p).inHC = true then _ else _) = _
        rw [if_pos hhc]
      rw [hunf]
      obtain ⟨hI1, hP1⟩ := rootC_egInv s hI p
      have hUFs := egInv_UF hI
      have hUF0 := egInv_UF hI0
      have hr : s0.rootOf p = (s.rootC p).2 := (hF.root_eq p).symm
      have hp0 : p < s0.n := by rw [← hF.n_eq]; exact hp
      have hrk0 : s0.rootOf p ∈ s0.rootsL := (hI0.rootsIff _).2
        ⟨rootOf_lt s0 hUF0 p hp0, up_rootOf s0 hUF0 p hp0⟩
      have hrk : (s.rootC p).2 ∈ s0.rootsL := by rw [← hr]; exact hrk0
      exact ih (s.rootC p).1 _ _ _ hI1 (frame_trans hF (frame_of_pureUp hP1))
        (relax_minv s0 costs extr q (s.rootC p).2 (cfn s base costs p) p hM hr hrk)
        (fun x hx => by rw [hP1.n_eq]; exact hb x (List.mem_cons_of_mem _ hx))
    · have hunf : relaxUses base ((p, k) :: rest) s costs extr q =
          relaxUses base rest s costs extr q := by
        show (if (s.get p).inHC = true then _ else _) = _
        rw [if_neg hhc]
      rw [hunf]
      exact ih s _ _ _ hI hF hM (fun x hx => hb x (List.mem_cons_of_mem _ hx))

theorem extractLoop_minv (s0 : EG D) (hI0 : EGInv s0) (base : D → Nat) :
    ∀ (fuel : Nat) (s : EG D) (costs extr q : List (Nat × Nat)),
      EGInv s → Frame s0 s → MInv s0 costs extr →
      MInv s0 (extractLoop base fuel s costs extr q).2.1
        (extractLoop base fuel s costs extr q).2.2.1 := by
  intro fuel
  induction fuel with
  | zero => intro s costs extr q _ _ hM; exact hM
  | succ fuel ih =>
    intro s costs extr q hI hF hM
    cases hmq : minItem q with
    | none =>
      simp only [extractLoop, hmq]
      exact hM
    | some it =>
      simp only [extractLoop, hmq]
      by_cases hc : alookupD costs it.1 INF = it.2
      · rw [if_pos hc]
        have hbnd : ∀ pk ∈ (s.get it.1).uses, pk.1 < s.n := by
          by_cases hin : it.1 < s.n
          · intro pk hpk
            exact (hI.usesWF it.1 hin pk hpk).1
          · intro pk hpk
            rw [EG.get_out s it.1 (by omega)] at hpk
            exact absurd hpk (List.not_mem_nil pk)
        obtain ⟨hI1, hF1⟩ :=
          relaxUses_state base ((s.get it.1).uses) s costs extr (q.erase it) hI
        have hM1 := relaxUses_minv s0 hI0 base ((s.get it.1).uses) s costs extr
          (q.erase it) hI hF hM hbnd
        exact ih _ _ _ _ hI1 (frame_trans hF hF1) hM1
      · rw [if_neg hc]
        exact ih s costs extr (q.erase it) hI hF hM

/-- C10: The `extracted` map returned by `extract` has exactly the
current roots as keys; every recorded representative belongs to its
key's class (`root(representative) = r`); and a class whose cost stayed
at `inf` (no member could be grounded within the fuel) keeps its
initialization: the representative of `r` is `r` itself. -/
theorem claim_C10 (s : EG D) (h : Reach s) (base : D → Nat) (fuel : Nat) :
    (s.extract base fuel).2.2.1.map Prod.fst = s.rootsL ∧
    (∀ r nd, alookup (s.extract base fuel).2.2.1 r = some nd →
      s.rootOf nd = r) ∧
    (∀ r, r ∈ s.rootsL → alookupD (s.extract base fuel).2.1 r INF = INF →
      alookup (s.extract base fuel).2.2.1 r = some r) := by
  have hI := reach_inv s h
  have hM0 : MInv s (s.rootsL.map fun r => (r, INF))
      (s.rootsL.map fun r => (r, r)) := by
    refine ⟨init_keys_const s.rootsL INF, init_keys_id s.rootsL, ?_, ?_, ?_⟩
    · intro r v hl
      rw [alookup_init_const] at hl
      split at hl
      · cases hl
        exact le_refl INF
      · cases hl
    · intro r hmem _
      rw [alookup_init_id, if_pos hmem]
    · intro r nd hl
      rw [alookup_init_id] at hl
      split at hl
      · rename_i hmem
        cases hl
        exact rootOf_of_root s r ((hI.rootsIff r).1 hmem).2
      · cases hl
  have hMsd := seedLoop_minv s hI base s.rootsL s
    (s.rootsL.map fun r => (r, INF)) (s.rootsL.map fun r => (r, r)) []
    hI (frame_refl s) hM0 (fun r hr => hr)
  obtain ⟨hIsd, hFsd⟩ := seedLoop_state base s.rootsL s
    (s.rootsL.map fun r => (r, INF)) (s.rootsL.map fun r => (r, r)) []
    hI (fun r hr => ((hI.rootsIff r).1 hr).1)
  obtain ⟨hk1, hk2, hv, hinf, hrep⟩ :=
    extractLoop_minv s hI base fuel _ _ _ _ hIsd hFsd hMsd
  exact ⟨hk2, hrep, hinf⟩

theorem claim_C10_witness :
    ((((egEmpty Nat).node 5 []).1.extract (fun d => d) 3).2.2.1.map Prod.fst =
      (((egEmpty Nat).node 5 []).1).rootsL) ∧
    (∀ r nd, alookup ((((egEmpty Nat).node 5 []).1.extract (fun d => d) 3).2.2.1)
        r = some nd → (((egEmpty Nat).node 5 []).1).rootOf nd = r) ∧
    (∀ r, r ∈ (((egEmpty Nat).node 5 []).1).rootsL →
      alookupD ((((egEmpty Nat).node 5 []).1.extract (fun d => d) 3).2.1) r INF =
        INF →
      alookup ((((egEmpty Nat).node 5 []).1.extract (fun d => d) 3).2.2.1) r =
        some r) :=
  claim_C10 (((egEmpty Nat).node 5 []).1)
    (Reach.node (egEmpty Nat) 5 [] Reach.empty
      (fun c hc => absurd hc (List.not_mem_nil c)))
    (fun d => d) 3

end MapsInv2

section CostLemmas

variable {D : Type} [DecidableEq D] [Inhabited D]

theorem cadd_mono {a a' b b' : Nat} (ha : a ≤ a') (hb : b ≤ b') :
    cadd a b ≤ cadd a' b' := by
  unfold cadd INF
  by_cases h1 : a + b < 2 ^ 64
  · by_cases h2 : a' + b' < 2 ^ 64
    · rw [if_pos h1, if_pos h2]
      omega
    · rw [if_pos h1, if_neg h2]
      omega
  · rw [if_neg h1, if_neg (by omega)]

theorem cadd_INF_right (a : Nat) : cadd a INF = INF := by
  unfold cadd INF
  by_cases h : a + (2 ^ 64 - 1) < 2 ^ 64
  · rw [if_pos h]
    omega
  · rw [if_neg h]

theorem cadd_INF_left (b : Nat) : cadd INF b = INF := by
  unfold cadd INF
  by_cases h : 2 ^ 64 - 1 + b < 2 ^ 64
  · rw [if_pos h]
    omega
  · rw [if_neg h]

theorem foldl_cadd_from_INF (g : Nat → Nat) :
    ∀ cs : List Nat, List.foldl (fun a c => cadd a (g c)) INF cs = INF := by
  intro cs
  induction cs with
  | nil => rfl
  | cons c rest ih =>
    show List.foldl _ (cadd INF (g c)) rest = INF
    rw [cadd_INF_left]
    exact ih

theorem foldl_cadd_congr (g g' : Nat → Nat) :
    ∀ (cs : List Nat) (acc : Nat), (∀ c ∈ cs, g c = g' c) →
      List.foldl (fun a c => cadd a (g c)) acc cs =
        List.foldl (fun a c => cadd a (g' c)) acc cs := by
  intro cs
  induction cs with
  | nil => intro acc _; rfl
  | cons c rest ih =>
    intro acc hg
    show List.foldl _ (cadd acc (g c)) rest = List.foldl _ (cadd acc (g' c)) rest
    rw [hg c (List.mem_cons_self _ _)]
    exact ih _ (fun x hx => hg x (List.mem_cons_of_mem _ hx))

theorem foldl_cadd_lt_INF (g : Nat → Nat) :
    ∀ (cs : List Nat) (acc : Nat), (∀ c ∈ cs, g c ≤ INF) →
      List.foldl (fun a c => cadd a (g c)) acc cs < INF →
      ∀ c ∈ cs, g c < INF := by
  intro cs
  induction cs with
  | nil => intro acc _ _ c hc; exact absurd hc (List.not_mem_nil c)
  | cons c rest ih =>
    intro acc hb hlt x hx
    have hstep : List.foldl (fun a c => cadd a (g c)) (cadd acc (g c)) rest <
        INF := hlt
    have hcfin : g c < INF := by
      rcases Nat.lt_or_ge (g c) INF with h | h
      · exact h
      · have hgc : g c = INF := le_antisymm (hb c (List.mem_cons_self _ _)) h
        rw [hgc, cadd_INF_right] at hstep
        rw [foldl_cadd_from_INF] at hstep
        omega
    rcases List.mem_cons.1 hx with h | h
    · rw [h]
      exact hcfin
    · exact ih _ (fun y hy => hb y (List.mem_cons_of_mem _ hy)) hstep x h

theorem foldl_cadd_all_INF (g : Nat → Nat) :
    ∀ (cs : List Nat) (acc : Nat), cs ≠ [] → (∀ c ∈ cs, g c = INF) →
      List.foldl (fun a c => cadd a (g c)) acc cs = INF := by
  intro cs
  cases cs with
  | nil => intro acc h _; exact absurd rfl h
  | cons c rest =>
    intro acc _ hall
    show List.foldl _ (cadd acc (g c)) rest = INF
    rw [hall c (List.mem_cons_self _ _), cadd_INF_right]
    exact foldl_cadd_from_INF g rest

theorem cfn_frame (s0 s : EG D) (hF : Frame s0 s) (base : D → Nat)
    (costs : List (Nat × Nat)) (p : Nat) :
    cfn s base costs p = cfn s0 base costs p := by
  unfold cfn
  rw [hF.children_eq p, hF.data_eq p]

theorem alookupD_aupdate_self (m : List (Nat × Nat)) (x v d : Nat)
    (h : x ∈ m.map Prod.fst) : alookupD (aupdate m x v) x d = v := by
  unfold alookupD
  rw [alookup_aupdate_self m x v h]
  rfl

theorem alookupD_aupdate_ne (m : List (Nat × Nat)) (x v y d : Nat)
    (h : y ≠ x) : alookupD (aupdate m x v) y d = alookupD m y d := by
  unfold alookupD
  rw [alookup_aupdate_ne m x v y h]

theorem alookupD_le_INF (costs : List (Nat × Nat)) (r : Nat)
    (hv : ∀ r v, alookup costs r = some v → v ≤ INF) :
    alookupD costs r INF ≤ INF := by
  unfold alookupD
  rcases h : alookup costs r with _ | v
  · exact le_refl INF
  · exact hv r v h

end CostLemmas

section RelaxCore

variable {D : Type} [DecidableEq D] [Inhabited D]

theorem cfn_aupdate_ne (s0 : EG D) (base : D → Nat) (costs : List (Nat × Nat))
    (r cand p : Nat) (hch : r ∉ (s0.get p).children) :
    cfn s0 base (aupdate costs r cand) p = cfn s0 base costs p := by
  unfold cfn
  exact foldl_cadd_congr _ _ (s0.get p).children _
    (fun c hc => alookupD_aupdate_ne costs r cand c INF
      (fun hcr => hch (hcr ▸ hc)))

theorem relax_stab_pres (s0 : EG D) (base : D → Nat)
    (costs extr q : List (Nat × Nat)) (r cand nd : Nat)
    (hkeys : costs.map Prod.fst = s0.rootsL) (hrk : r ∈ s0.rootsL)
    (p : Nat) (hst : stabP s0 base costs q p) :
    stabP s0 base (relax r cand nd costs extr q).1
      (relax r cand nd costs extr q).2.2 p := by
  have hrkc : r ∈ costs.map Prod.fst := by rw [hkeys]; exact hrk
  by_cases hfire : cand < alookupD costs r INF
  · have hunf : relax r cand nd costs extr q =
        (aupdate costs r cand, aupdate extr r nd, q ++ [(r, cand)]) := by
      unfold relax
      rw [if_pos hfire]
    rw [hunf]
    by_cases hch : r ∈ (s0.get p).children
    · right
      refine ⟨r, hch, ?_⟩
      rw [alookupD_aupdate_self costs r cand INF hrkc]
      exact List.mem_append_right _ (List.mem_singleton_self _)
    · rcases hst with hcost | ⟨c, hc, hmemq⟩
      · left
        rw [cfn_aupdate_ne s0 base costs r cand p hch]
        by_cases hrp : s0.rootOf p = r
        · rw [hrp] at hcost
          rw [hrp, alookupD_aupdate_self costs r cand INF hrkc]
          omega
        · rw [alookupD_aupdate_ne costs r cand _ INF hrp]
          exact hcost
      · right
        have hcr : c ≠ r := fun he => hch (he ▸ hc)
        refine ⟨c, hc, ?_⟩
        rw [alookupD_aupdate_ne costs r cand c INF hcr]
        exact List.mem_append_left _ hmemq
  · have hunf : relax r cand nd costs extr q = (costs, extr, q) := by
      unfold relax
      rw [if_neg hfire]
    rw [hunf]
    exact hst

theorem relax_stab_self (s0 : EG D) (base : D → Nat)
    (costs extr q : List (Nat × Nat)) (r cand nd : Nat)
    (hkeys : costs.map Prod.fst = s0.rootsL) (hrk : r ∈ s0.rootsL)
    (hr : s0.rootOf nd = r) (hcand : cand = cfn s0 base costs nd) :
    stabP s0 base (relax r cand nd costs extr q).1
      (relax r cand nd costs extr q).2.2 nd := by
  have hrkc : r ∈ costs.map Prod.fst := by rw [hkeys]; exact hrk
  by_cases hfire : cand < alookupD costs r INF
  · have hunf : relax r cand nd costs extr q =
        (aupdate costs r cand, aupdate extr r nd, q ++ [(r, cand)]) := by
      unfold relax
      rw [if_pos hfire]
    rw [hunf]
    by_cases hch : r ∈ (s0.get nd).children
    · right
      refine ⟨r, hch, ?_⟩
      rw [alookupD_aupdate_self costs r cand INF hrkc]
      exact List.mem_append_right _ (List.mem_singleton_self _)
    · left
      rw [cfn_aupdate_ne s0 base costs r cand nd hch, hr,
        alookupD_aupdate_self costs r cand INF hrkc]
      exact le_of_eq hcand
  · have hunf : relax r cand nd costs extr q = (costs, extr, q) := by
      unfold relax
      rw [if_neg hfire]
    rw [hunf]
    left
    rw [hr]
    rw [hcand] at hfire
    exact Nat.le_of_not_lt hfire

theorem build_subs (s0 : EG D) (base : D → Nat) (costs extr : List (Nat × Nat))
    (hC : CInvP s0 base costs extr) :
    ∀ cs : List Nat, (∀ c ∈ cs, s0.rootOf c = c) →
      (∀ c ∈ cs, alookupD costs c INF < INF) →
      ∃ ts, ValidSubs s0 cs ts ∧ ∀ acc, costL s0 base acc ts =
        List.foldl (fun a c => cadd a (alookupD costs c INF)) acc cs := by
  intro cs
  induction cs with
  | nil => intro _ _; exact ⟨.nil, ValidSubs.nil, fun acc => rfl⟩
  | cons c rest ih =>
    intro hroots hfin
    obtain ⟨nd, t, hnd, hvt, hhd, hcost⟩ :=
      hC c (hfin c (List.mem_cons_self _ _))
    obtain ⟨ts, hvs, hfold⟩ := ih (fun x hx => hroots x (List.mem_cons_of_mem _ hx))
      (fun x hx => hfin x (List.mem_cons_of_mem _ hx))
    refine ⟨.cons t ts, ?_, ?_⟩
    · exact ValidSubs.cons c rest t ts
        (by rw [hroots c (List.mem_cons_self _ _)]; exact hvt) hvs
    · intro acc
      show costL s0 base (cadd acc (costT s0 base t)) ts = _
      rw [hcost, hfold]
      rfl

theorem relax_cinv (s0 : EG D) (base : D → Nat)
    (costs extr q : List (Nat × Nat)) (r cand nd : Nat)
    (hM : MInv s0 costs extr) (hrk : r ∈ s0.rootsL)
    (hr : s0.rootOf nd = r) (hcand : cand = cfn s0 base costs nd)
    (hnd : nd < s0.n) (hlive : (s0.get nd).inHC = true)
    (hchroots : ∀ c ∈ (s0.get nd).children, s0.rootOf c = c)
    (hC : CInvP s0 base costs extr) :
    CInvP s0 base (relax r cand nd costs extr q).1
      (relax r cand nd costs extr q).2.1 := by
  obtain ⟨hk1, hk2, hv, _, _⟩ := hM
  have hrkc : r ∈ costs.map Prod.fst := by rw [hk1]; exact hrk
  have hrke : r ∈ extr.map Prod.fst := by rw [hk2]; exact hrk
  by_cases hfire : cand < alookupD costs r INF
  · have hunf : relax r cand nd costs extr q =
        (aupdate costs r cand, aupdate extr r nd, q ++ [(r, cand)]) := by
      unfold relax
      rw [if_pos hfire]
    rw [hunf]
    intro r' hlt
    by_cases hr' : r' = r
    · subst hr'
      rw [alookupD_aupdate_self costs r' cand INF hrkc] at hlt ⊢
      have hfin : ∀ c ∈ (s0.get nd).children, alookupD costs c INF < INF := by
        apply foldl_cadd_lt_INF _ _ (base ((s0.get nd).data))
        · intro c _
          exact alookupD_le_INF costs c hv
        · rw [hcand] at hlt
          exact hlt
      obtain ⟨ts, hvs, hfold⟩ :=
        build_subs s0 base costs extr hC (s0.get nd).children hchroots hfin
      refine ⟨nd, .mk nd ts, alookup_aupdate_self extr r' nd hrke, ?_, rfl, ?_⟩
      · rw [← hr]
        exact ValidT.mk nd ts hnd hlive hvs
      · show costL s0 base (base ((s0.get nd).data)) ts = cand
        rw [hfold, hcand]
        rfl
    · rw [alookupD_aupdate_ne costs r cand r' INF hr'] at hlt ⊢
      obtain ⟨nd', t', hnd', hvt', hhd', hcost'⟩ := hC r' hlt
      exact ⟨nd', t', by rw [alookup_aupdate_ne extr r nd r' hr']; exact hnd',
        hvt', hhd', hcost'⟩
  · have hunf : relax r cand nd costs extr q = (costs, extr, q) := by
      unfold relax
      rw [if_neg hfire]
    rw [hunf]
    exact hC

end RelaxCore

section SeedC2

variable {D : Type} [DecidableEq D] [Inhabited D]

theorem seedYs_c2 (s0 : EG D) (hI0 : EGInv s0) (base : D → Nat) (s : EG D)
    (hF : Frame s0 s) (r : Nat) (hrk : r ∈ s0.rootsL) (rrem : List Nat) :
    ∀ (ys : List Nat) (costs extr q : List (Nat × Nat)),
      MInv s0 costs extr → CInvP s0 base costs extr →
      (∀ j ∈ ys, j < s0.n ∧ (s0.get j).inHC = true ∧ s0.rootOf j = r) →
      (∀ p, p < s0.n → (s0.get p).inHC = true →
        stabP s0 base costs q p ∨
        ((s0.get p).children = [] ∧ s0.rootOf p ∈ rrem) ∨
        ((s0.get p).children = [] ∧ s0.rootOf p = r ∧ p ∈ ys)) →
      MInv s0 (seedYs s base r ys costs extr q).1
        (seedYs s base r ys costs extr q).2.1 ∧
      CInvP s0 base (seedYs s base r ys costs extr q).1
        (seedYs s base r ys costs extr q).2.1 ∧
      (∀ p, p < s0.n → (s0.get p).inHC = true →
        stabP s0 base (seedYs s base r ys costs extr q).1
          (seedYs s base r ys costs extr q).2.2 p ∨
        ((s0.get p).children = [] ∧ s0.rootOf p ∈ rrem)) := by
  intro ys
  induction ys with
  | nil =>
    intro costs extr q hM hC _ hstab
    refine ⟨hM, hC, ?_⟩
    intro p hp hlive
    rcases hstab p hp hlive with h | h | h
    · exact Or.inl h
    · exact Or.inr h
    · exact absurd h.2.2 (List.not_mem_nil p)
  | cons j js ih =>
    intro costs extr q hM hC hys hstab
    obtain ⟨hj, hjlive, hjr⟩ := hys j (List.mem_cons_self _ _)
    by_cases hleaf : (s.get j).children.length = 0
    · have hunf : seedYs s base r (j :: js) costs extr q =
          seedYs s base r js
            (relax r (cfn s base costs j) j costs extr q).1
            (relax r (cfn s base costs j) j costs extr q).2.1
            (relax r (cfn s base costs j) j costs extr q).2.2 := by
        show (if (s.get j).children.length = 0 then _ else _) = _
        rw [if_pos hleaf]
      rw [hunf]
      have hcand : cfn s base costs j = cfn s0 base costs j :=
        cfn_frame s0 s hF base costs j
      have hchroots : ∀ c ∈ (s0.get j).children, s0.rootOf c = c :=
        fun c hc => rootOf_of_root s0 c (hI0.hcChildRoot j hj hjlive c hc)
      refine ih _ _ _
        (relax_minv s0 costs extr q r (cfn s base costs j) j hM hjr hrk)
        (relax_cinv s0 base costs extr q r (cfn s base costs j) j hM hrk hjr
          hcand hj hjlive hchroots hC)
        (fun x hx => hys x (List.mem_cons_of_mem _ hx)) ?_
      intro p hp hlive
      rcases hstab p hp hlive with h | h | ⟨hpl, hpr, hpm⟩
      · exact Or.inl (relax_stab_pres s0 base costs extr q r
          (cfn s base costs j) j hM.1 hrk p h)
      · exact Or.inr (Or.inl h)
      · rcases List.mem_cons.1 hpm with hpj | hpj
        · rw [hpj]
          exact Or.inl (relax_stab_self s0 base costs extr q r
            (cfn s base costs j) j hM.1 hrk hjr hcand)
        · exact Or.inr (Or.inr ⟨hpl, hpr, hpj⟩)
    · have hunf : seedYs s base r (j :: js) costs extr q =
          seedYs s base r js costs extr q := by
        show (if (s.get j).children.length = 0 then _ else _) = _
        rw [if_neg hleaf]
      rw [hunf]
      refine ih _ _ _ hM hC (fun x hx => hys x (List.mem_cons_of_mem _ hx)) ?_
      intro p hp hlive
      rcases hstab p hp hlive with h | h | ⟨hpl, hpr, hpm⟩
      · exact Or.inl h
      · exact Or.inr (Or.inl h)
      · rcases List.mem_cons.1 hpm with hpj | hpj
        · rw [hpj] at hpl
          rw [hF.children_eq j, hpl] at hleaf
          exact absurd rfl hleaf
        · exact Or.inr (Or.inr ⟨hpl, hpr, hpj⟩)

theorem seedLoop_c2 (s0 : EG D) (hI0 : EGInv s0) (base : D → Nat) :
    ∀ (roots : List Nat) (s : EG D) (costs extr q : List (Nat × Nat)),
      EGInv s → Frame s0 s → MInv s0 costs extr → CInvP s0 base costs extr →
      (∀ r ∈ roots, r ∈ s0.rootsL) →
      (∀ p, p < s0.n → (s0.get p).inHC = true →
        stabP s0 base costs q p ∨
        ((s0.get p).children = [] ∧ s0.rootOf p ∈ roots)) →
      MInv s0 (seedLoop base roots s costs extr q).2.1
        (seedLoop base roots s costs extr q).2.2.1 ∧
      CInvP s0 base (seedLoop base roots s costs extr q).2.1
        (seedLoop base roots s costs extr q).2.2.1 ∧
      (∀ p, p < s0.n → (s0.get p).inHC = true →
        stabP s0 base (seedLoop base roots s costs extr q).2.1
          (seedLoop base roots s costs extr q).2.2.2 p) := by
  intro roots
  induction roots with
  | nil =>
    intro s costs extr q _ _ hM hC _ hstab
    refine ⟨hM, hC, ?_⟩
    intro p hp hlive
    rcases hstab p hp hlive with h | h
    · exact h
    · exact absurd h.2 (List.not_mem_nil _)
  | cons r rest ih =>
    intro s costs extr q hI hF hM hC hroots hstab
    have hrk : r ∈ s0.rootsL := hroots r (List.mem_cons_self _ _)
    obtain ⟨hr0, hup0⟩ := (hI0.rootsIff r).1 hrk
    have hrr : s0.rootOf r = r := rootOf_of_root s0 r hup0
    have hr : r < s.n := by rw [hF.n_eq]; exact hr0
    obtain ⟨hI1, hF1, hroot1, hnd1, hmem1⟩ := classIter_spec s hI r hr
    have hys : ∀ j ∈ (s.classIter r).2.2,
        j < s0.n ∧ (s0.get j).inHC = true ∧ s0.rootOf j = r := by
      intro j hjm
      obtain ⟨hjn, hjc, hjr⟩ := (hmem1 j).1 hjm
      refine ⟨by rw [← hF.n_eq]; exact hjn, by rw [← hF.inHC_eq]; exact hjc, ?_⟩
      rw [← hF.root_eq j, hjr, hF.root_eq r, hrr]
    have hstab2 : ∀ p, p < s0.n → (s0.get p).inHC = true →
        stabP s0 base costs q p ∨
        ((s0.get p).children = [] ∧ s0.rootOf p ∈ rest) ∨
        ((s0.get p).children = [] ∧ s0.rootOf p = r ∧
          p ∈ (s.classIter r).2.2) := by
      intro p hp hlive
      rcases hstab p hp hlive with h | ⟨hpl, hpm⟩
      · exact Or.inl h
      · rcases List.mem_cons.1 hpm with hpr | hpr
        · refine Or.inr (Or.inr ⟨hpl, hpr, ?_⟩)
          apply (hmem1 p).2
          refine ⟨by rw [hF.n_eq]; exact hp, by rw [hF.inHC_eq]; exact hlive, ?_⟩
          rw [hF.root_eq p, hF.root_eq r, hpr, hrr]
        · exact Or.inr (Or.inl ⟨hpl, hpr⟩)
    obtain ⟨hM2, hC2, hstab3⟩ := seedYs_c2 s0 hI0 base (s.classIter r).1
      (frame_trans hF hF1) r hrk rest (s.classIter r).2.2 costs extr q hM hC hys hstab2
    have hunf : seedLoop base (r :: rest) s costs extr q =
        seedLoop base rest (s.classIter r).1
          (seedYs (s.classIter r).1 base r (s.classIter r).2.2 costs extr q).1
          (seedYs (s.classIter r).1 base r (s.classIter r).2.2 costs extr q).2.1
          (seedYs (s.classIter r).1 base r (s.classIter r).2.2 costs extr q).2.2 := rfl
    rw [hunf]
    exact ih (s.classIter r).1 _ _ _ hI1 (frame_trans hF hF1) hM2 hC2
      (fun x hx => hroots x (List.mem_cons_of_mem _ hx)) hstab3
end SeedC2

section LoopC2

variable {D : Type} [DecidableEq D] [Inhabited D]

theorem relaxUses_c2 (s0 : EG D) (hI0 : EGInv s0) (base : D → Nat) :
    ∀ (l : List (Nat × Nat)) (s : EG D) (costs extr q : List (Nat × Nat)),
      EGInv s → Frame s0 s → MInv s0 costs extr → CInvP s0 base costs extr →
      (∀ pk ∈ l, pk.1 < s0.n) →
      (∀ p, p < s0.n → (s0.get p).inHC = true →
        stabP s0 base costs q p ∨ ∃ k, (p, k) ∈ l) →
      MInv s0 (relaxUses base l s costs extr q).2.1
        (relaxUses base l s costs extr q).2.2.1 ∧
      CInvP s0 base (relaxUses base l s costs extr q).2.1
        (relaxUses base l s costs extr q).2.2.1 ∧
      (∀ p, p < s0.n → (s0.get p).inHC = true →
        stabP s0 base (relaxUses base l s costs extr q).2.1
          (relaxUses base l s costs extr q).2.2.2 p) := by
  intro l
  induction l with
  | nil =>
    intro s costs extr q _ _ hM hC _ hstab
    refine ⟨hM, hC, ?_⟩
    intro p hp hlive
    rcases hstab p hp hlive with h | ⟨k, hk⟩
    · exact h
    · exact absurd hk (List.not_mem_nil _)
  | cons pk rest ih =>
    intro s costs extr q hI hF hM hC hbnd hstab
    obtain ⟨p0, k0⟩ := pk
    have hp0 : p0 < s0.n := hbnd (p0, k0) (List.mem_cons_self _ _)
    by_cases hhc : (s.get p0).inHC = true
    · have hunf : relaxUses base ((p0, k0) :: rest) s costs extr q =
          relaxUses base rest (s.rootC p0).1
            (relax (s.rootC p0).2 (cfn s base costs p0) p0 costs extr q).1
            (relax (s.rootC p0).2 (cfn s base costs p0) p0 costs extr q).2.1
            (relax (s.rootC p0).2 (cfn s base costs p0) p0 costs extr q).2.2 := by
        show (if (s.get p0).inHC = true then _ else _) = _
        rw [if_pos hhc]
      rw [hunf]
      obtain ⟨hI1, hP1⟩ := rootC_egInv s hI p0
      have hUF0 := egInv_UF hI0
      have hlive0 : (s0.get p0).inHC = true := by rw [← hF.inHC_eq]; exact hhc
      have hr : s0.rootOf p0 = (s.rootC p0).2 := (hF.root_eq p0).symm
      have hrk0 : s0.rootOf p0 ∈ s0.rootsL := (hI0.rootsIff _).2
        ⟨rootOf_lt s0 hUF0 p0 hp0, up_rootOf s0 hUF0 p0 hp0⟩
      have hrk : (s.rootC p0).2 ∈ s0.rootsL := by rw [← hr]; exact hrk0
      have hcand : cfn s base costs p0 = cfn s0 base costs p0 :=
        cfn_frame s0 s hF base costs p0
      have hchroots : ∀ c ∈ (s0.get p0).children, s0.rootOf c = c :=
        fun c hc => rootOf_of_root s0 c (hI0.hcChildRoot p0 hp0 hlive0 c hc)
      refine ih (s.rootC p0).1 _ _ _ hI1 (frame_trans hF (frame_of_pureUp hP1))
        (relax_minv s0 costs extr q (s.rootC p0).2 (cfn s base costs p0) p0
          hM hr hrk)
        (relax_cinv s0 base costs extr q (s.rootC p0).2 (cfn s base costs p0)
          p0 hM hrk hr hcand hp0 hlive0 hchroots hC)
        (fun x hx => hbnd x (List.mem_cons_of_mem _ hx)) ?_
      intro p hp hlive
      rcases hstab p hp hlive with h | ⟨k, hk⟩
      · exact Or.inl (relax_stab_pres s0 base costs extr q (s.rootC p0).2
          (cfn s base costs p0) p0 hM.1 hrk p h)
      · rcases List.mem_cons.1 hk with hk1 | hk1
        · have hpp0 : p = p0 := congrArg Prod.fst hk1
          rw [hpp0]
          exact Or.inl (relax_stab_self s0 base costs extr q (s.rootC p0).2
            (cfn s base costs p0) p0 hM.1 hrk hr hcand)
        · exact Or.inr ⟨k, hk1⟩
    · have hunf : relaxUses base ((p0, k0) :: rest) s costs extr q =
          relaxUses base rest s costs extr q := by
        show (if (s.get p0).inHC = true then _ else _) = _
        rw [if_neg hhc]
      rw [hunf]
      refine ih s _ _ _ hI hF hM hC
        (fun x hx => hbnd x (List.mem_cons_of_mem _ hx)) ?_
      intro p hp hlive
      rcases hstab p hp hlive with h | ⟨k, hk⟩
      · exact Or.inl h
      · rcases List.mem_cons.1 hk with hk1 | hk1
        · have hpp0 : p = p0 := congrArg Prod.fst hk1
          rw [hpp0, ← hF.inHC_eq p0] at hlive
          exact absurd hlive hhc
        · exact Or.inr ⟨k, hk1⟩

theorem extractLoop_c2 (s0 : EG D) (hI0 : EGInv s0) (base : D → Nat) :
    ∀ (fuel : Nat) (s : EG D) (costs extr q : List (Nat × Nat)),
      EGInv s → Frame s0 s → MInv s0 costs extr → CInvP s0 base costs extr →
      (∀ p, p < s0.n → (s0.get p).inHC = true → stabP s0 base costs q p) →
      MInv s0 (extractLoop base fuel s costs extr q).2.1
        (extractLoop base fuel s costs extr q).2.2.1 ∧
      CInvP s0 base (extractLoop base fuel s costs extr q).2.1
        (extractLoop base fuel s costs extr q).2.2.1 ∧
      (∀ p, p < s0.n → (s0.get p).inHC = true →
        stabP s0 base (extractLoop base fuel s costs extr q).2.1
          (extractLoop base fuel s costs extr q).2.2.2 p) := by
  intro fuel
  induction fuel with
  | zero => intro s costs extr q _ _ hM hC hstab; exact ⟨hM, hC, hstab⟩
  | succ fuel ih =>
    intro s costs extr q hI hF hM hC hstab
    cases hmq : minItem q with
    | none =>
      simp only [extractLoop, hmq]
      exact ⟨hM, hC, hstab⟩
    | some it =>
      simp only [extractLoop, hmq]
      by_cases hc : alookupD costs it.1 INF = it.2
      · rw [if_pos hc]
        have hbnd : ∀ pk ∈ (s.get it.1).uses, pk.1 < s0.n := by
          by_cases hin : it.1 < s0.n
          · intro pk hpk
            rw [hF.uses_eq it.1] at hpk
            exact (hI0.usesWF it.1 hin pk hpk).1
          · intro pk hpk
            rw [EG.get_out s it.1 (by rw [hF.n_eq]; omega)] at hpk
            exact absurd hpk (List.not_mem_nil pk)
        have hwalk : ∀ p, p < s0.n → (s0.get p).inHC = true →
            stabP s0 base costs (q.erase it) p ∨
            ∃ k, (p, k) ∈ (s.get it.1).uses := by
          intro p hp hlive
          rcases hstab p hp hlive with hcost | ⟨c, hcch, hmemq⟩
          · exact Or.inl (Or.inl hcost)
          · by_cases hce : (c, alookupD costs c INF) = it
            · right
              have hcit : c = it.1 := congrArg Prod.fst hce
              obtain ⟨k0, hk0, hck⟩ := List.mem_iff_getElem.1 hcch
              obtain ⟨r', hr', hpk⟩ := hI0.usesCompl p hp hlive k0 hk0
              have hacc := hI0.usesAcc r' hr' (p, k0) hpk hlive
              have hgd : (s0.get p).children.getD k0 0 = c := by
                rw [List.getD_eq_getElem _ _ hk0]
                exact hck
              have hr'c : r' = it.1 := by rw [← hcit, ← hgd, hacc]
              refine ⟨k0, ?_⟩
              rw [hF.uses_eq it.1, ← hr'c]
              exact hpk
            · left
              right
              exact ⟨c, hcch, (List.mem_erase_of_ne hce).2 hmemq⟩
        obtain ⟨hM2, hC2, hstab2⟩ := relaxUses_c2 s0 hI0 base
          ((s.get it.1).uses) s costs extr (q.erase it) hI hF hM hC hbnd hwalk
        obtain ⟨hI2, hF2⟩ :=
          relaxUses_state base ((s.get it.1).uses) s costs extr (q.erase it) hI
        exact ih _ _ _ _ hI2 (frame_trans hF hF2) hM2 hC2 hstab2
      · rw [if_neg hc]
        refine ih s costs extr (q.erase it) hI hF hM hC ?_
        intro p hp hlive
        rcases hstab p hp hlive with hcost | ⟨c, hcch, hmemq⟩
        · exact Or.inl hcost
        · right
          refine ⟨c, hcch, ?_⟩
          refine (List.mem_erase_of_ne ?_).2 hmemq
          intro hce
          apply hc
          have hcit : c = it.1 := congrArg Prod.fst hce
          have hv : alookupD costs c INF = it.2 := congrArg Prod.snd hce
          rw [← hcit]
          exact hv

end LoopC2

section LowerBound

variable {D : Type} [DecidableEq D] [Inhabited D]

mutual

theorem lb_T (s0 : EG D) (base : D → Nat) (costsF : List (Nat × Nat))
    (hI0 : EGInv s0)
    (hS : ∀ p, p < s0.n → (s0.get p).inHC = true →
      alookupD costsF (s0.rootOf p) INF ≤ cfn s0 base costsF p) :
    ∀ (t : GT) (r : Nat), ValidT s0 r t →
      alookupD costsF r INF ≤ costT s0 base t
  | .mk p subs, r, hv => by
    cases hv with
    | mk _ _ hp hhc hsubs =>
      have h1 := hS p hp hhc
      have hchroots : ∀ c ∈ (s0.get p).children, s0.rootOf c = c :=
        fun c hc => rootOf_of_root s0 c (hI0.hcChildRoot p hp hhc c hc)
      have h2 := lb_L s0 base costsF hI0 hS subs (s0.get p).children
        (base ((s0.get p).data)) (base ((s0.get p).data)) hsubs
        (le_refl _) hchroots
      unfold cfn at h1
      exact le_trans h1 h2

theorem lb_L (s0 : EG D) (base : D → Nat) (costsF : List (Nat × Nat))
    (hI0 : EGInv s0)
    (hS : ∀ p, p < s0.n → (s0.get p).inHC = true →
      alookupD costsF (s0.rootOf p) INF ≤ cfn s0 base costsF p) :
    ∀ (ts : GTList) (cs : List Nat) (acc acc' : Nat),
      ValidSubs s0 cs ts → acc ≤ acc' → (∀ c ∈ cs, s0.rootOf c = c) →
      List.foldl (fun a c => cadd a (alookupD costsF c INF)) acc cs ≤
        costL s0 base acc' ts
  | .nil, cs, acc, acc', hvs, hacc, _ => by
    cases hvs
    simpa using hacc
  | .cons t ts, cs, acc, acc', hvs, hacc, hroots => by
    cases hvs with
    | cons c cs2 t2 ts2 hvt hvsub =>
      have hc := hroots c (List.mem_cons_self _ _)
      have hsub := lb_T s0 base costsF hI0 hS t (s0.rootOf c) hvt
      rw [hc] at hsub
      show List.foldl _ (cadd acc (alookupD costsF c INF)) cs2 ≤
        costL s0 base (cadd acc' (costT s0 base t)) ts
      exact lb_L s0 base costsF hI0 hS ts cs2 _ _ hvsub
        (cadd_mono hacc hsub) (fun x hx => hroots x (List.mem_cons_of_mem _ hx))

end

theorem alookupD_init_const (l : List Nat) (c x d : Nat) :
    alookupD (l.map fun r => (r, c)) x d = if x ∈ l then c else d := by
  unfold alookupD
  rw [alookup_init_const]
  by_cases hx : x ∈ l
  · rw [if_pos hx, if_pos hx]
    rfl
  · rw [if_neg hx, if_neg hx]
    rfl

end LowerBound

section ClaimC2

variable {D : Type} [DecidableEq D] [Inhabited D]

/-- C2: Optimal extraction.  For a reachable state, a strictly positive
per-data cost, and enough fuel that the priority queue has drained
(`extract`'s loop in the source runs to completion; the model's fuel is
an artifact), the cost recorded for each class root `r` is the exact
minimum over all valid term selections rooted at `r`: it lower-bounds
the saturating cost of every valid term, and whenever it is finite it is
attained by a valid term headed by the recorded representative node. -/
theorem claim_C2 (s : EG D) (h : Reach s) (base : D → Nat)
    (hpos : ∀ d, 0 < base d) (fuel : Nat)
    (hdone : (s.extract base fuel).2.2.2 = []) :
    ∀ r ∈ s.rootsL,
      (∀ t, ValidT s r t →
        alookupD (s.extract base fuel).2.1 r INF ≤ costT s base t) ∧
      (alookupD (s.extract base fuel).2.1 r INF < INF →
        ∃ nd t, alookup (s.extract base fuel).2.2.1 r = some nd ∧
          ValidT s r t ∧ GT.headN t = nd ∧
          costT s base t = alookupD (s.extract base fuel).2.1 r INF) := by
  have hI := reach_inv s h
  have hUF := egInv_UF hI
  have hM0 : MInv s (s.rootsL.map fun r => (r, INF))
      (s.rootsL.map fun r => (r, r)) := by
    refine ⟨init_keys_const s.rootsL INF, init_keys_id s.rootsL, ?_, ?_, ?_⟩
    · intro r v hl
      rw [alookup_init_const] at hl
      split at hl
      · cases hl
        exact le_refl INF
      · cases hl
    · intro r hmem _
      rw [alookup_init_id, if_pos hmem]
    · intro r nd hl
      rw [alookup_init_id] at hl
      split at hl
      · rename_i hmem
        cases hl
        exact rootOf_of_root s r ((hI.rootsIff r).1 hmem).2
      · cases hl
  have hall0 : ∀ x, alookupD (s.rootsL.map fun r => (r, INF)) x INF = INF := by
    intro x
    rw [alookupD_init_const]
    split
    · rfl
    · rfl
  have hC0 : CInvP s base (s.rootsL.map fun r => (r, INF))
      (s.rootsL.map fun r => (r, r)) := by
    intro r hlt
    rw [hall0 r] at hlt
    exact absurd hlt (lt_irrefl INF)
  have hstab0 : ∀ p, p < s.n → (s.get p).inHC = true →
      stabP s base (s.rootsL.map fun r => (r, INF)) [] p ∨
      ((s.get p).children = [] ∧ s.rootOf p ∈ s.rootsL) := by
    intro p hp hlive
    by_cases hch : (s.get p).children = []
    · refine Or.inr ⟨hch, (hI.rootsIff _).2 ?_⟩
      exact ⟨rootOf_lt s hUF p hp, up_rootOf s hUF p hp⟩
    · left
      left
      rw [hall0]
      unfold cfn
      rw [foldl_cadd_all_INF _ (s.get p).children _ hch (fun c _ => hall0 c)]
  obtain ⟨hM1, hC1, hstab1⟩ := seedLoop_c2 s hI base s.rootsL s
    (s.rootsL.map fun r => (r, INF)) (s.rootsL.map fun r => (r, r)) []
    hI (frame_refl s) hM0 hC0 (fun r hr => hr) hstab0
  obtain ⟨hIsd, hFsd⟩ := seedLoop_state base s.rootsL s
    (s.rootsL.map fun r => (r, INF)) (s.rootsL.map fun r => (r, r)) []
    hI (fun r hr => ((hI.rootsIff r).1 hr).1)
  obtain ⟨hMf, hCf, hstabf⟩ := extractLoop_c2 s hI base fuel
    (seedLoop base s.rootsL s (s.rootsL.map fun r => (r, INF))
      (s.rootsL.map fun r => (r, r)) []).1
    (seedLoop base s.rootsL s (s.rootsL.map fun r => (r, INF))
      (s.rootsL.map fun r => (r, r)) []).2.1
    (seedLoop base s.rootsL s (s.rootsL.map fun r => (r, INF))
      (s.rootsL.map fun r => (r, r)) []).2.2.1
    (seedLoop base s.rootsL s (s.rootsL.map fun r => (r, INF))
      (s.rootsL.map fun r => (r, r)) []).2.2.2
    hIsd hFsd hM1 hC1 hstab1
  have hS : ∀ p, p < s.n → (s.get p).inHC = true →
      alookupD (s.extract base fuel).2.1 (s.rootOf p) INF ≤
        cfn s base (s.extract base fuel).2.1 p := by
    intro p hp hlive
    rcases hstabf p hp hlive with h1 | ⟨c, hc, hmem⟩
    · exact h1
    · have hmem2 : (c, alookupD (s.extract base fuel).2.1 c INF) ∈
          (s.extract base fuel).2.2.2 := hmem
      rw [hdone] at hmem2
      exact absurd hmem2 (List.not_mem_nil _)
  intro r _
  constructor
  · intro t hvt
    exact lb_T s base (s.extract base fuel).2.1 hI hS t r hvt
  · intro hlt
    exact hCf r hlt

theorem claim_C2_witness :
    (∀ t, ValidT (((egEmpty Nat).node 5 []).1) 0 t →
      alookupD ((((egEmpty Nat).node 5 []).1).extract (fun d => d + 1) 2).2.1
          0 INF ≤ costT (((egEmpty Nat).node 5 []).1) (fun d => d + 1) t) ∧
    (alookupD ((((egEmpty Nat).node 5 []).1).extract (fun d => d + 1) 2).2.1
        0 INF < INF →
      ∃ nd t, alookup
          ((((egEmpty Nat).node 5 []).1).extract (fun d => d + 1) 2).2.2.1 0 =
          some nd ∧
        ValidT (((egEmpty Nat).node 5 []).1) 0 t ∧ GT.headN t = nd ∧
        costT (((egEmpty Nat).node 5 []).1) (fun d => d + 1) t =
          alookupD ((((egEmpty Nat).node 5 []).1).extract (fun d => d + 1) 2).2.1
            0 INF) :=
  claim_C2 (((egEmpty Nat).node 5 []).1)
    (Reach.node (egEmpty Nat) 5 [] Reach.empty
      (fun c hc => absurd hc (List.not_mem_nil c)))
    (fun d => d + 1) (fun d => Nat.succ_pos d) 2 (by decide) 0 (by decide)

end ClaimC2
